import Mathlib

/-!
# Verification of the go-piml codec

A shallow embedding of the PIML encoder (`marshal.go`), decoder
(`unmarshal.go`) and type-resolution layer (`findStructField`) of the
`fezcode/go-piml` repository, together with proofs settling the frozen
claims about the natural-language specification.

Strings are modelled as `List Char` (the inputs relevant to the claims are
ASCII, where Go's byte indexing and Lean's character lists agree).
`reflect.Value` is modelled by the typed value tree `RVal`, and
`reflect.Type` by `RTy`.  Decoder recursion is modelled with explicit fuel;
every theorem about the decoder either fixes a concrete fuel or quantifies
over sufficiently large fuel.
-/

namespace Piml

abbrev Str := List Char

/-- Whitespace predicate matching Go `unicode.IsSpace` on the ASCII range
(the only characters the modelled inputs contain). -/
def isSpaceChar (c : Char) : Bool :=
  c = ' ' || c = '\t' || c = '\n' || c = '\r' || c = '\x0B' || c = '\x0C'

/-- Model of `strings.TrimSpace` acting from the left only. -/
def trimLeftS (s : Str) : Str := s.dropWhile isSpaceChar

/-- Model of `strings.TrimSpace` acting from the right only. -/
def trimRightS (s : Str) : Str := (s.reverse.dropWhile isSpaceChar).reverse

/-- Model of `strings.TrimSpace`. -/
def trimS (s : Str) : Str := trimLeftS (trimRightS s)

/-- Comment stripping from `Decoder.peek` step 1:
`strings.Index(cleanLine, "#")` followed by truncation keeps exactly the
characters before the first `'#'`. -/
def stripComment (s : Str) : Str := s.takeWhile (fun c => c ≠ '#')

/-- Indentation counting from `Decoder.peek` step 3: count leading spaces,
fail (`none`) on a tab before the first non-space character. -/
def countIndent : Str → Option Nat
  | [] => some 0
  | c :: r =>
    if c = ' ' then (countIndent r).map (· + 1)
    else if c = '\t' then none
    else some 0

/-- Position of the first occurrence of a character
(`strings.Index` specialised to one-character needles). -/
def findCharIdx (c : Char) : Str → Option Nat
  | [] => none
  | x :: r => if x = c then some 0 else (findCharIdx c r).map (· + 1)

/-- The `lineType` enumeration of `unmarshal.go`. -/
inductive LineKind where
  | blank | keyValue | keyOnly | arrayItem | setItem | arrayObject | multiLine
deriving DecidableEq, Repr

/-- The `lineInfo` record of `unmarshal.go`. -/
structure LineInfo where
  indent : Nat
  key : Str
  value : Str
  lineType : LineKind
deriving DecidableEq, Repr

/-- Error taxonomy of the package, refined so that proofs can distinguish
syntax errors, type mismatches, and the key-wrapping of
`decodeObject` (`fmt.Errorf("piml: error ... field %q: %w", key, err)`). -/
inductive PErr where
  /-- `ErrSyntax`: tab used for indentation. -/
  | tabIndent
  /-- `ErrSyntax`: `(` with no matching `)`. -/
  | missingParen
  /-- `ErrSyntax`: line kind illegal in its structural position. -/
  | badLineKind
  /-- `ErrInvalidUnmarshal`. -/
  | invalidUnmarshal
  /-- `strconv` parse failure (`invalid integer/unsigned/boolean value`). -/
  | parseFail
  /-- `piml: integer overflow` / `float overflow` (`OverflowInt`/`OverflowUint`). -/
  | overflow
  /-- `piml: cannot assign nil to non-nillable type`. -/
  | nilToNonNilable
  /-- `piml: cannot unmarshal primitive into ...` and similar kind errors. -/
  | badKind
  /-- `ErrUnsupportedType` (encoder). -/
  | unsupportedType
  /-- Wrapper added by `decodeObject`: `error setting/decoding field %q`. -/
  | fieldErr (key : Str) (inner : PErr)
  /-- Fuel exhaustion of the embedding (never reached with enough fuel). -/
  | outOfFuel
deriving DecidableEq, Repr

/-- Line classification: the body of the scanning loop of `Decoder.peek`
(`unmarshal.go` lines 65-135).  `none` means the line is blank or
comment-only and is skipped. -/
def classifyLine (fullLine : Str) : Except PErr (Option LineInfo) :=
  let cleanLine := stripComment fullLine
  if trimS cleanLine = [] then .ok none
  else
    match countIndent cleanLine with
    | none => .error .tabIndent
    | some indent =>
      let lineContent := trimS cleanLine
      if ['>', ' ', '('].isPrefixOf lineContent then
        .ok (some ⟨indent, [], [], .arrayObject⟩)
      else if ['>', '|'].isPrefixOf lineContent then
        .ok (some ⟨indent, [], trimS (lineContent.drop 2), .setItem⟩)
      else if ['>'].isPrefixOf lineContent then
        .ok (some ⟨indent, [], trimS (lineContent.drop 1), .arrayItem⟩)
      else if ['('].isPrefixOf lineContent then
        match findCharIdx ')' lineContent with
        | none => .error .missingParen
        | some closeParen =>
          let key := (lineContent.take closeParen).drop 1
          let value := trimS (lineContent.drop (closeParen + 1))
          if value = [] then .ok (some ⟨indent, key, [], .keyOnly⟩)
          else .ok (some ⟨indent, key, value, .keyValue⟩)
      else
        .ok (some ⟨indent, [], cleanLine, .multiLine⟩)

/-- Convert a Lean string literal to the `List Char` representation. -/
def strL (s : String) : Str := s.data

/-! ## The reflection layer

`RTy` models `reflect.Type` and `RVal` models `reflect.Value` for the type
universe the claims exercise: strings, sized signed/unsigned integers,
booleans, structs (with `piml` tags and anonymous/embedded flags), slices,
string-keyed maps and pointers.  `time.Time` and floating-point kinds are
outside the embedding (floating point is not shallowly statable); no claim
theorem depends on them.  Go maps are modelled as association lists; the
modelled iteration order is list order. -/

/-- `reflect.Type` for the modelled universe.  A struct field type is the
tuple (Go field name, `piml` tag, anonymous/embedded flag, field type). -/
inductive RTy where
  | tstr : RTy
  | tbool : RTy
  | tint (w : Nat) : RTy
  | tuint (w : Nat) : RTy
  | trec (fs : List (Str × Str × Bool × RTy)) : RTy
  | tlist (elem : RTy) : RTy
  | tmap (elem : RTy) : RTy
  | tptr (elem : RTy) : RTy

/-- `reflect.Value`.  A struct field is the tuple
(Go field name, `piml` tag, anonymous/embedded flag, field value). -/
inductive RVal where
  | rstr (s : Str) : RVal
  | rbool (b : Bool) : RVal
  | rint (w : Nat) (n : Int) : RVal
  | ruint (w : Nat) (n : Nat) : RVal
  | rrec (fs : List (Str × Str × Bool × RVal)) : RVal
  | rlist (elem : RTy) (elems : Option (List RVal)) : RVal
  | rmap (elem : RTy) (entries : Option (List (Str × RVal))) : RVal
  | rptr (elem : RTy) (v : Option RVal) : RVal

-- The zero `reflect.Value` of a type (`reflect.New(t).Elem()`).
mutual
def zeroVal : RTy → RVal
  | .tstr => .rstr []
  | .tbool => .rbool false
  | .tint w => .rint w 0
  | .tuint w => .ruint w 0
  | .trec fs => .rrec (zeroFields fs)
  | .tlist t => .rlist t none
  | .tmap t => .rmap t none
  | .tptr t => .rptr t none

def zeroFields : List (Str × Str × Bool × RTy) → List (Str × Str × Bool × RVal)
  | [] => []
  | (n, t, a, ty) :: fs => (n, t, a, zeroVal ty) :: zeroFields fs
end

-- The static type of a value (`reflect.Value.Type()`).
mutual
def typeOf : RVal → RTy
  | .rstr _ => .tstr
  | .rbool _ => .tbool
  | .rint w _ => .tint w
  | .ruint w _ => .tuint w
  | .rrec fs => .trec (typeOfFields fs)
  | .rlist t _ => .tlist t
  | .rmap t _ => .tmap t
  | .rptr t _ => .tptr t

def typeOfFields : List (Str × Str × Bool × RVal) → List (Str × Str × Bool × RTy)
  | [] => []
  | (n, t, a, v) :: fs => (n, t, a, typeOf v) :: typeOfFields fs
end

/-! ## Scalar codec (the `strconv` layer) -/

def digitChar (n : Nat) : Char := Char.ofNat (48 + n)

def natDigitsAux : Nat → Nat → Str
  | 0, _ => []
  | fuel + 1, n =>
    if n < 10 then [digitChar n]
    else natDigitsAux fuel (n / 10) ++ [digitChar (n % 10)]

/-- Decimal digits of a natural number, most significant first
(`strconv.FormatUint` base 10); `n + 1` units of structural fuel always
suffice since `n / 10 < n` for `n ≥ 10`. -/
def natDigits (n : Nat) : Str := natDigitsAux (n + 1) n

/-- `strconv.FormatInt(n, 10)`. -/
def formatInt (n : Int) : Str :=
  if n < 0 then '-' :: natDigits (-n).toNat else natDigits n.toNat

/-- `strconv.FormatUint(n, 10)`. -/
def formatUint (n : Nat) : Str := natDigits n

/-- `strconv.FormatBool`. -/
def formatBool (b : Bool) : Str := if b then strL "true" else strL "false"

def digitVal (c : Char) : Option Nat :=
  if '0' ≤ c ∧ c ≤ '9' then some (c.toNat - 48) else none

def parseDigitsAux : Str → Nat → Option Nat
  | [], acc => some acc
  | c :: r, acc =>
    match digitVal c with
    | none => none
    | some d => parseDigitsAux r (acc * 10 + d)

/-- A non-empty all-decimal-digit string evaluated as a natural number. -/
def parseDigits (s : Str) : Option Nat :=
  if s = [] then none else parseDigitsAux s 0

/-- `strconv.ParseInt(s, 10, 64)`: optional sign, decimal digits, value in
the 64-bit signed range; `none` covers both syntax and range errors (the
decoder only tests `err != nil`). -/
def parseIntGo (s : Str) : Option Int :=
  match s with
  | [] => none
  | c :: r =>
    let rest := if c = '+' ∨ c = '-' then r else s
    let neg := c = '-'
    match parseDigits rest with
    | none => none
    | some n =>
      if neg then
        if n ≤ 2 ^ 63 then some (-(n : Int)) else none
      else
        if n < 2 ^ 63 then some (n : Int) else none

/-- `strconv.ParseUint(s, 10, 64)`: no sign permitted, decimal digits,
value below `2^64`. -/
def parseUintGo (s : Str) : Option Nat :=
  match parseDigits s with
  | none => none
  | some n => if n < 2 ^ 64 then some n else none

/-- `strconv.ParseBool`: the twelve accepted literals. -/
def parseBoolGo (s : Str) : Option Bool :=
  if s = strL "1" ∨ s = strL "t" ∨ s = strL "T" ∨ s = strL "TRUE" ∨
     s = strL "true" ∨ s = strL "True" then some true
  else if s = strL "0" ∨ s = strL "f" ∨ s = strL "F" ∨ s = strL "FALSE" ∨
     s = strL "false" ∨ s = strL "False" then some false
  else none

/-- `reflect.Value.OverflowInt` for a `w`-bit signed destination. -/
def overflowInt (w : Nat) (i : Int) : Bool :=
  i < -((2 : Int) ^ (w - 1)) || (2 : Int) ^ (w - 1) ≤ i

/-- `reflect.Value.OverflowUint` for a `w`-bit unsigned destination. -/
def overflowUint (w : Nat) (n : Nat) : Bool := 2 ^ w ≤ n

/-- `strings.ToLower` on the ASCII range. -/
def toLowerGo (s : Str) : Str :=
  s.map (fun c => if 'A' ≤ c ∧ c ≤ 'Z' then Char.ofNat (c.toNat + 32) else c)

/-! ## The encoder (`marshal.go`) -/

/-- `isNilOrEmpty` (`marshal.go` lines 341-350). -/
def isNilOrEmpty : RVal → Bool
  | .rptr _ v => v.isNone
  | .rlist _ none => true
  | .rlist _ (some l) => l.isEmpty
  | .rmap _ none => true
  | .rmap _ (some l) => l.isEmpty
  | _ => false

/-- `strings.Repeat("  ", indent)` guarded by `indent > 0`, as computed by
the encoder functions. -/
def indentStr (indent : Int) : Str :=
  if indent > 0 then List.replicate (2 * indent.toNat) ' ' else []

/-- `strings.Split(s, "\n")`. -/
def splitOnNL : Str → List Str
  | [] => [[]]
  | c :: r =>
    if c = '\n' then [] :: splitOnNL r
    else
      match splitOnNL r with
      | [] => [[c]]
      | l :: ls => (c :: l) :: ls

/-- One line of `encodeString`'s multi-line loop: escape a leading `#`
with a backslash, then indent and terminate the line. -/
def encodeMLLine (lineIndentStr : Str) (line : Str) : Str :=
  let line' := if ['#'].isPrefixOf line then '\\' :: line else line
  lineIndentStr ++ line' ++ ['\n']

/-- `encodeString` (`marshal.go` lines 268-313). -/
def encodeString (s : Str) (indent : Int) (inArray : Bool) : Str :=
  if s.contains '\n' then
    if inArray then
      indentStr indent ++ strL "> ... (multi-line not fully supported in array yet)\n"
    else
      '\n' :: (splitOnNL s).flatMap (encodeMLLine (indentStr (indent + 1)))
  else if inArray then
    indentStr indent ++ strL "> " ++ s ++ ['\n']
  else
    ' ' :: s ++ ['\n']

/-- `writePrimitiveArrayItem`'s scalar formatting: dereference pointers,
then format by kind; aggregate kinds are `ErrUnsupportedType`. -/
def primItemText : RVal → Except PErr Str
  | .rptr _ (some w) => primItemText w
  | .rptr _ none => .error .unsupportedType
  | .rstr s => .ok s
  | .rint _ n => .ok (formatInt n)
  | .ruint _ n => .ok (formatUint n)
  | .rbool b => .ok (formatBool b)
  | .rrec _ => .error .unsupportedType
  | .rlist _ _ => .error .unsupportedType
  | .rmap _ _ => .error .unsupportedType

/-- `writePrimitiveArrayItem` (`marshal.go` lines 316-339). -/
def writePrimitiveArrayItem (v : RVal) (iStr : Str) : Except PErr Str := do
  let s ← primItemText v
  .ok (iStr ++ strL "> " ++ s ++ ['\n'])

/-- The primitive-element loop of `encodeSlice`. -/
def encodeSlicePrimItemsDef : List RVal → Str → Except PErr Str
  | [], _ => .ok []
  | e :: es, iStr =>
    match writePrimitiveArrayItem e iStr with
    | .error er => .error er
    | .ok hd =>
      match encodeSlicePrimItemsDef es iStr with
      | .error er => .error er
      | .ok tl => .ok (hd ++ tl)

-- The mutual encoder core.  Go's `encodeValue` is the nil/empty check
-- followed by the pointer-dereference loop and kind switch; to obtain a
-- structurally recursive (hence definitionally reducible) definition, the
-- nil/empty check is inlined at each call site inside the mutual block and
-- `encodeValue`/`encodeSlice` are defined as wrappers directly afterwards,
-- definitionally equal to the inlined occurrences.
mutual

/-- The pointer-dereference loop and kind switch of `encodeValue`
(`marshal.go` lines 31-157).  A nil pointer reached here (only possible
behind another pointer) leaves an invalid `reflect.Value`, which falls to
the `default` branch (`ErrUnsupportedType`). -/
def encodeNonNil : RVal → Int → Bool → Except PErr Str
  | .rptr _ (some w), indent, inArray => encodeNonNil w indent inArray
  | .rptr _ none, _, _ => .error .unsupportedType
  | .rrec fs, indent, inArray =>
    if inArray then
      match encodeStruct fs (indent + 1) with
      | .error e => .error e
      | .ok body => .ok (indentStr indent ++ strL "> (item)\n" ++ body)
    else
      match encodeStruct fs indent with
      | .error e => .error e
      | .ok body => .ok ((if indent > -1 then ['\n'] else []) ++ body)
  | .rlist t (some l), indent, inArray =>
    match
      (if l.isEmpty then (.ok [] : Except PErr Str)
       else
         match (match t with | .tptr u => u | u => u) with
         | .trec _ => encodeSliceStructItems l (indent + 1)
         | _ => encodeSlicePrimItemsDef l (indentStr (indent + 1))) with
    | .error e => .error e
    | .ok body => .ok ((if inArray then [] else ['\n']) ++ body)
  | .rlist _ none, _indent, inArray =>
    .ok ((if inArray then [] else ['\n']) ++ [])
  | .rmap _ (some m), indent, inArray =>
    match encodeMap m indent with
    | .error e => .error e
    | .ok body => .ok ((if inArray then [] else ['\n']) ++ body)
  | .rmap _ none, _indent, inArray =>
    -- `encodeMap` over the (empty) entries of a nil map writes nothing
    .ok ((if inArray then [] else ['\n']) ++ ([] : Str))
  | .rstr s, indent, inArray => .ok (encodeString s indent inArray)
  | .rint _ n, indent, inArray =>
    if inArray then .ok (indentStr indent ++ strL "> " ++ formatInt n ++ ['\n'])
    else .ok (' ' :: formatInt n ++ ['\n'])
  | .ruint _ n, indent, inArray =>
    if inArray then .ok (indentStr indent ++ strL "> " ++ formatUint n ++ ['\n'])
    else .ok (' ' :: formatUint n ++ ['\n'])
  | .rbool b, indent, inArray =>
    if inArray then .ok (indentStr indent ++ strL "> " ++ formatBool b ++ ['\n'])
    else .ok (' ' :: formatBool b ++ ['\n'])
  termination_by structural v _ _ => v

/-- `encodeStruct` (`marshal.go` lines 160-194): skip `-`-tagged fields,
default an empty tag to the lowercased field name, then emit
`indent(key)` followed by the field's value (the inlined `encodeValue`). -/
def encodeStruct : List (Str × Str × Bool × RVal) → Int → Except PErr Str
  | [], _ => .ok []
  | (name, tag, _anon, fv) :: fs, indent =>
    if tag = ['-'] then encodeStruct fs indent
    else
      match
        (if isNilOrEmpty fv then .ok (strL " nil\n")
         else encodeNonNil fv (indent + 1) false) with
      | .error e => .error e
      | .ok vout =>
        match encodeStruct fs indent with
        | .error e => .error e
        | .ok tail =>
          .ok (indentStr (indent + 1) ++
            '(' :: (if tag = [] then toLowerGo name else tag) ++ ')' :: vout ++ tail)

/-- The struct-element loop of `encodeSlice` (each element through the
inlined `encodeValue` with `inArray = true`). -/
def encodeSliceStructItems : List RVal → Int → Except PErr Str
  | [], _ => .ok []
  | e :: es, indent =>
    match (if isNilOrEmpty e then .ok [] else encodeNonNil e indent true) with
    | .error er => .error er
    | .ok hd =>
      match encodeSliceStructItems es indent with
      | .error er => .error er
      | .ok tl => .ok (hd ++ tl)

/-- `encodeMap` (`marshal.go` lines 238-264); the modelled iteration order
is association-list order. -/
def encodeMap : List (Str × RVal) → Int → Except PErr Str
  | [], _ => .ok []
  | (k, val) :: es, indent =>
    match
      (if isNilOrEmpty val then .ok (strL " nil\n")
       else encodeNonNil val (indent + 1) false) with
    | .error e => .error e
    | .ok vout =>
      match encodeMap es indent with
      | .error e => .error e
      | .ok tail => .ok (indentStr (indent + 1) ++ '(' :: k ++ ')' :: vout ++ tail)

end

/-- `encodeValue` (`marshal.go` lines 31-157): nil and empty collections
render as the literal `nil` token (or nothing inside an array), everything
else is dispatched by kind. -/
def encodeValue (v : RVal) (indent : Int) (inArray : Bool) : Except PErr Str :=
  if isNilOrEmpty v then
    if inArray then .ok [] else .ok (strL " nil\n")
  else encodeNonNil v indent inArray

/-- `encodeSlice` (`marshal.go` lines 197-234): peek at the (static)
element type, dereferenced one pointer level; struct elements go through
`encodeValue` with `inArray`, anything else through
`writePrimitiveArrayItem`. -/
def encodeSlice (elemTy : RTy) (elems : List RVal) (indent : Int) :
    Except PErr Str :=
  if elems.isEmpty then .ok []
  else
    match (match elemTy with | .tptr u => u | u => u) with
    | .trec _ => encodeSliceStructItems elems indent
    | _ => encodeSlicePrimItemsDef elems (indentStr indent)

/-- `Marshal` (`part_000` lines 37-46): encode at root indent `-1`. -/
def MarshalModel (v : RVal) : Except PErr Str := encodeValue v (-1) false

/-! ## The decoder (`unmarshal.go`)

The decoder's scanner plus one-line peek buffer is modelled functionally:
the state is the list of raw lines not yet consumed.  `skipToContent`
plays the role of `peek` (classify the next non-blank line), and returning
the pre-call line list plays the role of not consuming the buffered line
(the skipped blank lines are re-skipped on the next peek, which is
observationally identical).  The recursive routines take explicit fuel;
`PErr.outOfFuel` is never reached with enough fuel. -/

/-- `bufio.ScanLines`: drop a `'\r'` immediately before the newline. -/
def dropTrailingCR (s : Str) : Str :=
  if s.getLast? = some '\r' then s.dropLast else s

def splitLinesAux : Str → Str → List Str
  | [], acc => if acc = [] then [] else [dropTrailingCR acc.reverse]
  | c :: r, acc =>
    if c = '\n' then dropTrailingCR acc.reverse :: splitLinesAux r []
    else splitLinesAux r (c :: acc)

/-- Split a byte stream into the token sequence produced by
`bufio.Scanner` with `ScanLines`. -/
def splitLines (s : Str) : List Str := splitLinesAux s []

/-- `Decoder.peek`: skip blank/comment-only lines, classify the first
content line.  The returned line list is the input *after* that line
(consuming it); callers model "peek without consume" by continuing with
their own argument. -/
def skipToContent : List Str → Except PErr (Option (LineInfo × List Str))
  | [] => .ok none
  | l :: rest =>
    match classifyLine l with
    | .error e => .error e
    | .ok none => skipToContent rest
    | .ok (some li) => .ok (some (li, rest))

/-- The all-pointers-nil dereference: `indirect(v, true)` when every
pointer on the chain is nil allocates zeros all the way down. -/
def indirectZero : RTy → RVal
  | .tptr t => indirectZero t
  | t => zeroVal t

/-- `indirect(v, forceAlloc=true)`: dereference pointers, allocating
fresh zero values for nil ones. -/
def indirectForce : RVal → RVal
  | .rptr _ (some w) => indirectForce w
  | .rptr t none => indirectZero t
  | v => v

/-- `indirect(v, forceAlloc=false)`: dereference non-nil pointers; a nil
pointer is returned as-is (still of pointer kind). -/
def indirectNoAlloc : RVal → RVal
  | .rptr _ (some w) => indirectNoAlloc w
  | v => v

/-- Re-attach a decoded core value along a value's non-nil pointer chain
(the in-place mutation through `v.Elem()` in Go). -/
def rewrapSome : RVal → RVal → RVal
  | .rptr t (some w), x => .rptr t (some (rewrapSome w x))
  | _, x => x

def rewrapZero : RTy → RVal → RVal
  | .tptr t, x => .rptr t (some (rewrapZero t x))
  | _, x => x

/-- Re-attach a decoded core value along a pointer chain that
`indirect(v, true)` walked, including the pointers it allocated. -/
def rewrapPtrs : RVal → RVal → RVal
  | .rptr t (some w), x => .rptr t (some (rewrapPtrs w x))
  | .rptr t none, x => .rptr t (some (rewrapZero t x))
  | _, x => x

/-- The kind dispatch of `setPrimitive` after the nil check and the
pointer dereference (`unmarshal.go` lines 469-517).  `time.Time` is
outside the embedding, so every struct kind takes the
`cannot unmarshal primitive into` branch. -/
def setPrimCore : RVal → Str → Except PErr RVal
  | .rstr _, s => .ok (.rstr s)
  | .rint w _, s =>
    match parseIntGo s with
    | none => .error .parseFail
    | some i => if overflowInt w i then .error .overflow else .ok (.rint w i)
  | .ruint w _, s =>
    match parseUintGo s with
    | none => .error .parseFail
    | some n => if overflowUint w n then .error .overflow else .ok (.ruint w n)
  | .rbool _, s =>
    match parseBoolGo s with
    | none => .error .parseFail
    | some b => .ok (.rbool b)
  | _, _ => .error .badKind

/-- `setPrimitive` (`unmarshal.go` lines 446-519): the literal `nil`
first (nilable kinds are set to their zero, others are a type error),
then pointer dereference with allocation and the kind dispatch. -/
def setPrimitive (v : RVal) (valueStr : Str) : Except PErr RVal :=
  if valueStr = strL "nil" then
    match v with
    | .rptr t _ => .ok (.rptr t none)
    | .rlist t _ => .ok (.rlist t none)
    | .rmap t _ => .ok (.rmap t none)
    | _ => .error .nilToNonNilable
  else do
    let core ← setPrimCore (indirectForce v) valueStr
    .ok (rewrapPtrs v core)

-- `findStructField` (`unmarshal.go` lines 538-563), returning the index
-- path to the field (indices into nested anonymous structs).  Per field,
-- in declaration order: exact tag match, then lowercased-name match for
-- untagged fields, then recursion into anonymous struct fields regardless
-- of their tag.
mutual
def findStructFieldAux : List (Str × Str × Bool × RVal) → Str → Nat → Option (List Nat)
  | [], _, _ => none
  | (name, tag, anon, v) :: fs, key, i =>
    if tag = key then some [i]
    else if tag = [] ∧ toLowerGo name = key then some [i]
    else
      match (if anon then findStructFieldAnon v key else none) with
      | some p => some (i :: p)
      | none => findStructFieldAux fs key (i + 1)

def findStructFieldAnon : RVal → Str → Option (List Nat)
  | .rrec gs, key => findStructFieldAux gs key 0
  | _, _ => none
end

def findStructField (fs : List (Str × Str × Bool × RVal)) (key : Str) :
    Option (List Nat) := findStructFieldAux fs key 0

/-- Read the field addressed by an index path. -/
def getFieldPath : RVal → List Nat → Option RVal
  | v, [] => some v
  | .rrec fs, i :: p =>
    match fs[i]? with
    | some (_, _, _, fv) => getFieldPath fv p
    | none => none
  | _, _ => none

/-- Write the field addressed by an index path (the in-place mutation of
the addressable `reflect.Value` returned by `findStructField`). -/
def setFieldPath : RVal → List Nat → RVal → Option RVal
  | _, [], x => some x
  | .rrec fs, i :: p, x =>
    match fs[i]? with
    | some (n, t, a, fv) =>
      match setFieldPath fv p x with
      | some fv' => some (.rrec (fs.set i (n, t, a, fv')))
      | none => none
    | none => none
  | _, _, _ => none

/-- `reflect.Value.SetMapIndex` on the association-list map model:
replace an existing entry or append a new one. -/
def mapSet : List (Str × RVal) → Str → RVal → List (Str × RVal)
  | [], k, x => [(k, x)]
  | (k0, v0) :: es, k, x =>
    if k0 = k then (k, x) :: es else (k0, v0) :: mapSet es k x

/-- `consumeChildren` (`unmarshal.go` lines 567-580): drop lines more
indented than `currentIndent`.  A classification error makes `peek`
consume the offending line and `consumeChildren` return with the error
swallowed. -/
def consumeChildren (currentIndent : Int) : List Str → List Str
  | [] => []
  | l :: rest =>
    match classifyLine l with
    | .error _ => rest
    | .ok none => consumeChildren currentIndent rest
    | .ok (some li) =>
      if (li.indent : Int) > currentIndent then consumeChildren currentIndent rest
      else l :: rest

mutual

/-- `decodeValue` (`unmarshal.go` lines 150-191): peek, stop if the line
is not indented deeper, otherwise dispatch on the line kind. -/
def decodeValue (fuel : Nat) (v : RVal) (currentIndent : Int)
    (lines : List Str) : Except PErr (RVal × List Str) :=
  match fuel with
  | 0 => .error .outOfFuel
  | fuel + 1 =>
    match skipToContent lines with
    | .error e => .error e
    | .ok none => .ok (v, lines)
    | .ok (some (li, _)) =>
      if (li.indent : Int) ≤ currentIndent then .ok (v, lines)
      else
        match li.lineType with
        | .keyOnly => decodeObject fuel v currentIndent lines
        | .keyValue => decodeObject fuel v currentIndent lines
        | .arrayItem => decodeSlice fuel v currentIndent lines
        | .arrayObject => decodeSlice fuel v currentIndent lines
        | .setItem => decodeSet fuel v currentIndent lines
        | .multiLine => decodeMultiLineString fuel v currentIndent lines
        | .blank => .error .badLineKind

/-- `decodeObject` (`unmarshal.go` lines 194-285): force-dereference,
require a struct or a string-keyed map (made if nil), then run the
key-line loop. -/
def decodeObject (fuel : Nat) (v : RVal) (currentIndent : Int)
    (lines : List Str) : Except PErr (RVal × List Str) :=
  match fuel with
  | 0 => .error .outOfFuel
  | fuel + 1 =>
    match indirectForce v with
    | .rrec fs =>
      match decodeObjStructLoop fuel fs currentIndent lines with
      | .error e => .error e
      | .ok (fs', rest) => .ok (rewrapPtrs v (.rrec fs'), rest)
    | .rmap et m =>
      match decodeObjMapLoop fuel et (m.getD []) currentIndent lines with
      | .error e => .error e
      | .ok (m', rest) => .ok (rewrapPtrs v (.rmap et (some m')), rest)
    | _ => .error .badKind

/-- The struct half of `decodeObject`'s loop. -/
def decodeObjStructLoop (fuel : Nat) (fs : List (Str × Str × Bool × RVal))
    (currentIndent : Int) (lines : List Str) :
    Except PErr (List (Str × Str × Bool × RVal) × List Str) :=
  match fuel with
  | 0 => .error .outOfFuel
  | fuel + 1 =>
    match skipToContent lines with
    | .error e => .error e
    | .ok none => .ok (fs, lines)
    | .ok (some (li, rest)) =>
      if (li.indent : Int) ≤ currentIndent then .ok (fs, lines)
      else if li.lineType ≠ .keyValue ∧ li.lineType ≠ .keyOnly then
        .error .badLineKind
      else
        match findStructField fs li.key with
        | none =>
          decodeObjStructLoop fuel fs currentIndent
            (if li.lineType = .keyOnly then consumeChildren li.indent rest
             else rest)
        | some path =>
          match getFieldPath (.rrec fs) path with
          | none => .error .badKind
          | some fv =>
            if li.lineType = .keyValue then
              match setPrimitive fv li.value with
              | .error e => .error (.fieldErr li.key e)
              | .ok fv' =>
                match setFieldPath (.rrec fs) path fv' with
                | some (.rrec fs2) =>
                  decodeObjStructLoop fuel fs2 currentIndent rest
                | _ => .error .badKind
            else
              match decodeValue fuel fv li.indent rest with
              | .error e => .error (.fieldErr li.key e)
              | .ok (fv', rest2) =>
                match setFieldPath (.rrec fs) path fv' with
                | some (.rrec fs2) =>
                  decodeObjStructLoop fuel fs2 currentIndent rest2
                | _ => .error .badKind

/-- The map half of `decodeObject`'s loop.  The element target is
`reflect.New(elemType)`; through `CanSet`/`Elem` this is equivalent to
operating on a fresh zero element. -/
def decodeObjMapLoop (fuel : Nat) (elemTy : RTy) (entries : List (Str × RVal))
    (currentIndent : Int) (lines : List Str) :
    Except PErr (List (Str × RVal) × List Str) :=
  match fuel with
  | 0 => .error .outOfFuel
  | fuel + 1 =>
    match skipToContent lines with
    | .error e => .error e
    | .ok none => .ok (entries, lines)
    | .ok (some (li, rest)) =>
      if (li.indent : Int) ≤ currentIndent then .ok (entries, lines)
      else if li.lineType ≠ .keyValue ∧ li.lineType ≠ .keyOnly then
        .error .badLineKind
      else
        if li.lineType = .keyValue then
          match setPrimitive (zeroVal elemTy) li.value with
          | .error e => .error (.fieldErr li.key e)
          | .ok mv =>
            decodeObjMapLoop fuel elemTy (mapSet entries li.key mv)
              currentIndent rest
        else
          match decodeValue fuel (zeroVal elemTy) li.indent rest with
          | .error e => .error (.fieldErr li.key e)
          | .ok (mv, rest2) =>
            decodeObjMapLoop fuel elemTy (mapSet entries li.key mv)
              currentIndent rest2

/-- `decodeSlice` (`unmarshal.go` lines 288-337): dereference without
allocation, require slice kind, reset the destination to an empty slice,
then run the item loop. -/
def decodeSlice (fuel : Nat) (v : RVal) (currentIndent : Int)
    (lines : List Str) : Except PErr (RVal × List Str) :=
  match fuel with
  | 0 => .error .outOfFuel
  | fuel + 1 =>
    match indirectNoAlloc v with
    | .rlist elemTy _ =>
      match decodeSliceLoop fuel elemTy [] currentIndent lines with
      | .error e => .error e
      | .ok (es, rest) => .ok (rewrapSome v (.rlist elemTy (some es)), rest)
    | _ => .error .badKind

/-- The item loop of `decodeSlice`.  The element target
`reflect.New(elemType)` is modelled as a fresh zero element (see
`decodeObjMapLoop`). -/
def decodeSliceLoop (fuel : Nat) (elemTy : RTy) (acc : List RVal)
    (currentIndent : Int) (lines : List Str) :
    Except PErr (List RVal × List Str) :=
  match fuel with
  | 0 => .error .outOfFuel
  | fuel + 1 =>
    match skipToContent lines with
    | .error e => .error e
    | .ok none => .ok (acc, lines)
    | .ok (some (li, rest)) =>
      if (li.indent : Int) ≤ currentIndent then .ok (acc, lines)
      else if li.lineType = .arrayObject then
        match decodeValue fuel (zeroVal elemTy) li.indent rest with
        | .error e => .error e
        | .ok (ev, rest2) =>
          decodeSliceLoop fuel elemTy (acc ++ [ev]) currentIndent rest2
      else if li.lineType = .arrayItem then
        match setPrimitive (zeroVal elemTy) li.value with
        | .error e => .error e
        | .ok ev =>
          decodeSliceLoop fuel elemTy (acc ++ [ev]) currentIndent rest
      else .ok (acc, lines)

/-- `decodeSet` (`unmarshal.go` lines 340-384): requires a string-keyed
map of empty-struct or bool elements; records presence for each
`>|` item. -/
def decodeSet (fuel : Nat) (v : RVal) (currentIndent : Int)
    (lines : List Str) : Except PErr (RVal × List Str) :=
  match fuel with
  | 0 => .error .outOfFuel
  | fuel + 1 =>
    match indirectNoAlloc v with
    | .rmap elemTy m =>
      match
        (match elemTy with
         | .trec [] => some (RVal.rrec [])
         | .tbool => some (.rbool true)
         | _ => none) with
      | none => .error .badKind
      | some setValue =>
        match decodeSetLoop fuel (m.getD []) setValue currentIndent lines with
        | .error e => .error e
        | .ok (m', rest) =>
          .ok (rewrapSome v (.rmap elemTy (some m')), rest)
    | _ => .error .badKind

/-- The item loop of `decodeSet`. -/
def decodeSetLoop (fuel : Nat) (entries : List (Str × RVal))
    (setValue : RVal) (currentIndent : Int) (lines : List Str) :
    Except PErr (List (Str × RVal) × List Str) :=
  match fuel with
  | 0 => .error .outOfFuel
  | fuel + 1 =>
    match skipToContent lines with
    | .error e => .error e
    | .ok none => .ok (entries, lines)
    | .ok (some (li, rest)) =>
      if (li.indent : Int) ≤ currentIndent then .ok (entries, lines)
      else if li.lineType ≠ .setItem then .ok (entries, lines)
      else
        decodeSetLoop fuel (mapSet entries li.value setValue) setValue
          currentIndent rest

/-- `decodeMultiLineString` (`unmarshal.go` lines 386-443). -/
def decodeMultiLineString (fuel : Nat) (v : RVal) (currentIndent : Int)
    (lines : List Str) : Except PErr (RVal × List Str) :=
  match fuel with
  | 0 => .error .outOfFuel
  | fuel + 1 =>
    match indirectForce v with
    | .rstr _ =>
      match decodeMLLoop fuel none [] currentIndent lines with
      | .error e => .error e
      | .ok (content, rest) => .ok (rewrapPtrs v (.rstr content), rest)
    | _ => .error .badKind

/-- The line loop of `decodeMultiLineString`: the first content line
fixes `baseIndent`; each line is stripped of exactly `baseIndent` leading
characters when possible, else fully trimmed; segments join with `\n`. -/
def decodeMLLoop (fuel : Nat) (baseIndent : Option Nat) (acc : Str)
    (currentIndent : Int) (lines : List Str) :
    Except PErr (Str × List Str) :=
  match fuel with
  | 0 => .error .outOfFuel
  | fuel + 1 =>
    match skipToContent lines with
    | .error e => .error e
    | .ok none => .ok (acc, lines)
    | .ok (some (li, rest)) =>
      if (li.indent : Int) ≤ currentIndent then .ok (acc, lines)
      else if li.lineType ≠ .multiLine then .ok (acc, lines)
      else
        let content := li.value
        match baseIndent with
        | none =>
          let pre := if acc.length > 0 then acc ++ ['\n'] else acc
          let seg :=
            if content.length > li.indent then content.drop li.indent
            else trimS content
          decodeMLLoop fuel (some li.indent) (pre ++ seg) currentIndent rest
        | some base =>
          let seg :=
            if (List.replicate base ' ').isPrefixOf content then
              content.drop base
            else trimS content
          decodeMLLoop fuel (some base) (acc ++ '\n' :: seg)
            currentIndent rest

end

/-- `Decoder.Decode` (`unmarshal.go` lines 50-57): the destination must be
a non-nil pointer; decode the whole document at root indent `-1`. -/
def DecodeModel (fuel : Nat) (data : Str) (v : RVal) : Except PErr RVal :=
  match v with
  | .rptr _ (some _) =>
    match decodeValue fuel v (-1) (splitLines data) with
    | .error e => .error e
    | .ok (v', _) => .ok v'
  | _ => .error .invalidUnmarshal

/-- `Unmarshal` (`part_000` lines 23-26). -/
def UnmarshalModel (fuel : Nat) (data : Str) (v : RVal) : Except PErr RVal :=
  DecodeModel fuel data v

/-! ## Concrete fixtures used by individual claims -/

/-- The destination type of the multi-line reconstruction fixture:
`struct { Description string `piml:"description"` }`. -/
def mlTy : RTy := .trec [(strL "Description", strL "description", false, .tstr)]

/-- The document of the multi-line reconstruction fixture (spec §8), with
a blank physical line between `description for the site.` and `as well`. -/
def mlDoc : Str :=
  strL "(description)\n  This is a multi-line\n  description for the site.\n\n  as well\n"

/-- The document of the comment-escaping fixture (`TestComments`): a
comment-only line and a `\#`-escaped line inside a multi-line block. -/
def escTy : RTy := .trec [(strL "SomeKey", strL "some key", false, .tstr),
  (strL "Description", strL "description", false, .tstr)]

def escDoc : Str :=
  strL "(some key) XXXX\n(description)\n  This is a multi-line\n  description for the site.\n  # this is a comment and should be ignored\n  \\# this line should start with a hash\n  as well\n"

/-- `AppSettings` of `TestEmbeddedStructs`: an embedded (anonymous)
`BaseSettings` contributing `timeout`, plus `app_name`. -/
def appVal : RVal := .rrec [
  (strL "BaseSettings", [], true,
    .rrec [(strL "Timeout", strL "timeout", false, .rint 64 30)]),
  (strL "AppName", strL "app_name", false, .rstr (strL "My-App"))]

def appTy : RTy := typeOf appVal

/-- The embedded-promotion document: `(timeout) 30` at the parent's
indent level. -/
def embDoc : Str := strL "(app_name) My-App\n(timeout) 30\n"

/-- The per-field test of `findStructField`'s loop: does this single
field capture the key (by tag, by lowercased name when untagged, or
through its embedded struct)? -/
def fieldMatches : (Str × Str × Bool × RVal) → Str → Bool
  | (name, tag, anon, v), key =>
    tag == key || (tag == [] && toLowerGo name == key) ||
      (anon && (findStructFieldAnon v key).isSome)

/-- C4 fixture: an untagged field `A` (lowercased name `a`) declared
before a field `B` with explicit tag `a`. -/
def c4Fields : List (Str × Str × Bool × RVal) :=
  [(strL "A", [], false, .rstr []), (strL "B", strL "a", false, .rstr [])]

/-- C10 fixture: a single string field. -/
def spacedTy : RTy := .trec [(strL "SiteName", strL "site_name", false, .tstr)]

/-- `reflect` map lookup on the association-list model. -/
def mapGet : List (Str × RVal) → Str → Option RVal
  | [], _ => none
  | (k0, v0) :: es, k => if k0 = k then some v0 else mapGet es k

/-- C9 fixture: a record with a string list and an int map. -/
def preTy : RTy := .trec [(strL "Names", strL "names", false, .tlist .tstr),
  (strL "M", strL "m", false, .tmap (.tint 64))]

/-- C9 fixture value: three pre-existing list elements and one
pre-existing map entry. -/
def preVal : RVal := .rrec [
  (strL "Names", strL "names", false,
    .rlist .tstr (some [.rstr (strL "a"), .rstr (strL "b"), .rstr (strL "c")])),
  (strL "M", strL "m", false, .rmap (.tint 64) (some [(strL "old", .rint 64 7)]))]

/-- C9 fixture result: the slice is rebuilt from scratch (one element),
the map keeps its unmentioned entry and gains the document's. -/
def postVal : RVal := .rrec [
  (strL "Names", strL "names", false, .rlist .tstr (some [.rstr (strL "x")])),
  (strL "M", strL "m", false,
    .rmap (.tint 64) (some [(strL "old", .rint 64 7), (strL "new", .rint 64 1)]))]

/-- The next content line of `rest` (if any) is classifiable and sits at
indent at most `i`: exactly the situation in which `consumeChildren i`
stops without touching `rest`. -/
def headContentLE (i : Int) (rest : List Str) : Prop :=
  rest = [] ∨ ∃ l r li, rest = l :: r ∧ classifyLine l = .ok (some li) ∧
    (li.indent : Int) ≤ i

/-- C8 fixture: the destination record and a document with an
unrecognized key carrying a nested block between two known siblings. -/
def c8Ty : RTy := .trec [(strL "SiteName", strL "site_name", false, .tstr),
  (strL "Port", strL "port", false, .tint 64)]

def c8Doc : Str :=
  strL "(site_name) A\n(unknown)\n  (x) 1\n  (y)\n    (z) 2\n(port) 9\n"

/-! ## C1: the well-formed universe and a line-level view of the encoder

The round-trip claim is settled over the sub-universe of values whose
encoding is parsed back verbatim (see the amended claim).  `wfVal` carves
out that universe; `fieldsLines`/`entryLines`/`sliceLines`/`mapLines`
present the byte output of the encoder as a list of physical lines, and an
equivalence theorem (`encode_lines_pack`) proves that view faithful to
`encodeStruct` and friends. -/

/-- `n` spaces. -/
def spaces (n : Nat) : Str := List.replicate n ' '

/-- Rejoin physical lines with the `'\n'` terminator the encoder writes
after every line. -/
def unlines (L : List Str) : Str := L.flatMap (fun l => l ++ ['\n'])

/-- A byte sequence that survives the scanner as one physical line: no
embedded newline, and no trailing `'\r'` for `ScanLines` to strip. -/
def lineOK (l : Str) : Prop := '\n' ∉ l ∧ l.getLast? ≠ some '\r'

-- Structural equality of modelled `reflect.Type`s (`==` on
-- `reflect.Type` values).
mutual
def tyBeq : RTy → RTy → Bool
  | .tstr, .tstr => true
  | .tbool, .tbool => true
  | .tint w, .tint w' => w == w'
  | .tuint w, .tuint w' => w == w'
  | .trec fs, .trec fs' => ftysBeq fs fs'
  | .tlist a, .tlist b => tyBeq a b
  | .tmap a, .tmap b => tyBeq a b
  | .tptr a, .tptr b => tyBeq a b
  | _, _ => false

def ftysBeq : List (Str × Str × Bool × RTy) → List (Str × Str × Bool × RTy) → Bool
  | [], [] => true
  | (n, t, a, ty) :: fs, (n', t', a', ty') :: fs' =>
    n == n' && t == t' && a == a' && tyBeq ty ty' && ftysBeq fs fs'
  | _, _ => false
end

/-- A key (or a trimmed single-line string value) the classifier hands
back verbatim: nonempty, no close-paren, no comment start, no newline. -/
def plainKeyB (k : Str) : Bool :=
  !(k == []) && k.all (fun c => c ≠ ')' && c ≠ '#' && c ≠ '\n')

/-- A string value that survives the trip through one `(key) value`
line: single-line, comment-free, whitespace-trimmed, not the literal
`nil`, and not opening a parenthesis (which would re-classify an array
item line). -/
def plainStrB (s : Str) : Bool :=
  s.all (fun c => c ≠ '\n' && c ≠ '#') && (trimS s == s) &&
    !(s == strL "nil") && !(['('].isPrefixOf s)

/-- Well-formedness of a scalar leaf: strings must be plain, integers
must fit their declared width (also bounding them inside `ParseInt`'s
64-bit window). -/
def wfScalarB : RVal → Bool
  | .rstr s => plainStrB s
  | .rint w n => decide (1 ≤ w) && decide (w ≤ 64) &&
      decide (-((2 : Int) ^ (w - 1)) ≤ n) && decide (n < (2 : Int) ^ (w - 1))
  | .ruint w n => decide (1 ≤ w) && decide (w ≤ 64) && decide (n < 2 ^ w)
  | .rbool _ => true
  | _ => false

/-- The scalar text the encoder writes for a leaf (the non-`Except`
core of `primItemText`). -/
def scalarText : RVal → Str
  | .rstr s => s
  | .rint _ n => formatInt n
  | .ruint _ n => formatUint n
  | .rbool b => formatBool b
  | _ => []

/-- The key under which `encodeStruct` emits a field and against which
`findStructField` matches it: the tag, defaulting to the lowercased Go
field name. -/
def keyOfF : (Str × Str × Bool × RVal) → Str
  | (name, tag, _, _) => if tag = [] then toLowerGo name else tag

/-- Header-level well-formedness of one struct field: not embedded, not
`-`-suppressed, and a plain nonempty key. -/
def fieldHeaderB : (Str × Str × Bool × RVal) → Bool
  | (name, tag, anon, _) =>
    !anon && !(tag == strL "-") &&
      plainKeyB (if tag = [] then toLowerGo name else tag)

/-- No duplicates (`==`-free list of keys). -/
def nodupB : List Str → Bool
  | [] => true
  | k :: ks => !(ks.contains k) && nodupB ks

/-- Header-level well-formedness of a field list: every field header is
fine and the emitted keys are pairwise distinct. -/
def headersOKB (fs : List (Str × Str × Bool × RVal)) : Bool :=
  fs.all fieldHeaderB && nodupB (fs.map keyOfF)

/-- Scalar element types (the map-value types the round trip supports). -/
def scalarTyB : RTy → Bool
  | .tstr => true
  | .tbool => true
  | .tint _ => true
  | .tuint _ => true
  | _ => false

/-- Record types. -/
def isRecTy : RTy → Bool
  | .trec _ => true
  | _ => false

-- The well-formed universe: scalar leaves as in `wfScalarB`; records
-- with well-formed headers and fields; nonempty lists of same-typed
-- scalar or record elements; nonempty maps with plain distinct keys and
-- scalar values; nil pointers, nil slices and nil maps (which encode as
-- the `nil` literal and decode back to nil).
mutual
def wfVal : RVal → Bool
  | .rstr s => wfScalarB (.rstr s)
  | .rint w n => wfScalarB (.rint w n)
  | .ruint w n => wfScalarB (.ruint w n)
  | .rbool b => wfScalarB (.rbool b)
  | .rrec fs => headersOKB fs && wfFieldVals fs
  | .rlist et (some es) =>
    !es.isEmpty && (scalarTyB et || isRecTy et) && wfElems et es
  | .rmap et (some m) =>
    !m.isEmpty && scalarTyB et && (m.map Prod.fst).all plainKeyB &&
      nodupB (m.map Prod.fst) && wfEntries et m
  | .rlist _ none => true
  | .rmap _ none => true
  | .rptr _ none => true
  | .rptr _ (some _) => false

def wfFieldVals : List (Str × Str × Bool × RVal) → Bool
  | [] => true
  | (_, _, _, v) :: fs => wfVal v && wfFieldVals fs

def wfElems : RTy → List RVal → Bool
  | _, [] => true
  | et, e :: es => tyBeq (typeOf e) et && wfVal e && wfElems et es

def wfEntries : RTy → List (Str × RVal) → Bool
  | _, [] => true
  | et, (_, v) :: m => tyBeq (typeOf v) et && wfVal v && wfEntries et m
end

-- The encoder's output, line by line.  `fieldsLines fs k` is the body
-- `encodeStruct fs k` writes; `entryLines frag v fi` is the rendering of
-- one `(key)`+value entry whose key fragment is `frag` and whose value
-- is encoded at field indent `fi`; `sliceLines`/`mapLines` mirror
-- `encodeSlice`/`encodeMap`.  `encode_lines_pack` below proves the
-- correspondence on the well-formed universe.
mutual
def fieldsLines : List (Str × Str × Bool × RVal) → Int → List Str
  | [], _ => []
  | (name, tag, _, fv) :: fs, k =>
    entryLines (indentStr (k + 1) ++
        '(' :: (if tag = [] then toLowerGo name else tag) ++ [')'])
      fv (k + 1) ++ fieldsLines fs k

def entryLines : Str → RVal → Int → List Str
  | frag, v, fi =>
    if isNilOrEmpty v then [frag ++ strL " nil"]
    else
      match v with
      | .rrec gs => frag :: fieldsLines gs fi
      | .rlist et (some es) =>
        frag ::
          (match (match et with | .tptr u => u | u => u) with
           | .trec _ => sliceRecLines es (fi + 1)
           | _ => slicePrimLines es (indentStr (fi + 1)))
      | .rmap _ (some m) => frag :: mapLines m fi
      | w => [frag ++ ' ' :: scalarText w]

def sliceRecLines : List RVal → Int → List Str
  | [], _ => []
  | e :: es, m =>
    (match e with
     | .rrec gs => (indentStr m ++ strL "> (item)") :: fieldsLines gs (m + 1)
     | _ => []) ++ sliceRecLines es m

def slicePrimLines : List RVal → Str → List Str
  | [], _ => []
  | e :: es, iStr => (iStr ++ strL "> " ++ scalarText e) :: slicePrimLines es iStr

def mapLines : List (Str × RVal) → Int → List Str
  | [], _ => []
  | (mk, v) :: m, k =>
    entryLines (indentStr (k + 1) ++ '(' :: mk ++ [')']) v (k + 1) ++ mapLines m k
end

/-- The item lines of a slice: `> (item)` headers plus field blocks for
record elements, `> value` lines for scalar elements (the dispatch of
`encodeSlice`, definitionally the inlined occurrence in `entryLines`). -/
def sliceLines (et : RTy) (es : List RVal) (m : Int) : List Str :=
  match (match et with | .tptr u => u | u => u) with
  | .trec _ => sliceRecLines es m
  | _ => slicePrimLines es (indentStr m)

/-- What `encodeValue v fi false` writes after the closing paren of the
field key (its `vout`), for non-nil well-formed `v`. -/
def entryTail (v : RVal) (fi : Int) : Str :=
  match v with
  | .rrec gs => '\n' :: unlines (fieldsLines gs fi)
  | .rlist et (some es) => '\n' :: unlines (sliceLines et es (fi + 1))
  | .rmap _ (some m) => '\n' :: unlines (mapLines m fi)
  | w => ' ' :: scalarText w ++ ['\n']

/-- The nested block that follows an entry's key line (empty for
scalars and nil values). -/
def entryBody : RVal → Int → List Str
  | .rrec gs, fi => fieldsLines gs fi
  | .rlist et (some es), fi => sliceLines et es (fi + 1)
  | .rmap _ (some m), fi => mapLines m fi
  | _, _ => []

/-- Values whose decoding goes through a `keyOnly` line followed by
their `entryBody` block: composites, and the empty string (whose value
part trims to nothing). -/
def blockOk : RVal → Bool
  | .rrec _ => true
  | .rlist _ (some _) => true
  | .rmap _ (some _) => true
  | .rstr [] => true
  | _ => false

-- Fuel budgets: `costV v` bounds the fuel `decodeValue` needs on `v`'s
-- block, `costFields`/`costElems`/`costEntries` bound the loop fuels
-- (one unit per iteration plus the nested budgets, plus the final
-- peek-and-stop iteration).
mutual
def costV : RVal → Nat
  | .rrec fs => 2 + costFields fs
  | .rlist _ (some es) => 2 + costElems es
  | .rmap _ (some m) => 2 + costEntries m
  | _ => 1

def costFields : List (Str × Str × Bool × RVal) → Nat
  | [] => 1
  | (_, _, _, v) :: fs => 1 + costV v + costFields fs

def costElems : List RVal → Nat
  | [] => 1
  | e :: es => 1 + costV e + costElems es

def costEntries : List (Str × RVal) → Nat
  | [] => 1
  | (_, v) :: m => 1 + costV v + costEntries m
end

/-- The next content line of `lines` (if any) sits at indent at most
`ci`: every decode loop peeking at `lines` under `currentIndent = ci`
stops there and hands `lines` back untouched. -/
def restClosed (ci : Int) (lines : List Str) : Prop :=
  skipToContent lines = .ok none ∨
    ∃ li r, skipToContent lines = .ok (some (li, r)) ∧ (li.indent : Int) ≤ ci

/-- The C1 witness record: one field of every supported shape (plain
string, empty string, signed and unsigned integers, boolean, nested
record, scalar list, record list, scalar map, nil pointer, nil list). -/
def c1Val : RVal := .rrec [
  (strL "Name", strL "name", false, .rstr (strL "My-Site")),
  (strL "Note", [], false, .rstr []),
  (strL "Port", strL "port", false, .rint 16 (-8080)),
  (strL "Hits", strL "hits", false, .ruint 32 4000000000),
  (strL "Live", strL "live", false, .rbool true),
  (strL "Sub", strL "sub", false, .rrec [
    (strL "Depth", strL "depth", false, .rint 64 3),
    (strL "Tags", strL "tags", false,
      .rlist .tstr (some [.rstr (strL "a"), .rstr [], .rstr (strL "b c")]))]),
  (strL "Rules", strL "rules", false,
    .rlist (.trec [(strL "Id", strL "id", false, .tint 64)])
      (some [.rrec [(strL "Id", strL "id", false, .rint 64 1)],
             .rrec [(strL "Id", strL "id", false, .rint 64 2)]])),
  (strL "Counts", strL "counts", false,
    .rmap (.tint 64) (some [(strL "x", .rint 64 10), (strL "y", .rint 64 (-2))])),
  (strL "Parent", strL "parent", false, .rptr .tstr none),
  (strL "Extra", strL "extra", false, .rlist .tbool none)]

/-- C1 counterexample value: a single string field whose value carries a
leading space, which the decoder's `strings.TrimSpace` removes. -/
def c1BadVal : RVal := .rrec [(strL "S", strL "s", false, .rstr (strL " x"))]

/-! # Supporting lemmas -/

theorem mapSet_get_other (m : List (Str × RVal)) (k0 k : Str) (x : RVal)
    (h : k0 ≠ k) : mapGet (mapSet m k0 x) k = mapGet m k := by
  induction m with
  | nil => simp [mapSet, mapGet, h]
  | cons e es ih =>
    obtain ⟨ke, ve⟩ := e
    by_cases he : ke = k0
    · subst he
      simp [mapSet, mapGet, h]
    · simp only [mapSet, if_neg he, mapGet]
      by_cases hk : ke = k
      · simp [hk]
      · simp [hk, ih]

theorem skipToContent_suffix : ∀ (lines : List Str) (li : LineInfo)
    (rest : List Str), skipToContent lines = .ok (some (li, rest)) →
    rest <:+ lines := by
  intro lines
  induction lines with
  | nil => intro li rest h; simp [skipToContent] at h
  | cons l ls ih =>
    intro li rest h
    simp only [skipToContent] at h
    cases hc : classifyLine l with
    | error e => rw [hc] at h; simp at h
    | ok o =>
      rw [hc] at h
      cases o with
      | none =>
        exact (ih li rest h).trans (List.suffix_cons l ls)
      | some li2 =>
        simp only [Except.ok.injEq, Option.some.injEq, Prod.mk.injEq] at h
        obtain ⟨-, h2⟩ := h
        subst h2
        exact List.suffix_cons l ls

theorem skipToContent_mem : ∀ (lines : List Str) (li : LineInfo)
    (rest : List Str), skipToContent lines = .ok (some (li, rest)) →
    ∃ l ∈ lines, classifyLine l = .ok (some li) := by
  intro lines
  induction lines with
  | nil => intro li rest h; simp [skipToContent] at h
  | cons l ls ih =>
    intro li rest h
    simp only [skipToContent] at h
    cases hc : classifyLine l with
    | error e => rw [hc] at h; simp at h
    | ok o =>
      rw [hc] at h
      cases o with
      | none =>
        obtain ⟨l2, hl2, hcl2⟩ := ih li rest h
        exact ⟨l2, List.mem_cons_of_mem _ hl2, hcl2⟩
      | some li2 =>
        simp only [Except.ok.injEq, Option.some.injEq, Prod.mk.injEq] at h
        obtain ⟨h1, -⟩ := h
        subst h1
        exact ⟨l, List.mem_cons_self _ _, hc⟩

theorem consumeChildren_suffix (i : Int) : ∀ (lines : List Str),
    consumeChildren i lines <:+ lines := by
  intro lines
  induction lines with
  | nil => simp [consumeChildren]
  | cons l ls ih =>
    simp only [consumeChildren]
    cases classifyLine l with
    | error e => exact List.suffix_cons l ls
    | ok o =>
      cases o with
      | none => exact ih.trans (List.suffix_cons l ls)
      | some li =>
        dsimp only
        by_cases hi : (li.indent : Int) > i
        · rw [if_pos hi]
          exact ih.trans (List.suffix_cons l ls)
        · rw [if_neg hi]

theorem trimRightS_eq_rdropWhile (s : Str) :
    trimRightS s = s.rdropWhile isSpaceChar := rfl

theorem trimLeftS_idem (s : Str) : trimLeftS (trimLeftS s) = trimLeftS s :=
  List.dropWhile_idempotent _ _

theorem trimRightS_idem (s : Str) : trimRightS (trimRightS s) = trimRightS s := by
  simp only [trimRightS_eq_rdropWhile]
  exact List.rdropWhile_idempotent _ _

theorem trimRightS_trimLeftS_self (s : Str) :
    trimRightS (trimLeftS (trimRightS s)) = trimLeftS (trimRightS s) := by
  rw [trimRightS_eq_rdropWhile, List.rdropWhile_eq_self_iff]
  intro hl
  have hyne : trimRightS s ≠ [] := by
    intro h0
    apply hl
    simp [trimLeftS, h0]
  obtain ⟨w, hw⟩ : trimLeftS (trimRightS s) <:+ trimRightS s :=
    List.dropWhile_suffix _
  have hlast : (trimLeftS (trimRightS s)).getLast hl =
      (trimRightS s).getLast hyne := by
    have h1 := List.getLast?_eq_getLast_of_ne_nil hl
    have h2 := List.getLast?_eq_getLast_of_ne_nil hyne
    have h3 : (trimRightS s).getLast? = (trimLeftS (trimRightS s)).getLast? := by
      conv_lhs => rw [← hw]
      exact List.getLast?_append_of_ne_nil _ hl
    rw [h1, h2] at h3
    exact (Option.some.injEq _ _ ▸ h3).symm
  rw [hlast]
  have := List.rdropWhile_last_not (p := isSpaceChar) (l := s)
  rw [← trimRightS_eq_rdropWhile] at this
  exact this hyne

/-- `strings.TrimSpace` is idempotent. -/
theorem trimS_idem (s : Str) : trimS (trimS s) = trimS s := by
  show trimLeftS (trimRightS (trimLeftS (trimRightS s))) = trimLeftS (trimRightS s)
  rw [trimRightS_trimLeftS_self]
  exact trimLeftS_idem _

theorem dropWhile_spaces (k : Nat) (x : Str) :
    List.dropWhile isSpaceChar (spaces k ++ x) = List.dropWhile isSpaceChar x := by
  induction k with
  | zero => rfl
  | succ k ih =>
    show List.dropWhile isSpaceChar (List.replicate (k + 1) ' ' ++ x) = _
    rw [List.replicate_succ, List.cons_append,
      List.dropWhile_cons_of_pos (by decide)]
    exact ih

theorem dropWhile_eq_self_of_head (p : Char → Bool) (x : Str) (c : Char)
    (h : x.head? = some c) (hc : p c = false) : List.dropWhile p x = x := by
  cases x with
  | nil => rfl
  | cons y t =>
    have : y = c := by simpa using h
    subst this
    exact List.dropWhile_cons_of_neg (by simp [hc])

/-- Surrounding whitespace padding is exactly what `strings.TrimSpace`
removes from a line whose core starts and ends with non-space bytes. -/
theorem trimS_pad (n m : Nat) (core : Str) (c d : Char)
    (hh : core.head? = some c) (hc : isSpaceChar c = false)
    (hl : core.getLast? = some d) (hd : isSpaceChar d = false) :
    trimS (spaces n ++ core ++ spaces m) = core := by
  have hR : trimRightS (spaces n ++ core ++ spaces m) = spaces n ++ core := by
    show ((spaces n ++ core ++ spaces m).reverse.dropWhile isSpaceChar).reverse
      = spaces n ++ core
    have hrev : (spaces n ++ core ++ spaces m).reverse =
        spaces m ++ (core.reverse ++ spaces n) := by
      simp [spaces, List.reverse_append, List.reverse_replicate,
        List.append_assoc]
    rw [hrev, dropWhile_spaces]
    have hhr : (core.reverse ++ spaces n).head? = some d := by
      have h1 : core.reverse.head? = some d := by
        rw [List.head?_reverse]; exact hl
      cases hcr : core.reverse with
      | nil => rw [hcr] at h1; simp at h1
      | cons y t =>
        rw [hcr] at h1
        simp only [List.head?_cons, Option.some.injEq] at h1
        subst h1
        rfl
    rw [dropWhile_eq_self_of_head _ _ _ hhr hd]
    simp [spaces, List.reverse_append, List.reverse_replicate]
  show trimLeftS (trimRightS (spaces n ++ core ++ spaces m)) = core
  rw [hR]
  show List.dropWhile isSpaceChar (spaces n ++ core) = core
  rw [dropWhile_spaces]
  exact dropWhile_eq_self_of_head _ _ _ hh hc

theorem stripComment_eq_self (s : Str) (h : '#' ∉ s) : stripComment s = s := by
  induction s with
  | nil => rfl
  | cons c r ih =>
    have hc : c ≠ '#' := by
      intro he; exact h (he ▸ List.mem_cons_self c r)
    show List.takeWhile _ (c :: r) = c :: r
    rw [List.takeWhile_cons_of_pos (by simp [hc])]
    have := ih (fun hm => h (List.mem_cons_of_mem c hm))
    simpa [stripComment] using this

theorem countIndent_spaces (c : Char) (r : Str) (hc : c ≠ ' ')
    (ht : c ≠ '\t') : ∀ (n : Nat),
    countIndent (spaces n ++ c :: r) = some n := by
  intro n
  induction n with
  | zero => simp [spaces, countIndent, hc, ht]
  | succ n ih =>
    show countIndent (List.replicate (n + 1) ' ' ++ c :: r) = some (n + 1)
    rw [List.replicate_succ, List.cons_append]
    simp only [countIndent, if_true]
    rw [show (List.replicate n ' ' ++ c :: r : Str) = spaces n ++ c :: r from rfl,
      ih]
    rfl

theorem findCharIdx_first (rest : Str) : ∀ (pre : Str), ')' ∉ pre →
    findCharIdx ')' (pre ++ ')' :: rest) = some pre.length := by
  intro pre
  induction pre with
  | nil => intro _; simp [findCharIdx]
  | cons c t ih =>
    intro h
    have hc : c ≠ ')' := by
      intro he; exact h (he ▸ List.mem_cons_self c t)
    have ht : ')' ∉ t := fun hm => h (List.mem_cons_of_mem c hm)
    show findCharIdx ')' (c :: (t ++ ')' :: rest)) = some (t.length + 1)
    simp only [findCharIdx, if_neg hc, ih ht, Option.map_some']

theorem findCharIdx_paren (key rest : Str) (h : ')' ∉ key) :
    findCharIdx ')' ('(' :: key ++ ')' :: rest) = some (key.length + 1) := by
  have hpre : ')' ∉ ('(' :: key : Str) := by
    intro hm
    rcases List.mem_cons.1 hm with he | hm2
    · simp at he
    · exact h hm2
  have := findCharIdx_first rest ('(' :: key) hpre
  simpa using this

theorem trimS_eq_self_split (s : Str) (h : trimS s = s) :
    trimLeftS s = s ∧ trimRightS s = s := by
  have hpre : trimRightS s <+: s := by
    rw [trimRightS_eq_rdropWhile]
    exact List.rdropWhile_prefix _ _
  have hlen1 : (trimLeftS (trimRightS s)).length ≤ (trimRightS s).length :=
    (List.dropWhile_suffix _).length_le
  have hlen2 : (trimRightS s).length ≤ s.length := hpre.length_le
  have hlen3 : s.length ≤ (trimRightS s).length := by
    have : (trimS s).length = s.length := by rw [h]
    calc s.length = (trimS s).length := this.symm
      _ ≤ (trimRightS s).length := hlen1
  have hR : trimRightS s = s := hpre.eq_of_length (by omega)
  refine ⟨?_, hR⟩
  have := h
  unfold trimS at this
  rw [hR] at this
  exact this

theorem trim_self_head (s : Str) (c : Char) (h : trimS s = s)
    (hh : s.head? = some c) : isSpaceChar c = false := by
  obtain ⟨hL, -⟩ := trimS_eq_self_split s h
  cases s with
  | nil => simp at hh
  | cons y t =>
    have hy : y = c := by simpa using hh
    have hns := (List.dropWhile_eq_self_iff.1 hL) (by simp)
    simp only [List.get] at hns
    rw [hy] at hns
    cases hx : isSpaceChar c
    · rfl
    · rw [hx] at hns; simp at hns

theorem trim_self_last (s : Str) (d : Char) (h : trimS s = s)
    (hl : s.getLast? = some d) : isSpaceChar d = false := by
  obtain ⟨-, hR⟩ := trimS_eq_self_split s h
  have hne : s ≠ [] := by
    intro he; rw [he] at hl; simp at hl
  rw [trimRightS_eq_rdropWhile, List.rdropWhile_eq_self_iff] at hR
  have := hR hne
  have hgl : s.getLast hne = d := by
    rw [List.getLast?_eq_getLast_of_ne_nil hne] at hl
    simpa using hl
  rw [hgl] at this
  cases hx : isSpaceChar d
  · rfl
  · exact absurd hx this

/-- `classifyLine` on a line built as padding + a comment-free core with
non-space edges: the comment strip is the identity, the indent is the
left padding, and the line content is the core. -/
theorem classifyLine_parts (n m : Nat) (core : Str) (c d : Char)
    (hh : core.head? = some c) (hc : isSpaceChar c = false)
    (hl : core.getLast? = some d) (hd : isSpaceChar d = false)
    (hnoh : '#' ∉ core) :
    classifyLine (spaces n ++ core ++ spaces m) =
      (if ['>', ' ', '('].isPrefixOf core then
        .ok (some ⟨n, [], [], .arrayObject⟩)
      else if ['>', '|'].isPrefixOf core then
        .ok (some ⟨n, [], trimS (core.drop 2), .setItem⟩)
      else if ['>'].isPrefixOf core then
        .ok (some ⟨n, [], trimS (core.drop 1), .arrayItem⟩)
      else if ['('].isPrefixOf core then
        match findCharIdx ')' core with
        | none => .error .missingParen
        | some closeParen =>
          if trimS (core.drop (closeParen + 1)) = [] then
            .ok (some ⟨n, (core.take closeParen).drop 1, [], .keyOnly⟩)
          else
            .ok (some ⟨n, (core.take closeParen).drop 1,
              trimS (core.drop (closeParen + 1)), .keyValue⟩)
      else .ok (some ⟨n, [], spaces n ++ core ++ spaces m, .multiLine⟩)) := by
  have hclean : stripComment (spaces n ++ core ++ spaces m) =
      spaces n ++ core ++ spaces m := by
    apply stripComment_eq_self
    intro hmem
    rcases List.mem_append.1 hmem with hmem1 | hmem2
    · rcases List.mem_append.1 hmem1 with hsp | hco
      · have := List.eq_of_mem_replicate hsp
        simp at this
      · exact hnoh hco
    · have := List.eq_of_mem_replicate hmem2
      simp at this
  have htr : trimS (spaces n ++ core ++ spaces m) = core :=
    trimS_pad n m core c d hh hc hl hd
  have hne : core ≠ [] := by
    intro he; rw [he] at hh; simp at hh
  obtain ⟨tcore, hcore⟩ : ∃ tcore, core = c :: tcore := by
    cases core with
    | nil => simp at hh
    | cons y t =>
      simp only [List.head?_cons, Option.some.injEq] at hh
      exact ⟨t, by rw [hh]⟩
  have hcount : countIndent (spaces n ++ core ++ spaces m) = some n := by
    rw [hcore, List.append_assoc, List.cons_append]
    have h1 : c ≠ ' ' := by
      intro he; rw [he] at hc; simp [isSpaceChar] at hc
    have h2 : c ≠ '\t' := by
      intro he; rw [he] at hc; simp [isSpaceChar] at hc
    exact countIndent_spaces c (tcore ++ spaces m) h1 h2 n
  simp only [classifyLine]
  rw [hclean, htr, hcount]
  rw [if_neg hne]

/-- Classification of a `(key)` line (optionally right-padded: the
encoder writes `(key) ` for an empty string value). -/
theorem classify_keyOnly (n m : Nat) (key : Str)
    (hk : plainKeyB key = true) :
    classifyLine (spaces n ++ ('(' :: key ++ [')']) ++ spaces m) =
      .ok (some ⟨n, key, [], .keyOnly⟩) := by
  have hkey : ∀ x ∈ key, x ≠ ')' ∧ x ≠ '#' ∧ x ≠ '\n' := by
    intro x hx
    have := (List.all_eq_true.1 (Bool.and_elim_right (by exact hk))) x hx
    refine ⟨?_, ?_, ?_⟩ <;> · intro he; subst he; simp at this
  have hparts := classifyLine_parts n m ('(' :: key ++ [')']) '(' ')'
    (by rfl) (by decide)
    (by rw [show ('(' :: key ++ [')'] : Str) = ('(' :: key) ++ [')'] from rfl,
          List.getLast?_concat])
    (by decide)
    (by
      intro hm
      rcases List.mem_cons.1 hm with he | hm2
      · simp at he
      · rcases List.mem_append.1 hm2 with hk2 | he2
        · exact (hkey _ hk2).2.1 rfl
        · simp at he2)
  rw [hparts]
  rw [if_neg (by simp [List.isPrefixOf]), if_neg (by simp [List.isPrefixOf]),
    if_neg (by simp [List.isPrefixOf]), if_pos (by simp [List.isPrefixOf])]
  rw [findCharIdx_paren key [] (fun hm => (hkey _ hm).1 rfl)]
  dsimp only
  have hdrop : ('(' :: key ++ [')']).drop (key.length + 1 + 1) = [] := by
    apply List.drop_eq_nil_of_le
    simp
  rw [hdrop]
  rw [if_pos (show trimS ([] : Str) = [] from rfl)]
  have htake : (('(' :: key ++ [')']).take (key.length + 1)).drop 1 = key := by
    rw [show ('(' :: key ++ [')'] : Str) = ('(' :: key) ++ [')'] from rfl,
      List.take_left' (by simp)]
    rfl
  rw [htake]

/-- Classification of a `(key) value` line with a trimmed nonempty
value. -/
theorem classify_keyValue (n : Nat) (key text : Str)
    (hk : plainKeyB key = true) (htne : text ≠ [])
    (htr : trimS text = text) (hth : '#' ∉ text) :
    classifyLine (spaces n ++ ('(' :: key ++ ')' :: ' ' :: text)) =
      .ok (some ⟨n, key, text, .keyValue⟩) := by
  have hkey : ∀ x ∈ key, x ≠ ')' ∧ x ≠ '#' ∧ x ≠ '\n' := by
    intro x hx
    have := (List.all_eq_true.1 (Bool.and_elim_right (by exact hk))) x hx
    refine ⟨?_, ?_, ?_⟩ <;> · intro he; subst he; simp at this
  obtain ⟨dt, hdt⟩ : ∃ dt, text.getLast? = some dt := by
    cases hx : text.getLast? with
    | none => exact absurd (List.getLast?_eq_none_iff.1 hx) htne
    | some y => exact ⟨y, rfl⟩
  have hdt2 : isSpaceChar dt = false := trim_self_last text dt htr hdt
  have hparts := classifyLine_parts n 0 ('(' :: key ++ ')' :: ' ' :: text) '(' dt
    (by rfl) (by decide)
    (by
      rw [show ('(' :: key ++ ')' :: ' ' :: text : Str) =
        ('(' :: key ++ [')', ' ']) ++ text by simp]
      rw [List.getLast?_append_of_ne_nil _ htne]
      exact hdt)
    hdt2
    (by
      intro hm
      rcases List.mem_cons.1 hm with he | hm2
      · simp at he
      · rcases List.mem_append.1 hm2 with hk2 | he2
        · exact (hkey _ hk2).2.1 rfl
        · rcases List.mem_cons.1 he2 with he3 | he4
          · simp at he3
          · rcases List.mem_cons.1 he4 with he5 | he6
            · simp at he5
            · exact hth he6)
  rw [show (spaces n ++ ('(' :: key ++ ')' :: ' ' :: text) : Str) =
    spaces n ++ ('(' :: key ++ ')' :: ' ' :: text) ++ spaces 0 by simp [spaces]]
  rw [hparts]
  rw [if_neg (by simp [List.isPrefixOf]), if_neg (by simp [List.isPrefixOf]),
    if_neg (by simp [List.isPrefixOf]), if_pos (by simp [List.isPrefixOf])]
  have hfind : findCharIdx ')' ('(' :: key ++ ')' :: (' ' :: text)) =
      some (key.length + 1) :=
    findCharIdx_paren key (' ' :: text) (fun hm => (hkey _ hm).1 rfl)
  rw [hfind]
  dsimp only
  have hdrop : ('(' :: key ++ ')' :: ' ' :: text).drop (key.length + 1 + 1) =
      ' ' :: text := by
    rw [show ('(' :: key ++ ')' :: ' ' :: text : Str) =
      ('(' :: key ++ [')']) ++ ' ' :: text by simp,
      List.drop_left' (by simp)]
  rw [hdrop]
  obtain ⟨ct, hct⟩ : ∃ ct, text.head? = some ct := by
    cases text with
    | nil => exact absurd rfl htne
    | cons y t => exact ⟨y, rfl⟩
  have hct2 : isSpaceChar ct = false := trim_self_head text ct htr hct
  have htrsp : trimS (' ' :: text) = text := by
    have := trimS_pad 1 0 text ct dt hct hct2 hdt hdt2
    simpa [spaces] using this
  rw [htrsp, if_neg htne]
  have htake : (('(' :: key ++ ')' :: ' ' :: text).take (key.length + 1)).drop 1 = key := by
    rw [show ('(' :: key ++ ')' :: ' ' :: text : Str) =
      ('(' :: key) ++ ')' :: ' ' :: text from rfl,
      List.take_left' (by simp)]
    rfl
  rw [htake]

/-- Classification of a `> value` array-item line (the value may be
empty; per `plainStrB` it does not itself open a parenthesis). -/
theorem classify_arrayItem (n : Nat) (text : Str)
    (htr : trimS text = text) (hth : '#' ∉ text)
    (hpar : ¬ ['('].isPrefixOf text) :
    classifyLine (spaces n ++ '>' :: ' ' :: text) =
      .ok (some ⟨n, [], text, .arrayItem⟩) := by
  cases htx : text with
  | nil =>
    have hparts := classifyLine_parts n 1 ['>'] '>' '>'
      (by rfl) (by decide) (by rfl) (by decide) (by decide)
    rw [show (spaces n ++ '>' :: ' ' :: ([] : Str) : Str) =
      spaces n ++ ['>'] ++ spaces 1 by simp [spaces, List.replicate]]
    rw [hparts]
    rw [if_neg (by decide), if_neg (by decide), if_pos (by decide)]
    rfl
  | cons ct tt =>
    rw [← htx]
    have htne : text ≠ [] := by rw [htx]; simp
    obtain ⟨dt, hdt⟩ : ∃ dt, text.getLast? = some dt := by
      cases hx : text.getLast? with
      | none => exact absurd (List.getLast?_eq_none_iff.1 hx) htne
      | some y => exact ⟨y, rfl⟩
    have hdt2 : isSpaceChar dt = false := trim_self_last text dt htr hdt
    have hparts := classifyLine_parts n 0 ('>' :: ' ' :: text) '>' dt
      (by rfl) (by decide)
      (by
        rw [show ('>' :: ' ' :: text : Str) = (['>', ' '] : Str) ++ text from rfl,
          List.getLast?_append_of_ne_nil _ htne]
        exact hdt)
      hdt2
      (by
        intro hm
        rcases List.mem_cons.1 hm with he | hm2
        · simp at he
        · rcases List.mem_cons.1 hm2 with he3 | he6
          · simp at he3
          · exact hth he6)
    rw [show (spaces n ++ '>' :: ' ' :: text : Str) =
      spaces n ++ ('>' :: ' ' :: text) ++ spaces 0 by simp [spaces]]
    rw [hparts]
    have hnp1 : ¬ ['>', ' ', '('].isPrefixOf ('>' :: ' ' :: text) := by
      intro hp
      apply hpar
      simp only [List.isPrefixOf, List.cons.injEq] at hp ⊢
      simpa using hp
    have hnp2 : ¬ ['>', '|'].isPrefixOf ('>' :: ' ' :: text) = true := by
      simp [List.isPrefixOf]
    rw [if_neg hnp1, if_neg hnp2, if_pos (by simp [List.isPrefixOf])]
    obtain ⟨ct2, hct⟩ : ∃ ct2, text.head? = some ct2 := by
      rw [htx]; exact ⟨ct, rfl⟩
    have hct2 : isSpaceChar ct2 = false := trim_self_head text ct2 htr hct
    have htrsp : trimS (' ' :: text) = text := by
      have := trimS_pad 1 0 text ct2 dt hct hct2 hdt hdt2
      simpa [spaces] using this
    have hd1 : List.drop 1 ('>' :: ' ' :: text) = ' ' :: text := rfl
    rw [hd1, htrsp]

/-- Classification of the `> (item)` header line. -/
theorem classify_itemHeader (n : Nat) :
    classifyLine (spaces n ++ strL "> (item)") =
      .ok (some ⟨n, [], [], .arrayObject⟩) := by
  have hparts := classifyLine_parts n 0 (strL "> (item)") '>' ')'
    (by rfl) (by decide) (by decide) (by decide) (by decide)
  rw [show (spaces n ++ strL "> (item)" : Str) =
    spaces n ++ strL "> (item)" ++ spaces 0 by simp [spaces]]
  rw [hparts]
  rw [if_pos (by decide)]

theorem unlines_append (A B : List Str) :
    unlines (A ++ B) = unlines A ++ unlines B := by
  simp [unlines]

theorem splitLinesAux_line : ∀ (l : Str) (acc : Str) (rest : Str),
    '\n' ∉ l →
    splitLinesAux (l ++ '\n' :: rest) acc =
      dropTrailingCR (acc.reverse ++ l) :: splitLinesAux rest [] := by
  intro l
  induction l with
  | nil =>
    intro acc rest _
    simp [splitLinesAux]
  | cons c t ih =>
    intro acc rest hn
    have hc : c ≠ '\n' := by
      intro he; exact hn (he ▸ List.mem_cons_self c t)
    have ht : '\n' ∉ t := fun hm => hn (List.mem_cons_of_mem c hm)
    have hstep : splitLinesAux ((c :: t) ++ '\n' :: rest) acc =
        splitLinesAux (t ++ '\n' :: rest) (c :: acc) := by
      show (if c = '\n' then _ else splitLinesAux (t ++ '\n' :: rest) (c :: acc)) = _
      rw [if_neg hc]
    rw [hstep, ih (c :: acc) rest ht]
    simp

/-- Rejoining scanner-clean lines with `'\n'` and re-scanning is the
identity: the inverse direction of `bufio.ScanLines` on encoder output. -/
theorem splitLines_unlines : ∀ (L : List Str), (∀ l ∈ L, lineOK l) →
    splitLines (unlines L) = L := by
  intro L
  induction L with
  | nil => intro _; rfl
  | cons l L ih =>
    intro hOK
    obtain ⟨hnl, hcr⟩ := hOK l (List.mem_cons_self l L)
    show splitLinesAux (unlines (l :: L)) [] = l :: L
    have hun : unlines (l :: L) = l ++ '\n' :: unlines L := by
      simp [unlines]
    rw [hun, splitLinesAux_line l [] (unlines L) hnl]
    have hdrop : dropTrailingCR (List.reverse [] ++ l) = l := by
      simp only [List.reverse_nil, List.nil_append]
      unfold dropTrailingCR
      rw [if_neg hcr]
    rw [hdrop]
    have := ih (fun x hx => hOK x (List.mem_cons_of_mem l hx))
    rw [show splitLinesAux (unlines L) [] = splitLines (unlines L) from rfl, this]

theorem digitChar_bounds (k : Nat) (h : k < 10) :
    '0' ≤ digitChar k ∧ digitChar k ≤ '9' := by
  interval_cases k <;> decide

theorem digitVal_digitChar (k : Nat) (h : k < 10) :
    digitVal (digitChar k) = some k := by
  interval_cases k <;> decide

theorem natDigitsAux_digits : ∀ (fuel n : Nat), n < fuel →
    ∀ c ∈ natDigitsAux fuel n, '0' ≤ c ∧ c ≤ '9' := by
  intro fuel
  induction fuel with
  | zero => intro n h; omega
  | succ fuel ih =>
    intro n h c hc
    by_cases h10 : n < 10
    · rw [natDigitsAux, if_pos h10] at hc
      rcases List.mem_cons.1 hc with he | he
      · exact he ▸ digitChar_bounds n h10
      · simp at he
    · rw [natDigitsAux, if_neg h10] at hc
      rcases List.mem_append.1 hc with hm | hm
      · have hd : n / 10 < fuel := by
          have := Nat.div_lt_self (by omega : 0 < n) (by omega : 1 < 10)
          omega
        exact ih (n / 10) hd c hm
      · rcases List.mem_cons.1 hm with he | he
        · exact he ▸ digitChar_bounds (n % 10) (Nat.mod_lt n (by omega))
        · simp at he


theorem natDigitsAux_ne_nil (fuel n : Nat) (h : 0 < fuel) :
    natDigitsAux fuel n ≠ [] := by
  cases fuel with
  | zero => omega
  | succ fuel =>
    by_cases h10 : n < 10
    · rw [natDigitsAux, if_pos h10]; simp
    · rw [natDigitsAux, if_neg h10]; simp

theorem natDigits_ne_nil (n : Nat) : natDigits n ≠ [] :=
  natDigitsAux_ne_nil (n + 1) n (by omega)

theorem natDigits_digits (n : Nat) : ∀ c ∈ natDigits n, '0' ≤ c ∧ c ≤ '9' :=
  natDigitsAux_digits (n + 1) n (by omega)

/-- Properties of a decimal digit or minus sign relevant to line
classification and scalar parsing. -/
theorem digit_char_props (c : Char) (h : ('0' ≤ c ∧ c ≤ '9') ∨ c = '-') :
    c ≠ '\n' ∧ c ≠ '#' ∧ isSpaceChar c = false ∧ c ≠ '(' ∧ c ≠ 'n' ∧
      c ≠ '+' ∧ (c = '-' ∨ c ≠ '-') := by
  have hsp : isSpaceChar c = false := by
    rcases h with hb | hm
    · simp only [isSpaceChar, Bool.or_eq_false_iff, decide_eq_false_iff_not]
      refine ⟨⟨⟨⟨⟨?_, ?_⟩, ?_⟩, ?_⟩, ?_⟩, ?_⟩ <;>
        · intro he; subst he; revert hb; decide
    · subst hm; decide
  rcases h with hb | hm
  · refine ⟨?_, ?_, hsp, ?_, ?_, ?_, Or.inr ?_⟩ <;>
      · intro he; subst he; revert hb; decide
  · subst hm
    exact ⟨by decide, by decide, hsp, by decide, by decide, by decide,
      Or.inl rfl⟩

theorem parse_natDigitsAux : ∀ (fuel : Nat), ∀ (n : Nat), n < fuel →
    ∀ (acc : Nat) (s : Str),
    parseDigitsAux (natDigitsAux fuel n ++ s) acc =
      parseDigitsAux s (acc * 10 ^ (natDigitsAux fuel n).length + n) := by
  intro fuel
  induction fuel with
  | zero => intro n h; omega
  | succ fuel ih =>
    intro n h acc s
    by_cases h10 : n < 10
    · rw [natDigitsAux, if_pos h10]
      show parseDigitsAux (digitChar n :: s) acc = _
      rw [parseDigitsAux, digitVal_digitChar n h10]
      simp
    · rw [natDigitsAux, if_neg h10]
      have hd : n / 10 < fuel := by
        have := Nat.div_lt_self (by omega : 0 < n) (by omega : 1 < 10)
        omega
      rw [List.append_assoc]
      rw [ih (n / 10) hd acc ([digitChar (n % 10)] ++ s)]
      show parseDigitsAux (digitChar (n % 10) :: s) _ = _
      rw [parseDigitsAux, digitVal_digitChar (n % 10) (Nat.mod_lt n (by omega))]
      dsimp only
      congr 1
      have hmod := Nat.div_add_mod n 10
      have hlen : (natDigitsAux fuel (n / 10) ++ [digitChar (n % 10)]).length =
          (natDigitsAux fuel (n / 10)).length + 1 := by simp
      rw [hlen, pow_succ]
      ring_nf
      omega

theorem parseDigits_natDigits (n : Nat) : parseDigits (natDigits n) = some n := by
  rw [parseDigits, if_neg (natDigits_ne_nil n)]
  have := parse_natDigitsAux (n + 1) n (by omega) 0 []
  rw [List.append_nil] at this
  rw [show natDigits n = natDigitsAux (n + 1) n from rfl, this]
  simp [parseDigitsAux]

theorem parseUint_formatUint (n : Nat) (h : n < 2 ^ 64) :
    parseUintGo (formatUint n) = some n := by
  rw [parseUintGo, show formatUint n = natDigits n from rfl,
    parseDigits_natDigits]
  dsimp only
  rw [if_pos h]

theorem parseBool_formatBool (b : Bool) : parseBoolGo (formatBool b) = some b := by
  cases b <;> rfl

theorem parseInt_formatInt (n : Int) (h1 : -(2 ^ 63) ≤ n) (h2 : n < 2 ^ 63) :
    parseIntGo (formatInt n) = some n := by
  by_cases hneg : n < 0
  · rw [formatInt, if_pos hneg]
    simp only [parseIntGo]
    rw [if_pos (show ('-' = '+' ∨ True) from Or.inr trivial),
      parseDigits_natDigits]
    dsimp only
    rw [if_pos trivial]
    have hle : (-n).toNat ≤ 2 ^ 63 := by omega
    rw [if_pos hle]
    congr 1
    omega
  · rw [formatInt, if_neg hneg]
    obtain ⟨c, r, hcr⟩ : ∃ c r, natDigits n.toNat = c :: r := by
      cases hx : natDigits n.toNat with
      | nil => exact absurd hx (natDigits_ne_nil _)
      | cons c r => exact ⟨c, r, rfl⟩
    have hcd : '0' ≤ c ∧ c ≤ '9' :=
      natDigits_digits n.toNat c (hcr ▸ List.mem_cons_self c r)
    have hprops := digit_char_props c (Or.inl hcd)
    have hnm : c ≠ '-' := by
      rcases hprops.2.2.2.2.2.2 with he2 | he2
      · exact absurd hcd (by rw [he2]; decide)
      · exact he2
    have hcond : ¬(c = '+' ∨ c = '-') := by
      intro hor
      rcases hor with he | he
      · exact hprops.2.2.2.2.2.1 he
      · exact hnm he
    rw [hcr]
    simp only [parseIntGo]
    rw [if_neg hcond, ← hcr, parseDigits_natDigits]
    dsimp only
    rw [if_neg hnm]
    have hlt : n.toNat < 2 ^ 63 := by omega
    rw [if_pos hlt]
    congr 1
    omega

/-- `strings.TrimSpace` leaves a string with non-space edges alone. -/
theorem trimS_eq_self_of_edges (s : Str) (c d : Char)
    (hh : s.head? = some c) (hc : isSpaceChar c = false)
    (hl : s.getLast? = some d) (hd : isSpaceChar d = false) :
    trimS s = s := by
  have := trimS_pad 0 0 s c d hh hc hl hd
  simpa [spaces] using this

/-- A nonempty string of digits and minus signs is a plain value. -/
theorem str_edge_plain (s : Str) (hne : s ≠ [])
    (hall : ∀ c ∈ s, ('0' ≤ c ∧ c ≤ '9') ∨ c = '-') :
    plainStrB s = true := by
  obtain ⟨c, r, hcr⟩ : ∃ c r, s = c :: r := by
    cases s with
    | nil => exact absurd rfl hne
    | cons c r => exact ⟨c, r, rfl⟩
  have hh : s.head? = some c := by rw [hcr]; rfl
  obtain ⟨d, hd⟩ : ∃ d, s.getLast? = some d := by
    cases hx : s.getLast? with
    | none => exact absurd (List.getLast?_eq_none_iff.1 hx) hne
    | some y => exact ⟨y, rfl⟩
  have hcmem : c ∈ s := hcr ▸ List.mem_cons_self c r
  have hcP := digit_char_props c (hall c hcmem)
  have hdmem : d ∈ s := by
    have hgl := List.getLast?_eq_getLast_of_ne_nil hne
    rw [hd] at hgl
    have hgl2 : s.getLast hne = d := by
      have := hgl.symm
      simpa using this
    rw [← hgl2]
    exact List.getLast_mem hne
  have hdP := digit_char_props d (hall d hdmem)
  have htr : trimS s = s :=
    trimS_eq_self_of_edges s c d hh hcP.2.2.1 hd hdP.2.2.1
  rw [plainStrB]
  simp only [Bool.and_eq_true]
  refine ⟨⟨⟨?_, ?_⟩, ?_⟩, ?_⟩
  · rw [List.all_eq_true]
    intro x hx
    have hxP := digit_char_props x (hall x hx)
    simp [hxP.1, hxP.2.1]
  · rw [beq_iff_eq]
    exact htr
  · rw [Bool.not_eq_true', beq_eq_false_iff_ne]
    intro he
    have hhn : s.head? = some 'n' := by rw [he]; rfl
    rw [hh] at hhn
    exact hcP.2.2.2.2.1 (by simpa using hhn)
  · rw [Bool.not_eq_true']
    rw [hcr]
    show (['('].isPrefixOf (c :: r)) = false
    simp only [List.isPrefixOf, Bool.and_eq_false_iff]
    left
    rw [beq_eq_false_iff_ne]
    intro he
    exact hcP.2.2.2.1 he.symm

theorem formatInt_chars (n : Int) :
    ∀ c ∈ formatInt n, ('0' ≤ c ∧ c ≤ '9') ∨ c = '-' := by
  intro c hc
  rw [formatInt] at hc
  by_cases hneg : n < 0
  · rw [if_pos hneg] at hc
    rcases List.mem_cons.1 hc with he | hm
    · exact Or.inr he
    · exact Or.inl (natDigits_digits _ c hm)
  · rw [if_neg hneg] at hc
    exact Or.inl (natDigits_digits _ c hc)

theorem formatInt_ne_nil (n : Int) : formatInt n ≠ [] := by
  rw [formatInt]
  by_cases hneg : n < 0
  · rw [if_pos hneg]; simp
  · rw [if_neg hneg]; exact natDigits_ne_nil _

/-- The scalar text of a well-formed leaf is a plain value string. -/
theorem scalarText_plain (v : RVal) (h : wfScalarB v = true) :
    plainStrB (scalarText v) = true := by
  cases v with
  | rstr s => exact h
  | rint w n =>
    exact str_edge_plain _ (formatInt_ne_nil n) (formatInt_chars n)
  | ruint w n =>
    exact str_edge_plain _ (natDigits_ne_nil n)
      (fun c hc => Or.inl (natDigits_digits n c hc))
  | rbool b => cases b <;> decide
  | rrec fs => simp [wfScalarB] at h
  | rlist t l => simp [wfScalarB] at h
  | rmap t m => simp [wfScalarB] at h
  | rptr t p => simp [wfScalarB] at h

/-- `setPrimitive` with a value string other than the `nil` literal is
the kind dispatch through the pointer-allocating dereference. -/
theorem setPrimitive_not_nil (v : RVal) (s : Str) (h : s ≠ strL "nil") :
    setPrimitive v s =
      match setPrimCore (indirectForce v) s with
      | .error e => .error e
      | .ok core => .ok (rewrapPtrs v core) := by
  unfold setPrimitive
  rw [if_neg h]
  cases setPrimCore (indirectForce v) s <;> rfl

/-- Setting the zero value of a well-formed scalar from its own encoder
text restores the scalar exactly (`setPrimitive` undoes the scalar
formatting). -/
theorem setPrim_scalar (v : RVal) (h : wfScalarB v = true) :
    setPrimitive (zeroVal (typeOf v)) (scalarText v) = .ok v := by
  have hplain := scalarText_plain v h
  have hnotnil : scalarText v ≠ strL "nil" := by
    rw [plainStrB] at hplain
    simp only [Bool.and_eq_true] at hplain
    have h3 := hplain.1.2
    rw [Bool.not_eq_true', beq_eq_false_iff_ne] at h3
    exact h3
  rw [setPrimitive_not_nil _ _ hnotnil]
  cases v with
  | rstr s => rfl
  | rint w n =>
    rw [wfScalarB] at h
    simp only [Bool.and_eq_true, decide_eq_true_eq] at h
    obtain ⟨⟨⟨hw1, hw64⟩, hlo⟩, hhi⟩ := h
    have hA : ((2 : Int) ^ (w - 1)) ≤ 2 ^ 63 := by
      apply pow_le_pow_right₀ (by omega : (1 : Int) ≤ 2)
      omega
    have hparse : parseIntGo (formatInt n) = some n := by
      apply parseInt_formatInt n (by omega) (by omega)
    show (match setPrimCore (.rint w 0) (formatInt n) with
      | .error e => .error e
      | .ok core => Except.ok (rewrapPtrs (.rint w 0) core)) =
        Except.ok (.rint w n)
    rw [setPrimCore, hparse]
    dsimp only
    have hov : overflowInt w n = false := by
      rw [overflowInt]
      simp only [Bool.or_eq_false_iff, decide_eq_false_iff_not]
      constructor <;> omega
    rw [hov]
    rfl
  | ruint w n =>
    rw [wfScalarB] at h
    simp only [Bool.and_eq_true, decide_eq_true_eq] at h
    obtain ⟨⟨hw1, hw64⟩, hlt⟩ := h
    have hA : ((2 : Nat) ^ w) ≤ 2 ^ 64 := Nat.pow_le_pow_right (by omega) hw64
    have hparse : parseUintGo (formatUint n) = some n :=
      parseUint_formatUint n (by omega)
    show (match setPrimCore (.ruint w 0) (formatUint n) with
      | .error e => .error e
      | .ok core => Except.ok (rewrapPtrs (.ruint w 0) core)) =
        Except.ok (.ruint w n)
    rw [setPrimCore, hparse]
    dsimp only
    have hov : overflowUint w n = false := by
      rw [overflowUint]
      simp only [decide_eq_false_iff_not]
      omega
    rw [hov]
    rfl
  | rbool b =>
    show (match setPrimCore (.rbool false) (formatBool b) with
      | .error e => .error e
      | .ok core => Except.ok (rewrapPtrs (.rbool false) core)) =
        Except.ok (.rbool b)
    rw [setPrimCore, parseBool_formatBool]
    rfl
  | rrec fs => simp [wfScalarB] at h
  | rlist t l => simp [wfScalarB] at h
  | rmap t m => simp [wfScalarB] at h
  | rptr t p => simp [wfScalarB] at h

theorem tyBeq_sound_pack : ∀ (N : Nat),
    (∀ a b : RTy, sizeOf a ≤ N → tyBeq a b = true → a = b) ∧
    (∀ fs gs : List (Str × Str × Bool × RTy), sizeOf fs ≤ N →
      ftysBeq fs gs = true → fs = gs) := by
  intro N
  induction N using Nat.strong_induction_on with
  | _ N ih =>
    constructor
    · intro a b hsz h
      cases a with
      | tstr => clear ih; cases b <;> simp_all [tyBeq]
      | tbool => clear ih; cases b <;> simp_all [tyBeq]
      | tint w => clear ih; cases b <;> simp_all [tyBeq]
      | tuint w => clear ih; cases b <;> simp_all [tyBeq]
      | trec fs =>
        cases b with
        | trec gs =>
          have hlt : sizeOf fs < N := by
            have hspec : sizeOf (RTy.trec fs) = 1 + sizeOf fs := by simp
            omega
          rw [tyBeq] at h
          rw [(ih (sizeOf fs) hlt).2 fs gs (le_refl _) h]
        | tstr => simp [tyBeq] at h
        | tbool => simp [tyBeq] at h
        | tint w => simp [tyBeq] at h
        | tuint w => simp [tyBeq] at h
        | tlist e => simp [tyBeq] at h
        | tmap e => simp [tyBeq] at h
        | tptr e => simp [tyBeq] at h
      | tlist e =>
        cases b with
        | tlist e' =>
          have hlt : sizeOf e < N := by
            have hspec : sizeOf (RTy.tlist e) = 1 + sizeOf e := by simp
            omega
          rw [tyBeq] at h
          rw [(ih (sizeOf e) hlt).1 e e' (le_refl _) h]
        | tstr => simp [tyBeq] at h
        | tbool => simp [tyBeq] at h
        | tint w => simp [tyBeq] at h
        | tuint w => simp [tyBeq] at h
        | trec fs => simp [tyBeq] at h
        | tmap e' => simp [tyBeq] at h
        | tptr e' => simp [tyBeq] at h
      | tmap e =>
        cases b with
        | tmap e' =>
          have hlt : sizeOf e < N := by
            have hspec : sizeOf (RTy.tmap e) = 1 + sizeOf e := by simp
            omega
          rw [tyBeq] at h
          rw [(ih (sizeOf e) hlt).1 e e' (le_refl _) h]
        | tstr => simp [tyBeq] at h
        | tbool => simp [tyBeq] at h
        | tint w => simp [tyBeq] at h
        | tuint w => simp [tyBeq] at h
        | trec fs => simp [tyBeq] at h
        | tlist e' => simp [tyBeq] at h
        | tptr e' => simp [tyBeq] at h
      | tptr e =>
        cases b with
        | tptr e' =>
          have hlt : sizeOf e < N := by
            have hspec : sizeOf (RTy.tptr e) = 1 + sizeOf e := by simp
            omega
          rw [tyBeq] at h
          rw [(ih (sizeOf e) hlt).1 e e' (le_refl _) h]
        | tstr => simp [tyBeq] at h
        | tbool => simp [tyBeq] at h
        | tint w => simp [tyBeq] at h
        | tuint w => simp [tyBeq] at h
        | trec fs => simp [tyBeq] at h
        | tlist e' => simp [tyBeq] at h
        | tmap e' => simp [tyBeq] at h
    · intro fs gs hsz h
      cases fs with
      | nil => cases gs with
        | nil => rfl
        | cons g gs => simp [ftysBeq] at h
      | cons f fs' =>
        cases gs with
        | nil =>
          obtain ⟨n, t, a, ty⟩ := f
          simp [ftysBeq] at h
        | cons g gs' =>
          obtain ⟨n, t, a, ty⟩ := f
          obtain ⟨n', t', a', ty'⟩ := g
          rw [ftysBeq] at h
          simp only [Bool.and_eq_true, beq_iff_eq] at h
          obtain ⟨⟨⟨⟨hn, ht⟩, ha⟩, hty⟩, htail⟩ := h
          have hlt1 : sizeOf ty < N := by
            have h1 : sizeOf ((n, t, a, ty) :: fs') =
                1 + sizeOf (n, t, a, ty) + sizeOf fs' := by simp
            have h2 : sizeOf (n, t, a, ty) =
                1 + sizeOf n + sizeOf (t, a, ty) := by simp [Prod.mk.sizeOf_spec]
            have h3 : sizeOf (t, a, ty) = 1 + sizeOf t + sizeOf (a, ty) := by
              simp [Prod.mk.sizeOf_spec]
            have h4 : sizeOf (a, ty) = 1 + sizeOf a + sizeOf ty := by
              simp [Prod.mk.sizeOf_spec]
            omega
          have hlt2 : sizeOf fs' < N := by
            have h1 : sizeOf ((n, t, a, ty) :: fs') =
                1 + sizeOf (n, t, a, ty) + sizeOf fs' := by simp
            have h2 : 0 < sizeOf (n, t, a, ty) := by
              have := Prod.mk.sizeOf_spec n (t, a, ty)
              omega
            omega
          rw [hn, ht, ha, (ih (sizeOf ty) hlt1).1 ty ty' (le_refl _) hty,
            (ih (sizeOf fs') hlt2).2 fs' gs' (le_refl _) htail]

/-- `==` on modelled `reflect.Type`s is sound. -/
theorem tyBeq_sound (a b : RTy) (h : tyBeq a b = true) : a = b :=
  (tyBeq_sound_pack (sizeOf a)).1 a b (le_refl _) h

/-- The zero record of a record's type: each field keeps its name, tag
and anonymity and zeroes its value. -/
theorem zeroFields_typeOfFields : ∀ (fs : List (Str × Str × Bool × RVal)),
    zeroFields (typeOfFields fs) =
      fs.map (fun f => (f.1, f.2.1, f.2.2.1, zeroVal (typeOf f.2.2.2))) := by
  intro fs
  induction fs with
  | nil => rfl
  | cons f fs ih =>
    obtain ⟨n, t, a, v⟩ := f
    show (n, t, a, zeroVal (typeOf v)) :: zeroFields (typeOfFields fs) = _
    rw [ih]
    rfl

theorem get?_append_len {α : Type} : ∀ (pre : List α) (g : α) (suf : List α),
    (pre ++ g :: suf)[pre.length]? = some g := by
  intro pre
  induction pre with
  | nil => intro g suf; simp
  | cons p pre ih => intro g suf; simpa using ih g suf

theorem set_append_len {α : Type} : ∀ (pre : List α) (g : α) (suf : List α)
    (w : α), (pre ++ g :: suf).set pre.length w = pre ++ w :: suf := by
  intro pre
  induction pre with
  | nil => intro g suf w; rfl
  | cons p pre ih =>
    intro g suf w
    show p :: (pre ++ g :: suf).set pre.length w = _
    rw [ih g suf w]
    rfl

theorem mapSet_append_fresh : ∀ (acc : List (Str × RVal)) (k : Str) (x : RVal),
    (∀ p ∈ acc, p.1 ≠ k) → mapSet acc k x = acc ++ [(k, x)] := by
  intro acc
  induction acc with
  | nil => intro k x _; rfl
  | cons p acc ih =>
    intro k x h
    obtain ⟨k0, v0⟩ := p
    have hk0 : k0 ≠ k := h (k0, v0) (List.mem_cons_self _ _)
    rw [mapSet, if_neg hk0, ih k x (fun q hq => h q (List.mem_cons_of_mem _ hq))]
    rfl

theorem nodupB_iff : ∀ (l : List Str), nodupB l = true ↔ l.Nodup := by
  intro l
  induction l with
  | nil => simp [nodupB]
  | cons k ks ih =>
    rw [nodupB, List.nodup_cons, Bool.and_eq_true, ← ih]
    constructor
    · rintro ⟨h1, h2⟩
      refine ⟨?_, h2⟩
      intro hm
      rw [Bool.not_eq_true'] at h1
      have h1' : List.elem k ks = false := h1
      rw [List.elem_eq_true_of_mem hm] at h1'
      simp at h1'
    · rintro ⟨h1, h2⟩
      refine ⟨?_, h2⟩
      rw [Bool.not_eq_true']
      cases hx : ks.contains k
      · rfl
      · exact absurd (List.mem_of_elem_eq_true hx) h1

theorem restClosed_mono (ci ci' : Int) (rest : List Str) (h : ci ≤ ci')
    (hc : restClosed ci rest) : restClosed ci' rest := by
  rcases hc with h1 | ⟨li, r, h2, h3⟩
  · exact Or.inl h1
  · exact Or.inr ⟨li, r, h2, by omega⟩

/-- The element-type dereference of `encodeSlice`/`decodeSlice` is the
identity on non-pointer types. -/
theorem derefTy_eq (et : RTy) (h : (scalarTyB et || isRecTy et) = true) :
    (match et with | .tptr u => u | u => u) = et := by
  cases et with
  | tptr u => exact Bool.noConfusion h
  | tstr => rfl
  | tbool => rfl
  | tint w => rfl
  | tuint w => rfl
  | trec fs => rfl
  | tlist e => rfl
  | tmap e => rfl

theorem getFieldPath_nil (v : RVal) : getFieldPath v [] = some v := by
  cases v <;> rfl

theorem setFieldPath_nil (v x : RVal) : setFieldPath v [] x = some x := by
  cases v <;> rfl

/-- Reading a top-level field by its one-step path. -/
theorem getFieldPath_single (gs : List (Str × Str × Bool × RVal)) (j : Nat)
    (n t : Str) (a : Bool) (fv : RVal) (h : gs[j]? = some (n, t, a, fv)) :
    getFieldPath (.rrec gs) [j] = some fv := by
  rw [getFieldPath, h]
  show getFieldPath fv [] = some fv
  exact getFieldPath_nil fv

/-- Writing a top-level field by its one-step path. -/
theorem setFieldPath_single (gs : List (Str × Str × Bool × RVal)) (j : Nat)
    (n t : Str) (a : Bool) (fv x : RVal) (h : gs[j]? = some (n, t, a, fv)) :
    setFieldPath (.rrec gs) [j] x = some (.rrec (gs.set j (n, t, a, x))) := by
  rw [setFieldPath, h]
  show (match setFieldPath fv [] x with
    | some fv' => some (RVal.rrec (gs.set j (n, t, a, fv')))
    | none => none) = some (.rrec (gs.set j (n, t, a, x)))
  rw [setFieldPath_nil]

/-- Index-shifting the accumulator of `findStructFieldAux` only offsets
the head of the returned path. -/
theorem findStructFieldAux_shift (fs : List (Str × Str × Bool × RVal))
    (key : Str) (i : Nat) :
    findStructFieldAux fs key i =
      (findStructFieldAux fs key 0).map
        (fun p => match p with | [] => [] | a :: r => (a + i) :: r) := by
  induction fs generalizing i with
  | nil => rfl
  | cons f fs ih =>
    obtain ⟨name, tag, anon, v⟩ := f
    by_cases h1 : tag = key
    · simp [findStructFieldAux, h1]
    · by_cases h2 : tag = [] ∧ toLowerGo name = key
      · simp [findStructFieldAux, h1, h2]
      · cases ha : (if anon then findStructFieldAnon v key else none) with
        | some p => simp [findStructFieldAux, h1, h2, ha]
        | none =>
          simp only [findStructFieldAux, if_neg h1, if_neg h2, ha]
          rw [ih (i + 1), ih 1]
          cases hr : findStructFieldAux fs key 0 with
          | none => rfl
          | some p =>
            cases p with
            | nil => rfl
            | cons a r => simp [Option.map]; omega

/-- `findStructFieldAux`, on a field list without embedded fields, finds
the first field whose emitted key is the (nonempty) needle. -/
theorem findStructFieldAux_keys :
    ∀ (gs : List (Str × Str × Bool × RVal)) (key : Str) (j : Nat)
      (g : Str × Str × Bool × RVal),
    gs[j]? = some g → keyOfF g = key → key ≠ [] →
    (∀ x ∈ gs, x.2.2.1 = false) →
    (∀ x ∈ gs.take j, keyOfF x ≠ key) →
    findStructFieldAux gs key 0 = some [j] := by
  intro gs
  induction gs with
  | nil => intro key j g hj; simp at hj
  | cons f gs ih =>
    intro key j g hj hkey hne hanon htake
    obtain ⟨n, t, a, v⟩ := f
    have ha : a = false := hanon (n, t, a, v) (List.mem_cons_self _ _)
    subst ha
    cases j with
    | zero =>
      have hg : (n, t, false, v) = g := by simpa using hj
      subst hg
      rw [findStructFieldAux]
      by_cases ht : t = []
      · subst ht
        rw [keyOfF, if_pos rfl] at hkey
        rw [if_neg (by simpa [eq_comm] using hne), if_pos ⟨rfl, hkey⟩]
      · rw [keyOfF, if_neg ht] at hkey
        rw [if_pos hkey]
    | succ j =>
      have hhead : keyOfF (n, t, false, v) ≠ key := by
        apply htake
        rw [List.take_succ_cons]
        exact List.mem_cons_self _ _
      have hj' : gs[j]? = some g := by simpa using hj
      have htake' : ∀ x ∈ gs.take j, keyOfF x ≠ key := by
        intro x hx
        apply htake
        rw [List.take_succ_cons]
        exact List.mem_cons_of_mem _ hx
      have hanon' : ∀ x ∈ gs, x.2.2.1 = false :=
        fun x hx => hanon x (List.mem_cons_of_mem _ hx)
      have hrec := ih key j g hj' hkey hne hanon' htake'
      rw [findStructFieldAux]
      have hc1 : ¬ t = key := by
        intro he
        apply hhead
        rw [keyOfF]
        by_cases ht0 : t = []
        · exact absurd (ht0 ▸ he).symm hne
        · rw [if_neg ht0]; exact he
      have hc2 : ¬ (t = [] ∧ toLowerGo n = key) := by
        rintro ⟨ht0, hlow⟩
        apply hhead
        rw [keyOfF, if_pos ht0]
        exact hlow
      rw [if_neg hc1, if_neg hc2]
      show findStructFieldAux gs key 1 = some [j + 1]
      rw [findStructFieldAux_shift gs key 1, hrec]
      rfl

theorem unlines_cons (l : Str) (L : List Str) :
    unlines (l :: L) = l ++ '\n' :: unlines L := by
  simp [unlines]

theorem plainStr_props (s : Str) (h : plainStrB s = true) :
    ('\n' ∉ s) ∧ ('#' ∉ s) ∧ trimS s = s ∧ s ≠ strL "nil" ∧
      ¬ ['('].isPrefixOf s := by
  rw [plainStrB] at h
  simp only [Bool.and_eq_true] at h
  obtain ⟨⟨⟨hall, htr⟩, hnil⟩, hpar⟩ := h
  refine ⟨?_, ?_, ?_, ?_, ?_⟩
  · intro hm
    have := (List.all_eq_true.1 hall) _ hm
    simp at this
  · intro hm
    have := (List.all_eq_true.1 hall) _ hm
    simp at this
  · rw [beq_iff_eq] at htr; exact htr
  · rw [Bool.not_eq_true', beq_eq_false_iff_ne] at hnil; exact hnil
  · rw [Bool.not_eq_true'] at hpar
    intro hp
    rw [hp] at hpar
    simp at hpar

theorem plainKey_props (k : Str) (h : plainKeyB k = true) :
    k ≠ [] ∧ (')' ∉ k) ∧ ('#' ∉ k) ∧ ('\n' ∉ k) := by
  rw [plainKeyB] at h
  simp only [Bool.and_eq_true] at h
  obtain ⟨hne, hall⟩ := h
  refine ⟨?_, ?_, ?_, ?_⟩
  · rw [Bool.not_eq_true', beq_eq_false_iff_ne] at hne; exact hne
  all_goals
  · intro hm
    have := (List.all_eq_true.1 hall) _ hm
    simp at this

theorem contains_nl_false (s : Str) (h : '\n' ∉ s) :
    s.contains '\n' = false := by
  cases hx : s.contains '\n'
  · rfl
  · exact absurd (List.mem_of_elem_eq_true hx) h

/-- A value whose static type is a scalar kind is a scalar leaf. -/
theorem scalar_of_typeOf (e : RVal) (h : scalarTyB (typeOf e) = true) :
    wfVal e = wfScalarB e ∧ primItemText e = .ok (scalarText e) ∧
      isNilOrEmpty e = false := by
  cases e with
  | rstr s => exact ⟨rfl, rfl, rfl⟩
  | rbool b => exact ⟨rfl, rfl, rfl⟩
  | rint w n => exact ⟨rfl, rfl, rfl⟩
  | ruint w n => exact ⟨rfl, rfl, rfl⟩
  | rrec fs => exact Bool.noConfusion h
  | rlist t l => exact Bool.noConfusion h
  | rmap t m => exact Bool.noConfusion h
  | rptr t p => exact Bool.noConfusion h

/-- A value whose static type is a record type is a record. -/
theorem rec_of_typeOf (e : RVal) (tfs : List (Str × Str × Bool × RTy))
    (h : typeOf e = .trec tfs) :
    ∃ gs, e = .rrec gs ∧ typeOfFields gs = tfs := by
  cases e with
  | rrec gs =>
    refine ⟨gs, rfl, ?_⟩
    have : typeOf (.rrec gs) = .trec (typeOfFields gs) := rfl
    rw [this] at h
    exact (RTy.trec.injEq _ _ ▸ h)
  | rstr s => exact RTy.noConfusion h
  | rbool b => exact RTy.noConfusion h
  | rint w n => exact RTy.noConfusion h
  | ruint w n => exact RTy.noConfusion h
  | rlist t l => exact RTy.noConfusion h
  | rmap t m => exact RTy.noConfusion h
  | rptr t p => exact RTy.noConfusion h

/-- The non-array scalar rendering of `encodeValue`: a space, the scalar
text, a newline. -/
theorem encodeNonNil_scalar (v : RVal) (fi : Int)
    (h : scalarTyB (typeOf v) = true) (hw : wfScalarB v = true) :
    encodeNonNil v fi false = .ok (' ' :: scalarText v ++ ['\n']) := by
  cases v with
  | rstr s =>
    show Except.ok (encodeString s fi false) = _
    rw [encodeString]
    have hnl := (plainStr_props s hw).1
    rw [if_neg (by rw [contains_nl_false s hnl]; exact Bool.noConfusion),
      if_neg (Bool.noConfusion)]
    rfl
  | rbool b => rfl
  | rint w n => rfl
  | ruint w n => rfl
  | rrec fs => exact Bool.noConfusion h
  | rlist t l => exact Bool.noConfusion h
  | rmap t m => exact Bool.noConfusion h
  | rptr t p => exact Bool.noConfusion h

theorem headersOKB_split (fs : List (Str × Str × Bool × RVal))
    (h : headersOKB fs = true) :
    fs.all fieldHeaderB = true ∧ (fs.map keyOfF).Nodup := by
  rw [headersOKB, Bool.and_eq_true] at h
  exact ⟨h.1, (nodupB_iff _).1 h.2⟩

/-- A physical line of the shape `frag ++ " " ++ text` for plain `text`
survives the scanner. -/
theorem scalar_line_OK (frag text : Str) (hfr : '\n' ∉ frag)
    (hp : plainStrB text = true) : lineOK (frag ++ ' ' :: text) := by
  obtain ⟨hnl, -, htr, -, -⟩ := plainStr_props text hp
  constructor
  · intro hm
    rcases List.mem_append.1 hm with hm1 | hm2
    · exact hfr hm1
    · rcases List.mem_cons.1 hm2 with he | hm3
      · simp at he
      · exact hnl hm3
  · cases htx : text with
    | nil =>
      rw [show (frag ++ [' '] : Str).getLast? = some ' ' from
        List.getLast?_concat _]
      simp
    | cons c t =>
      have htne : text ≠ [] := by rw [htx]; simp
      rw [← htx]
      rw [show (frag ++ ' ' :: text : Str) = (frag ++ [' ']) ++ text by simp,
        List.getLast?_append_of_ne_nil _ htne]
      obtain ⟨d, hd⟩ : ∃ d, text.getLast? = some d := by
        cases hx : text.getLast? with
        | none => exact absurd (List.getLast?_eq_none_iff.1 hx) htne
        | some y => exact ⟨y, rfl⟩
      have hdns := trim_self_last text d htr hd
      rw [hd]
      intro he
      have : d = '\r' := by simpa using he
      rw [this] at hdns
      simp [isSpaceChar] at hdns

theorem indentStr_no_nl (i : Int) : '\n' ∉ indentStr i := by
  rw [indentStr]
  by_cases h : i > 0
  · rw [if_pos h]
    intro hm
    have := List.eq_of_mem_replicate hm
    simp at this
  · rw [if_neg h]
    simp

theorem list_sizeOf_pos {α : Type} [SizeOf α] (l : List α) : 0 < sizeOf l := by
  cases l <;> simp_arith

/-- The primitive-item loop of `encodeSlice` writes exactly the mirrored
`> value` lines. -/
theorem encodeSlicePrimItems_lines (et : RTy) :
    ∀ (es : List RVal) (iStr : Str), scalarTyB et = true →
    wfElems et es = true → '\n' ∉ iStr →
    encodeSlicePrimItemsDef es iStr = .ok (unlines (slicePrimLines es iStr)) ∧
      ∀ l ∈ slicePrimLines es iStr, lineOK l := by
  intro es
  induction es with
  | nil =>
    intro iStr _ _ _
    exact ⟨rfl, by intro l hl; simp [slicePrimLines] at hl⟩
  | cons e es ih =>
    intro iStr hsc hwf hnl
    rw [wfElems] at hwf
    simp only [Bool.and_eq_true] at hwf
    obtain ⟨⟨hty, hv⟩, htl⟩ := hwf
    have htyeq : typeOf e = et := tyBeq_sound _ _ hty
    have hsce : scalarTyB (typeOf e) = true := by rw [htyeq]; exact hsc
    obtain ⟨hwfeq, hprim, -⟩ := scalar_of_typeOf e hsce
    have hws : wfScalarB e = true := by rw [← hwfeq]; exact hv
    have hplain := scalarText_plain e hws
    obtain ⟨hih1, hih2⟩ := ih iStr hsc htl hnl
    constructor
    · rw [encodeSlicePrimItemsDef]
      have hwrite : writePrimitiveArrayItem e iStr =
          .ok (iStr ++ strL "> " ++ scalarText e ++ ['\n']) := by
        rw [writePrimitiveArrayItem]
        rw [hprim]
        rfl
      rw [hwrite]
      dsimp only
      rw [hih1]
      dsimp only
      rw [slicePrimLines, unlines_cons]
      congr 1
      simp [List.append_assoc]
    · intro l hl
      rw [slicePrimLines] at hl
      rcases List.mem_cons.1 hl with he | hm
      · subst he
        have : (iStr ++ strL "> " ++ scalarText e : Str) =
            (iStr ++ ['>']) ++ ' ' :: scalarText e := by
          simp [List.append_assoc]
          rfl
        rw [this]
        apply scalar_line_OK _ _ ?_ hplain
        intro hm2
        rcases List.mem_append.1 hm2 with hm3 | hm4
        · exact hnl hm3
        · simp at hm4
      · exact hih2 l hm

/-- The scalar case of the entry-rendering equivalence. -/
theorem EV_scalar_case (v : RVal) (frag : Str) (fi : Int)
    (hw : wfScalarB v = true) (hsc : scalarTyB (typeOf v) = true)
    (hnil : isNilOrEmpty v = false) (hfrnl : '\n' ∉ frag) :
    encodeNonNil v fi false = .ok (' ' :: scalarText v ++ ['\n']) ∧
    frag ++ (' ' :: scalarText v ++ ['\n']) =
      unlines (entryLines frag v fi) ∧
    ∀ l ∈ entryLines frag v fi, lineOK l := by
  have hE : entryLines frag v fi = [frag ++ ' ' :: scalarText v] := by
    cases v with
    | rstr s => rfl
    | rbool b => rfl
    | rint w n => rfl
    | ruint w n => rfl
    | rrec fs => exact Bool.noConfusion hsc
    | rlist t l => exact Bool.noConfusion hsc
    | rmap t m => exact Bool.noConfusion hsc
    | rptr t p => exact Bool.noConfusion hsc
  refine ⟨encodeNonNil_scalar v fi hsc hw, ?_, ?_⟩
  · rw [hE, unlines_cons]
    simp [unlines, List.append_assoc]
  · intro l hl
    rw [hE] at hl
    rcases List.mem_cons.1 hl with he | hm
    · subst he
      exact scalar_line_OK frag _ hfrnl (scalarText_plain v hw)
    · simp at hm

/-- A nil or empty value renders as the ` nil` entry line. -/
theorem entryLines_nil_case (frag : Str) (v : RVal) (fi : Int)
    (h : isNilOrEmpty v = true) :
    entryLines frag v fi = [frag ++ strL " nil"] := by
  cases v with
  | rstr s => exact Bool.noConfusion h
  | rbool b => exact Bool.noConfusion h
  | rint w n => exact Bool.noConfusion h
  | ruint w n => exact Bool.noConfusion h
  | rrec fs => exact Bool.noConfusion h
  | rlist t l =>
    cases l with
    | none => rfl
    | some es =>
      cases es with
      | nil => rfl
      | cons e es' => exact Bool.noConfusion h
  | rmap t m =>
    cases m with
    | none => rfl
    | some es =>
      cases es with
      | nil => rfl
      | cons e es' => exact Bool.noConfusion h
  | rptr t p =>
    cases p with
    | none => rfl
    | some w => exact Bool.noConfusion h

theorem nil_line_OK (frag : Str) (hfrnl : '\n' ∉ frag) :
    lineOK (frag ++ strL " nil") := by
  constructor
  · intro hm
    rcases List.mem_append.1 hm with hm1 | hm2
    · exact hfrnl hm1
    · revert hm2; decide
  · rw [List.getLast?_append_of_ne_nil _ (by decide : strL " nil" ≠ [])]
    decide

/-- The key fragment of an entry line is newline-free and ends with the
closing paren. -/
theorem keyfrag_props (i : Int) (key : Str) (hk : plainKeyB key = true) :
    ('\n' ∉ (indentStr i ++ '(' :: key ++ [')'] : Str)) ∧
      (indentStr i ++ '(' :: key ++ [')'] : Str).getLast? = some ')' := by
  obtain ⟨-, -, -, hknl⟩ := plainKey_props key hk
  constructor
  · intro hm
    rcases List.mem_append.1 hm with hm1 | hm2
    · rcases List.mem_append.1 hm1 with hm3 | hm4
      · exact indentStr_no_nl i hm3
      · rcases List.mem_cons.1 hm4 with he | hm5
        · simp at he
        · exact hknl hm5
    · simp at hm2
  · exact List.getLast?_concat _

theorem entryLines_rlist_rec (frag : Str)
    (tfs : List (Str × Str × Bool × RTy)) (e : RVal) (es : List RVal)
    (fi : Int) :
    entryLines frag (.rlist (.trec tfs) (some (e :: es))) fi =
      frag :: sliceRecLines (e :: es) (fi + 1) := rfl

theorem entryLines_rlist_scalar (frag : Str) (et : RTy) (e : RVal)
    (es : List RVal) (fi : Int) (hsc : scalarTyB et = true) :
    entryLines frag (.rlist et (some (e :: es))) fi =
      frag :: slicePrimLines (e :: es) (indentStr (fi + 1)) := by
  cases et with
  | tstr => rfl
  | tbool => rfl
  | tint w => rfl
  | tuint w => rfl
  | trec fs => exact Bool.noConfusion hsc
  | tlist u => exact Bool.noConfusion hsc
  | tmap u => exact Bool.noConfusion hsc
  | tptr u => exact Bool.noConfusion hsc

theorem encodeNonNil_rlist_rec (tfs : List (Str × Str × Bool × RTy))
    (e : RVal) (es : List RVal) (fi : Int) :
    encodeNonNil (.rlist (.trec tfs) (some (e :: es))) fi false =
      (match encodeSliceStructItems (e :: es) (fi + 1) with
       | .error er => Except.error er
       | .ok body => Except.ok ('\n' :: body)) := rfl

theorem encodeNonNil_rlist_scalar (et : RTy) (e : RVal) (es : List RVal)
    (fi : Int) (hsc : scalarTyB et = true) :
    encodeNonNil (.rlist et (some (e :: es))) fi false =
      (match encodeSlicePrimItemsDef (e :: es) (indentStr (fi + 1)) with
       | .error er => Except.error er
       | .ok body => Except.ok ('\n' :: body)) := by
  cases et with
  | tstr => rfl
  | tbool => rfl
  | tint w => rfl
  | tuint w => rfl
  | trec fs => exact Bool.noConfusion hsc
  | tlist u => exact Bool.noConfusion hsc
  | tmap u => exact Bool.noConfusion hsc
  | tptr u => exact Bool.noConfusion hsc

/-- The heart of C1's encoder half: `encodeStruct`, `encodeMap` and the
slice item loops write exactly the newline-joined mirrored lines, and
every such line is scanner-clean.  Proved for the whole mutual encoder
at once by induction on a size bound. -/
theorem encode_lines_pack : ∀ (N : Nat),
    (∀ (v : RVal) (frag : Str) (fi : Int), sizeOf v ≤ N → wfVal v = true →
      0 ≤ fi → '\n' ∉ frag → frag.getLast? = some ')' →
      ∃ vout,
        (if isNilOrEmpty v then Except.ok (strL " nil\n")
         else encodeNonNil v fi false) = .ok vout ∧
        frag ++ vout = unlines (entryLines frag v fi) ∧
        ∀ l ∈ entryLines frag v fi, lineOK l) ∧
    (∀ (fs : List (Str × Str × Bool × RVal)) (k : Int), sizeOf fs ≤ N →
      fs.all fieldHeaderB = true → wfFieldVals fs = true → -1 ≤ k →
      encodeStruct fs k = .ok (unlines (fieldsLines fs k)) ∧
        ∀ l ∈ fieldsLines fs k, lineOK l) ∧
    (∀ (tfs : List (Str × Str × Bool × RTy)) (es : List RVal) (m : Int),
      sizeOf es ≤ N → wfElems (.trec tfs) es = true → 0 ≤ m →
      encodeSliceStructItems es m = .ok (unlines (sliceRecLines es m)) ∧
        ∀ l ∈ sliceRecLines es m, lineOK l) ∧
    (∀ (et : RTy) (m2 : List (Str × RVal)) (k : Int), sizeOf m2 ≤ N →
      scalarTyB et = true → (m2.map Prod.fst).all plainKeyB = true →
      wfEntries et m2 = true → -1 ≤ k →
      encodeMap m2 k = .ok (unlines (mapLines m2 k)) ∧
        ∀ l ∈ mapLines m2 k, lineOK l) := by
  intro N
  induction N with
  | zero =>
    refine ⟨?_, ?_, ?_, ?_⟩
    · intro v _ _ hsz
      exact absurd hsz (by have := list_sizeOf_pos (α := Char) []; cases v <;>
        simp_arith)
    · intro fs _ hsz
      have := list_sizeOf_pos fs
      omega
    · intro _ es _ hsz
      have := list_sizeOf_pos es
      omega
    · intro _ m2 _ hsz
      have := list_sizeOf_pos m2
      omega
  | succ N ih =>
    obtain ⟨ihV, ihS, ihI, ihM⟩ := ih
    have hfragOK : ∀ frag : Str, '\n' ∉ frag → frag.getLast? = some ')' →
        lineOK frag := by
      intro frag h1 h2
      exact ⟨h1, by rw [h2]; simp⟩
    refine ⟨?_, ?_, ?_, ?_⟩
    -- one entry (the inlined `encodeValue` at a struct or map key)
    · intro v frag fi hsz hwf hfi hfrnl hfrlast
      by_cases hnil : isNilOrEmpty v = true
      · refine ⟨strL " nil\n", by rw [if_pos hnil], ?_, ?_⟩
        · rw [entryLines_nil_case frag v fi hnil, unlines_cons]
          have h1 : (strL " nil\n" : Str) = strL " nil" ++ ['\n'] := rfl
          rw [h1, unlines]
          simp [List.append_assoc]
        · intro l hl
          rw [entryLines_nil_case frag v fi hnil] at hl
          rcases List.mem_cons.1 hl with he | hm
          · subst he; exact nil_line_OK frag hfrnl
          · simp at hm
      · rw [Bool.not_eq_true] at hnil
        cases v with
        | rstr s =>
          obtain ⟨h1, h2, h3⟩ := EV_scalar_case (.rstr s) frag fi hwf rfl hnil hfrnl
          refine ⟨_, ?_, h2, h3⟩
          rw [if_neg (by rw [hnil]; exact Bool.noConfusion)]
          exact h1
        | rbool b =>
          obtain ⟨h1, h2, h3⟩ := EV_scalar_case (.rbool b) frag fi hwf rfl hnil hfrnl
          refine ⟨_, ?_, h2, h3⟩
          rw [if_neg (by rw [hnil]; exact Bool.noConfusion)]
          exact h1
        | rint w n =>
          obtain ⟨h1, h2, h3⟩ := EV_scalar_case (.rint w n) frag fi hwf rfl hnil hfrnl
          refine ⟨_, ?_, h2, h3⟩
          rw [if_neg (by rw [hnil]; exact Bool.noConfusion)]
          exact h1
        | ruint w n =>
          obtain ⟨h1, h2, h3⟩ := EV_scalar_case (.ruint w n) frag fi hwf rfl hnil hfrnl
          refine ⟨_, ?_, h2, h3⟩
          rw [if_neg (by rw [hnil]; exact Bool.noConfusion)]
          exact h1
        | rrec gs =>
          have hwfeq : wfVal (.rrec gs) = (headersOKB gs && wfFieldVals gs) := rfl
          rw [hwfeq, Bool.and_eq_true] at hwf
          have hszgs : sizeOf gs ≤ N := by
            have hspec : sizeOf (RVal.rrec gs) = 1 + sizeOf gs := by simp
            omega
          obtain ⟨hS1, hS2⟩ := ihS gs fi hszgs (headersOKB_split gs hwf.1).1
            hwf.2 (by omega)
          refine ⟨'\n' :: unlines (fieldsLines gs fi), ?_, ?_, ?_⟩
          · rw [if_neg (by rw [hnil]; exact Bool.noConfusion)]
            show (match encodeStruct gs fi with
              | .error e => Except.error e
              | .ok body =>
                Except.ok ((if fi > -1 then ['\n'] else ([] : Str)) ++ body)) =
              Except.ok ('\n' :: unlines (fieldsLines gs fi))
            rw [hS1]
            dsimp only
            rw [if_pos (by omega : fi > -1)]
            rfl
          · have hE : entryLines frag (.rrec gs) fi =
                frag :: fieldsLines gs fi := rfl
            rw [hE, unlines_cons]
          · intro l hl
            have hE : entryLines frag (.rrec gs) fi =
                frag :: fieldsLines gs fi := rfl
            rw [hE] at hl
            rcases List.mem_cons.1 hl with he | hm
            · rw [he]; exact hfragOK frag hfrnl hfrlast
            · exact hS2 l hm
        | rlist et oes =>
          cases oes with
          | none => exact Bool.noConfusion hnil
          | some es =>
            have hwfeq : wfVal (.rlist et (some es)) =
                (!es.isEmpty && (scalarTyB et || isRecTy et) &&
                  wfElems et es) := rfl
            rw [hwfeq] at hwf
            simp only [Bool.and_eq_true] at hwf
            obtain ⟨⟨hne, hguard⟩, helems⟩ := hwf
            cases es with
            | nil => simp at hne
            | cons e es' =>
              have hszes : sizeOf (e :: es') ≤ N := by
                have hspec : sizeOf (RVal.rlist et (some (e :: es'))) =
                    1 + sizeOf et + sizeOf (some (e :: es')) := by simp
                have hspec2 : sizeOf (some (e :: es')) =
                    1 + sizeOf (e :: es') := by simp
                omega
              rw [Bool.or_eq_true] at hguard
              by_cases hrec : isRecTy et = true
              · -- record elements
                obtain ⟨tfs, rfl⟩ : ∃ tfs, et = .trec tfs := by
                  cases et <;> first
                    | exact ⟨_, rfl⟩
                    | exact Bool.noConfusion hrec
                obtain ⟨hI1, hI2⟩ := ihI tfs (e :: es') (fi + 1) hszes helems
                  (by omega)
                refine ⟨'\n' :: unlines (sliceRecLines (e :: es') (fi + 1)),
                  ?_, ?_, ?_⟩
                · rw [if_neg (by rw [hnil]; exact Bool.noConfusion),
                    encodeNonNil_rlist_rec, hI1]
                · rw [entryLines_rlist_rec, unlines_cons]
                · intro l hl
                  rw [entryLines_rlist_rec] at hl
                  rcases List.mem_cons.1 hl with he | hm
                  · rw [he]; exact hfragOK frag hfrnl hfrlast
                  · exact hI2 l hm
              · -- scalar elements
                have hsc : scalarTyB et = true := by
                  rcases hguard with hx | hx
                  · exact hx
                  · exact absurd hx hrec
                obtain ⟨hP1, hP2⟩ := encodeSlicePrimItems_lines et (e :: es')
                  (indentStr (fi + 1)) hsc helems (indentStr_no_nl _)
                refine ⟨'\n' ::
                  unlines (slicePrimLines (e :: es') (indentStr (fi + 1))),
                  ?_, ?_, ?_⟩
                · rw [if_neg (by rw [hnil]; exact Bool.noConfusion),
                    encodeNonNil_rlist_scalar et e es' fi hsc, hP1]
                · rw [entryLines_rlist_scalar frag et e es' fi hsc, unlines_cons]
                · intro l hl
                  rw [entryLines_rlist_scalar frag et e es' fi hsc] at hl
                  rcases List.mem_cons.1 hl with he | hm
                  · rw [he]; exact hfragOK frag hfrnl hfrlast
                  · exact hP2 l hm
        | rmap et om =>
          cases om with
          | none => exact Bool.noConfusion hnil
          | some m2 =>
            have hwfeq : wfVal (.rmap et (some m2)) =
                (!m2.isEmpty && scalarTyB et &&
                  (m2.map Prod.fst).all plainKeyB &&
                  nodupB (m2.map Prod.fst) && wfEntries et m2) := rfl
            rw [hwfeq] at hwf
            simp only [Bool.and_eq_true] at hwf
            obtain ⟨⟨⟨⟨hne, hsc⟩, hkeys⟩, -⟩, hentries⟩ := hwf
            cases m2 with
            | nil => simp at hne
            | cons p m' =>
              have hszm : sizeOf (p :: m') ≤ N := by
                have hspec : sizeOf (RVal.rmap et (some (p :: m'))) =
                    1 + sizeOf et + sizeOf (some (p :: m')) := by simp
                have hspec2 : sizeOf (some (p :: m')) =
                    1 + sizeOf (p :: m') := by simp
                omega
              obtain ⟨hM1, hM2⟩ := ihM et (p :: m') fi hszm hsc hkeys hentries
                (by omega)
              refine ⟨'\n' :: unlines (mapLines (p :: m') fi), ?_, ?_, ?_⟩
              · rw [if_neg (by rw [hnil]; exact Bool.noConfusion)]
                show (match encodeMap (p :: m') fi with
                  | .error e => Except.error e
                  | .ok body => Except.ok (['\n'] ++ body)) =
                  Except.ok ('\n' :: unlines (mapLines (p :: m') fi))
                rw [hM1]
                rfl
              · have hE : entryLines frag (.rmap et (some (p :: m'))) fi =
                    frag :: mapLines (p :: m') fi := rfl
                rw [hE, unlines_cons]
              · intro l hl
                have hE : entryLines frag (.rmap et (some (p :: m'))) fi =
                    frag :: mapLines (p :: m') fi := rfl
                rw [hE] at hl
                rcases List.mem_cons.1 hl with he | hm
                · rw [he]; exact hfragOK frag hfrnl hfrlast
                · exact hM2 l hm
        | rptr t op =>
          cases op with
          | none => exact Bool.noConfusion hnil
          | some w =>
            have hwfeq : wfVal (.rptr t (some w)) = false := rfl
            rw [hwfeq] at hwf
            exact Bool.noConfusion hwf
    -- encodeStruct
    · intro fs k hsz hall hvals hk
      cases fs with
      | nil =>
        refine ⟨rfl, ?_⟩
        intro l hl
        have hE : fieldsLines [] k = [] := rfl
        rw [hE] at hl
        simp at hl
      | cons f fs' =>
        obtain ⟨n, t, a, fv⟩ := f
        rw [List.all_cons, Bool.and_eq_true] at hall
        obtain ⟨hhead, hall'⟩ := hall
        rw [fieldHeaderB] at hhead
        simp only [Bool.and_eq_true] at hhead
        obtain ⟨⟨hanon, htag⟩, hkeyp⟩ := hhead
        have htagne : t ≠ ['-'] := by
          rw [Bool.not_eq_true', beq_eq_false_iff_ne] at htag
          exact fun he => htag (he.trans rfl)
        rw [wfFieldVals, Bool.and_eq_true] at hvals
        obtain ⟨hfv, hvals'⟩ := hvals
        obtain ⟨hfrnl, hfrlast⟩ := keyfrag_props (k + 1)
          (if t = [] then toLowerGo n else t) hkeyp
        have hsz1 : sizeOf fv ≤ N := by
          have h1 : sizeOf ((n, t, a, fv) :: fs') =
              1 + sizeOf (n, t, a, fv) + sizeOf fs' := by simp
          have h2 : sizeOf (n, t, a, fv) =
              1 + sizeOf n + sizeOf (t, a, fv) := by simp
          have h3 : sizeOf (t, a, fv) = 1 + sizeOf t + sizeOf (a, fv) := by simp
          have h4 : sizeOf (a, fv) = 1 + sizeOf a + sizeOf fv := by simp
          have h5 := list_sizeOf_pos fs'
          omega
        have hsz2 : sizeOf fs' ≤ N := by
          have h1 : sizeOf ((n, t, a, fv) :: fs') =
              1 + sizeOf (n, t, a, fv) + sizeOf fs' := by simp
          have h2 : sizeOf (n, t, a, fv) =
              1 + sizeOf n + sizeOf (t, a, fv) := by simp
          have h3 := list_sizeOf_pos (α := Char) n
          omega
        obtain ⟨vout, hv1, hv2, hv3⟩ := ihV fv
          (indentStr (k + 1) ++ '(' :: (if t = [] then toLowerGo n else t) ++ [')'])
          (k + 1) hsz1 hfv (by omega) hfrnl hfrlast
        obtain ⟨hS1', hS2'⟩ := ihS fs' k hsz2 hall' hvals' hk
        have hfl : fieldsLines ((n, t, a, fv) :: fs') k =
            entryLines
              (indentStr (k + 1) ++
                '(' :: (if t = [] then toLowerGo n else t) ++ [')'])
              fv (k + 1) ++ fieldsLines fs' k := rfl
        constructor
        · rw [encodeStruct, if_neg htagne, hv1]
          dsimp only
          rw [hS1']
          dsimp only
          rw [hfl, unlines_append, ← hv2]
          congr 1
          simp [List.append_assoc]
        · intro l hl
          rw [hfl] at hl
          rcases List.mem_append.1 hl with hm1 | hm2
          · exact hv3 l hm1
          · exact hS2' l hm2
    -- encodeSliceStructItems
    · intro tfs es m hsz helems hm
      cases es with
      | nil =>
        refine ⟨rfl, ?_⟩
        intro l hl
        have hE : sliceRecLines [] m = [] := rfl
        rw [hE] at hl
        simp at hl
      | cons e es' =>
        rw [wfElems] at helems
        simp only [Bool.and_eq_true] at helems
        obtain ⟨⟨hty, hv⟩, htl⟩ := helems
        obtain ⟨gs, rfl, htfs⟩ := rec_of_typeOf e tfs (tyBeq_sound _ _ hty)
        have hwfeq : wfVal (.rrec gs) = (headersOKB gs && wfFieldVals gs) := rfl
        rw [hwfeq, Bool.and_eq_true] at hv
        have hsz1 : sizeOf gs ≤ N := by
          have h1 : sizeOf (RVal.rrec gs :: es') =
              1 + sizeOf (RVal.rrec gs) + sizeOf es' := by simp
          have h2 : sizeOf (RVal.rrec gs) = 1 + sizeOf gs := by simp
          have h3 := list_sizeOf_pos es'
          omega
        have hsz2 : sizeOf es' ≤ N := by
          have h1 : sizeOf (RVal.rrec gs :: es') =
              1 + sizeOf (RVal.rrec gs) + sizeOf es' := by simp
          have h2 : sizeOf (RVal.rrec gs) = 1 + sizeOf gs := by simp
          have h3 := list_sizeOf_pos gs
          omega
        obtain ⟨hS1, hS2⟩ := ihS gs (m + 1) hsz1 (headersOKB_split gs hv.1).1
          hv.2 (by omega)
        obtain ⟨hI1', hI2'⟩ := ihI tfs es' m hsz2 htl hm
        have hsl : sliceRecLines (.rrec gs :: es') m =
            ((indentStr m ++ strL "> (item)") :: fieldsLines gs (m + 1)) ++
              sliceRecLines es' m := rfl
        have hheaderOK : lineOK (indentStr m ++ strL "> (item)") := by
          constructor
          · intro hm2
            rcases List.mem_append.1 hm2 with h1 | h2
            · exact indentStr_no_nl m h1
            · revert h2; decide
          · rw [List.getLast?_append_of_ne_nil _
              (by decide : strL "> (item)" ≠ [])]
            decide
        constructor
        · rw [encodeSliceStructItems,
            if_neg (show ¬(isNilOrEmpty (RVal.rrec gs) = true) from
              Bool.noConfusion)]
          have henc : encodeNonNil (.rrec gs) m true =
              (match encodeStruct gs (m + 1) with
               | .error er => Except.error er
               | .ok body =>
                 Except.ok (indentStr m ++ strL "> (item)\n" ++ body)) := rfl
          rw [henc, hS1]
          dsimp only
          rw [hI1']
          dsimp only
          rw [hsl, unlines_append, unlines_cons]
          congr 1
          have hcat : (strL "> (item)\n" : Str) = strL "> (item)" ++ ['\n'] := rfl
          rw [hcat]
          simp [List.append_assoc]
        · intro l hl
          rw [hsl] at hl
          rcases List.mem_append.1 hl with hm1 | hm2
          · rcases List.mem_cons.1 hm1 with he | hm3
            · subst he; exact hheaderOK
            · exact hS2 l hm3
          · exact hI2' l hm2
    -- encodeMap
    · intro et m2 k hsz hsc hkeys hentries hk
      cases m2 with
      | nil =>
        refine ⟨rfl, ?_⟩
        intro l hl
        have hE : mapLines [] k = [] := rfl
        rw [hE] at hl
        simp at hl
      | cons p m' =>
        obtain ⟨mk, mv⟩ := p
        rw [wfEntries] at hentries
        simp only [Bool.and_eq_true] at hentries
        obtain ⟨⟨hty, hv⟩, htl⟩ := hentries
        simp only [List.map_cons, List.all_cons, Bool.and_eq_true] at hkeys
        obtain ⟨hkeyp, hkeys'⟩ := hkeys
        obtain ⟨hfrnl, hfrlast⟩ := keyfrag_props (k + 1) mk hkeyp
        have hsz1 : sizeOf mv ≤ N := by
          have h1 : sizeOf ((mk, mv) :: m') =
              1 + sizeOf (mk, mv) + sizeOf m' := by simp
          have h2 : sizeOf (mk, mv) = 1 + sizeOf mk + sizeOf mv := by simp
          have h3 := list_sizeOf_pos m'
          omega
        have hsz2 : sizeOf m' ≤ N := by
          have h1 : sizeOf ((mk, mv) :: m') =
              1 + sizeOf (mk, mv) + sizeOf m' := by simp
          have h2 : sizeOf (mk, mv) = 1 + sizeOf mk + sizeOf mv := by simp
          have h3 := list_sizeOf_pos (α := Char) mk
          omega
        obtain ⟨vout, hv1, hv2, hv3⟩ := ihV mv
          (indentStr (k + 1) ++ '(' :: mk ++ [')']) (k + 1) hsz1 hv
          (by omega) hfrnl hfrlast
        obtain ⟨hM1', hM2'⟩ := ihM et m' k hsz2 hsc hkeys' htl hk
        have hml : mapLines ((mk, mv) :: m') k =
            entryLines (indentStr (k + 1) ++ '(' :: mk ++ [')']) mv (k + 1) ++
              mapLines m' k := rfl
        constructor
        · rw [encodeMap, hv1]
          dsimp only
          rw [hM1']
          dsimp only
          rw [hml, unlines_append, ← hv2]
          congr 1
          simp [List.append_assoc]
        · intro l hl
          rw [hml] at hl
          rcases List.mem_append.1 hl with hm1 | hm2
          · exact hv3 l hm1
          · exact hM2' l hm2

theorem indentStr_eq_spaces (i : Int) (h : 0 ≤ i) :
    indentStr i = spaces (2 * i.toNat) := by
  rw [indentStr, spaces]
  by_cases hp : i > 0
  · rw [if_pos hp]
  · rw [if_neg hp]
    have h0 : i.toNat = 0 := by omega
    rw [h0]
    rfl

theorem costV_pos (v : RVal) : 1 ≤ costV v := by
  cases v with
  | rrec fs => show 1 ≤ 2 + costFields fs; omega
  | rlist t l =>
    cases l with
    | none => exact le_refl _
    | some es => show 1 ≤ 2 + costElems es; omega
  | rmap t m =>
    cases m with
    | none => exact le_refl _
    | some es => show 1 ≤ 2 + costEntries es; omega
  | rstr s => exact le_refl _
  | rbool b => exact le_refl _
  | rint w n => exact le_refl _
  | ruint w n => exact le_refl _
  | rptr t p => exact le_refl _

theorem costFields_pos (fs : List (Str × Str × Bool × RVal)) :
    1 ≤ costFields fs := by
  cases fs with
  | nil => exact le_refl _
  | cons f fs =>
    obtain ⟨n, t, a, v⟩ := f
    show 1 ≤ 1 + costV v + costFields fs
    omega

theorem costElems_pos (es : List RVal) : 1 ≤ costElems es := by
  cases es with
  | nil => exact le_refl _
  | cons e es => show 1 ≤ 1 + costV e + costElems es; omega

theorem costEntries_pos (m : List (Str × RVal)) : 1 ≤ costEntries m := by
  cases m with
  | nil => exact le_refl _
  | cons p m =>
    obtain ⟨k, v⟩ := p
    show 1 ≤ 1 + costV v + costEntries m
    omega

theorem skipToContent_cons_content (l : Str) (ls : List Str) (li : LineInfo)
    (h : classifyLine l = .ok (some li)) :
    skipToContent (l :: ls) = .ok (some (li, ls)) := by
  rw [skipToContent, h]

/-- The key line of an entry, classified: bare or padded `(key)` lines
are `keyOnly` at the padded indent. -/
theorem keyline_keyOnly (k1 : Int) (hk1 : 0 ≤ k1) (key : Str)
    (hkey : plainKeyB key = true) (pad : Nat) :
    classifyLine ((indentStr k1 ++ '(' :: key ++ [')']) ++ spaces pad) =
      .ok (some ⟨2 * k1.toNat, key, [], .keyOnly⟩) := by
  rw [indentStr_eq_spaces k1 hk1]
  have := classify_keyOnly (2 * k1.toNat) pad key hkey
  rw [← this]
  congr 1
  simp [List.append_assoc]

/-- The `(key) value` line of an entry, classified. -/
theorem keyline_keyValue (k1 : Int) (hk1 : 0 ≤ k1) (key text : Str)
    (hkey : plainKeyB key = true) (htne : text ≠ [])
    (htr : trimS text = text) (hth : '#' ∉ text) :
    classifyLine ((indentStr k1 ++ '(' :: key ++ [')']) ++ ' ' :: text) =
      .ok (some ⟨2 * k1.toNat, key, text, .keyValue⟩) := by
  rw [indentStr_eq_spaces k1 hk1]
  have := classify_keyValue (2 * k1.toNat) key text hkey htne htr hth
  rw [← this]
  congr 1
  simp [List.append_assoc]

theorem itemline_header (m : Int) (hm : 0 ≤ m) :
    classifyLine (indentStr m ++ strL "> (item)") =
      .ok (some ⟨2 * m.toNat, [], [], .arrayObject⟩) := by
  rw [indentStr_eq_spaces m hm]
  exact classify_itemHeader _

theorem itemline_prim (m : Int) (hm : 0 ≤ m) (text : Str)
    (htr : trimS text = text) (hth : '#' ∉ text)
    (hpar : ¬ ['('].isPrefixOf text) :
    classifyLine (indentStr m ++ strL "> " ++ text) =
      .ok (some ⟨2 * m.toNat, [], text, .arrayItem⟩) := by
  rw [indentStr_eq_spaces m hm]
  have := classify_arrayItem (2 * m.toNat) text htr hth hpar
  rw [← this]
  congr 1
  simp [List.append_assoc]
  rfl

/-- The scalar entry rendering, independent of nil checks. -/
theorem entryLines_scalar (frag : Str) (v : RVal) (fi : Int)
    (hsc : scalarTyB (typeOf v) = true) :
    entryLines frag v fi = [frag ++ ' ' :: scalarText v] := by
  cases v with
  | rstr s => rfl
  | rbool b => rfl
  | rint w n => rfl
  | ruint w n => rfl
  | rrec fs => exact Bool.noConfusion hsc
  | rlist t l => exact Bool.noConfusion hsc
  | rmap t m => exact Bool.noConfusion hsc
  | rptr t p => exact Bool.noConfusion hsc

/-- A well-formed value that does not decode through a nested block is
written as a single `(key) value` line whose value string `setPrimitive`
parses back to the value itself. -/
theorem entry_keyValue_case (fv : RVal) (frag : Str) (fi : Int)
    (hwf : wfVal fv = true)
    (hA : isNilOrEmpty fv = true ∨
      (scalarTyB (typeOf fv) = true ∧ scalarText fv ≠ [])) :
    ∃ text, entryLines frag fv fi = [frag ++ ' ' :: text] ∧ text ≠ [] ∧
      trimS text = text ∧ '#' ∉ text ∧
      setPrimitive (zeroVal (typeOf fv)) text = .ok fv := by
  rcases hA with hnil | ⟨hsc, hne⟩
  · refine ⟨strL "nil", ?_, by decide, by decide, by decide, ?_⟩
    · rw [entryLines_nil_case frag fv fi hnil]
      rfl
    · cases fv with
      | rstr s => exact Bool.noConfusion hnil
      | rbool b => exact Bool.noConfusion hnil
      | rint w n => exact Bool.noConfusion hnil
      | ruint w n => exact Bool.noConfusion hnil
      | rrec fs => exact Bool.noConfusion hnil
      | rlist t l =>
        cases l with
        | none => rfl
        | some es =>
          cases es with
          | nil => exact Bool.noConfusion hwf
          | cons e es' => exact Bool.noConfusion hnil
      | rmap t m =>
        cases m with
        | none => rfl
        | some es =>
          cases es with
          | nil => exact Bool.noConfusion hwf
          | cons e es' => exact Bool.noConfusion hnil
      | rptr t p =>
        cases p with
        | none => rfl
        | some w => exact Bool.noConfusion hwf
  · have hwfs : wfScalarB fv = true := by
      rw [← (scalar_of_typeOf fv hsc).1]; exact hwf
    have hplain := scalarText_plain fv hwfs
    obtain ⟨-, hnh, htr, -, -⟩ := plainStr_props _ hplain
    exact ⟨scalarText fv, entryLines_scalar frag fv fi hsc, hne, htr, hnh,
      setPrim_scalar fv hwfs⟩

/-- A well-formed block-style value's rendering: a (possibly
space-padded) bare key line followed by the entry body. -/
theorem entry_keyOnly_case (fv : RVal) (frag : Str) (fi : Int)
    (hwf : wfVal fv = true) (hB : blockOk fv = true) :
    ∃ pad, entryLines frag fv fi = (frag ++ spaces pad) :: entryBody fv fi := by
  cases fv with
  | rstr s =>
    cases s with
    | nil =>
      refine ⟨1, ?_⟩
      show [frag ++ [' ']] = (frag ++ [' ']) :: []
      rfl
    | cons c r => exact Bool.noConfusion hB
  | rbool b => exact Bool.noConfusion hB
  | rint w n => exact Bool.noConfusion hB
  | ruint w n => exact Bool.noConfusion hB
  | rrec gs =>
    refine ⟨0, ?_⟩
    show frag :: fieldsLines gs fi = (frag ++ spaces 0) :: fieldsLines gs fi
    simp [spaces]
  | rlist et oes =>
    cases oes with
    | none => exact Bool.noConfusion hB
    | some es =>
      cases es with
      | nil => exact Bool.noConfusion hwf
      | cons e es' =>
        refine ⟨0, ?_⟩
        have hE : entryLines frag (.rlist et (some (e :: es'))) fi =
            frag :: sliceLines et (e :: es') (fi + 1) := rfl
        have hB2 : entryBody (.rlist et (some (e :: es'))) fi =
            sliceLines et (e :: es') (fi + 1) := rfl
        rw [hE, hB2]
        simp [spaces]
  | rmap et om =>
    cases om with
    | none => exact Bool.noConfusion hB
    | some m2 =>
      cases m2 with
      | nil => exact Bool.noConfusion hwf
      | cons p m' =>
        refine ⟨0, ?_⟩
        show frag :: mapLines (p :: m') fi =
          (frag ++ spaces 0) :: mapLines (p :: m') fi
        simp [spaces]
  | rptr t op => exact Bool.noConfusion hB

/-- A well-formed value is written either as a one-line entry or as a
key line with a block. -/
theorem wf_not_block (fv : RVal) (hwf : wfVal fv = true)
    (hnb : blockOk fv = false) :
    isNilOrEmpty fv = true ∨
      (scalarTyB (typeOf fv) = true ∧ scalarText fv ≠ []) := by
  cases fv with
  | rstr s =>
    cases s with
    | nil => exact Bool.noConfusion hnb
    | cons c r => exact Or.inr ⟨rfl, fun h => List.noConfusion h⟩
  | rbool b => exact Or.inr ⟨rfl, by cases b <;> decide⟩
  | rint w n => exact Or.inr ⟨rfl, formatInt_ne_nil n⟩
  | ruint w n => exact Or.inr ⟨rfl, natDigits_ne_nil n⟩
  | rrec gs => exact Bool.noConfusion hnb
  | rlist et oes =>
    cases oes with
    | none => exact Or.inl rfl
    | some es => exact Bool.noConfusion hnb
  | rmap et om =>
    cases om with
    | none => exact Or.inl rfl
    | some m2 => exact Bool.noConfusion hnb
  | rptr t op =>
    cases op with
    | none => exact Or.inl rfl
    | some w => exact Bool.noConfusion hwf

theorem fieldHeaderB_anon (x : Str × Str × Bool × RVal)
    (h : fieldHeaderB x = true) : x.2.2.1 = false := by
  obtain ⟨n, t, a, v⟩ := x
  rw [fieldHeaderB] at h
  simp only [Bool.and_eq_true] at h
  have := h.1.1
  rw [Bool.not_eq_true'] at this
  exact this

/-- Every entry rendering begins with a key line of type
`keyValue`/`keyOnly` at the key indent. -/
theorem entry_head_info (key : Str) (fv : RVal) (k1 : Int) (more : List Str)
    (hk1 : 0 ≤ k1) (hkey : plainKeyB key = true) (hwf : wfVal fv = true) :
    ∃ li tail,
      skipToContent
        ((entryLines (indentStr k1 ++ '(' :: key ++ [')']) fv k1) ++ more) =
        .ok (some (li, tail)) ∧
      li.indent = 2 * k1.toNat ∧
      (li.lineType = .keyValue ∨ li.lineType = .keyOnly) := by
  by_cases hB : blockOk fv = true
  · obtain ⟨pad, hE⟩ :=
      entry_keyOnly_case fv (indentStr k1 ++ '(' :: key ++ [')']) k1 hwf hB
    rw [hE, List.cons_append]
    refine ⟨⟨2 * k1.toNat, key, [], .keyOnly⟩, entryBody fv k1 ++ more,
      skipToContent_cons_content _ _ _ ?_, rfl, Or.inr rfl⟩
    exact keyline_keyOnly k1 hk1 key hkey pad
  · rw [Bool.not_eq_true] at hB
    obtain ⟨text, hE, htne, htr, hth, -⟩ :=
      entry_keyValue_case fv (indentStr k1 ++ '(' :: key ++ [')']) k1 hwf
        (wf_not_block fv hwf hB)
    rw [hE, List.cons_append]
    refine ⟨⟨2 * k1.toNat, key, text, .keyValue⟩, [] ++ more,
      skipToContent_cons_content _ _ _ ?_, rfl, Or.inl rfl⟩
    exact keyline_keyValue k1 hk1 key text hkey htne htr hth

/-- A field block keeps the next peek at or below the field indent:
decoding loops watching an outer indent stop in front of it. -/
theorem fieldsLines_closed (fs : List (Str × Str × Bool × RVal)) (k : Int)
    (rest : List Str) (ci : Int) (hk : -1 ≤ k) (hci : 2 * (k + 1) ≤ ci)
    (hall : fs.all fieldHeaderB = true) (hvals : wfFieldVals fs = true)
    (hrest : restClosed ci rest) :
    restClosed ci (fieldsLines fs k ++ rest) := by
  cases fs with
  | nil => exact hrest
  | cons f fs' =>
    obtain ⟨n, t, a, fv⟩ := f
    rw [List.all_cons, Bool.and_eq_true] at hall
    rw [fieldHeaderB] at hall
    simp only [Bool.and_eq_true] at hall
    rw [wfFieldVals, Bool.and_eq_true] at hvals
    obtain ⟨li, tail, hskip, hind, -⟩ := entry_head_info
      (if t = [] then toLowerGo n else t) fv (k + 1)
      (fieldsLines fs' k ++ rest) (by omega) hall.1.2 hvals.1
    have hfl : fieldsLines ((n, t, a, fv) :: fs') k ++ rest =
        entryLines
          (indentStr (k + 1) ++
            '(' :: (if t = [] then toLowerGo n else t) ++ [')']) fv (k + 1) ++
          (fieldsLines fs' k ++ rest) := by
      show (entryLines _ fv (k + 1) ++ fieldsLines fs' k) ++ rest = _
      simp [List.append_assoc]
    rw [hfl]
    refine Or.inr ⟨li, tail, hskip, ?_⟩
    rw [hind]
    omega

/-- A map block likewise stops outer loops. -/
theorem mapLines_closed (et : RTy) (m2 : List (Str × RVal)) (k : Int)
    (rest : List Str) (ci : Int) (hk : -1 ≤ k) (hci : 2 * (k + 1) ≤ ci)
    (hkeys : (m2.map Prod.fst).all plainKeyB = true)
    (hvals : wfEntries et m2 = true)
    (hrest : restClosed ci rest) :
    restClosed ci (mapLines m2 k ++ rest) := by
  cases m2 with
  | nil => exact hrest
  | cons p m' =>
    obtain ⟨mk, mv⟩ := p
    simp only [List.map_cons, List.all_cons, Bool.and_eq_true] at hkeys
    rw [wfEntries] at hvals
    simp only [Bool.and_eq_true] at hvals
    obtain ⟨li, tail, hskip, hind, -⟩ := entry_head_info mk mv (k + 1)
      (mapLines m' k ++ rest) (by omega) hkeys.1 hvals.1.2
    have hml : mapLines ((mk, mv) :: m') k ++ rest =
        entryLines (indentStr (k + 1) ++ '(' :: mk ++ [')']) mv (k + 1) ++
          (mapLines m' k ++ rest) := by
      show (entryLines _ mv (k + 1) ++ mapLines m' k) ++ rest = _
      simp [List.append_assoc]
    rw [hml]
    refine Or.inr ⟨li, tail, hskip, ?_⟩
    rw [hind]
    omega

/-- A record-item block stops outer loops at the item indent. -/
theorem sliceRecLines_closed (es : List RVal) (m : Int) (rest : List Str)
    (ci : Int) (hm : 0 ≤ m) (hci : 2 * m ≤ ci)
    (hrest : restClosed ci rest) :
    restClosed ci (sliceRecLines es m ++ rest) := by
  cases es with
  | nil => exact hrest
  | cons e es' =>
    cases e with
    | rrec gs =>
      have hsl : sliceRecLines (.rrec gs :: es') m ++ rest =
          (indentStr m ++ strL "> (item)") ::
            (fieldsLines gs (m + 1) ++ (sliceRecLines es' m ++ rest)) := by
        show ((indentStr m ++ strL "> (item)") :: fieldsLines gs (m + 1) ++
          sliceRecLines es' m) ++ rest = _
        simp [List.append_assoc]
      rw [hsl]
      refine Or.inr ⟨⟨2 * m.toNat, [], [], .arrayObject⟩, _,
        skipToContent_cons_content _ _ _ (itemline_header m hm), ?_⟩
      show ((2 * m.toNat : Nat) : Int) ≤ ci
      omega
    | rstr s =>
      show restClosed ci (([] ++ sliceRecLines es' m) ++ rest)
      rw [List.nil_append]
      exact sliceRecLines_closed es' m rest ci hm hci hrest
    | rbool b =>
      show restClosed ci (([] ++ sliceRecLines es' m) ++ rest)
      rw [List.nil_append]
      exact sliceRecLines_closed es' m rest ci hm hci hrest
    | rint w n =>
      show restClosed ci (([] ++ sliceRecLines es' m) ++ rest)
      rw [List.nil_append]
      exact sliceRecLines_closed es' m rest ci hm hci hrest
    | ruint w n =>
      show restClosed ci (([] ++ sliceRecLines es' m) ++ rest)
      rw [List.nil_append]
      exact sliceRecLines_closed es' m rest ci hm hci hrest
    | rlist t l =>
      show restClosed ci (([] ++ sliceRecLines es' m) ++ rest)
      rw [List.nil_append]
      exact sliceRecLines_closed es' m rest ci hm hci hrest
    | rmap t mm =>
      show restClosed ci (([] ++ sliceRecLines es' m) ++ rest)
      rw [List.nil_append]
      exact sliceRecLines_closed es' m rest ci hm hci hrest
    | rptr t p =>
      show restClosed ci (([] ++ sliceRecLines es' m) ++ rest)
      rw [List.nil_append]
      exact sliceRecLines_closed es' m rest ci hm hci hrest

/-- A scalar-item block stops outer loops at the item indent. -/
theorem slicePrimLines_closed (et : RTy) (es : List RVal) (m : Int)
    (rest : List Str) (ci : Int) (hm : 0 ≤ m) (hci : 2 * m ≤ ci)
    (hsc : scalarTyB et = true) (hwf : wfElems et es = true)
    (hrest : restClosed ci rest) :
    restClosed ci (slicePrimLines es (indentStr m) ++ rest) := by
  cases es with
  | nil => exact hrest
  | cons e es' =>
    rw [wfElems] at hwf
    simp only [Bool.and_eq_true] at hwf
    have htyeq : typeOf e = et := tyBeq_sound _ _ hwf.1.1
    have hsce : scalarTyB (typeOf e) = true := by rw [htyeq]; exact hsc
    have hws : wfScalarB e = true := by
      rw [← (scalar_of_typeOf e hsce).1]; exact hwf.1.2
    obtain ⟨-, -, htr, -, hpar⟩ := plainStr_props _ (scalarText_plain e hws)
    obtain ⟨-, hnh, -, -, -⟩ := plainStr_props _ (scalarText_plain e hws)
    have hsp : slicePrimLines (e :: es') (indentStr m) ++ rest =
        (indentStr m ++ strL "> " ++ scalarText e) ::
          (slicePrimLines es' (indentStr m) ++ rest) := rfl
    rw [hsp]
    refine Or.inr ⟨⟨2 * m.toNat, [], scalarText e, .arrayItem⟩, _,
      skipToContent_cons_content _ _ _
        (itemline_prim m hm (scalarText e) htr hnh hpar), ?_⟩
    show ((2 * m.toNat : Nat) : Int) ≤ ci
    omega

theorem structLoop_stop (f0 : Nat) (state : List (Str × Str × Bool × RVal))
    (ci : Int) (lines : List Str) (h : restClosed ci lines) :
    decodeObjStructLoop (f0 + 1) state ci lines = .ok (state, lines) := by
  simp only [decodeObjStructLoop]
  rcases h with h1 | ⟨li, r, h2, h3⟩
  · rw [h1]
  · rw [h2]
    dsimp only
    rw [if_pos h3]

theorem mapLoop_stop (f0 : Nat) (et : RTy) (acc : List (Str × RVal))
    (ci : Int) (lines : List Str) (h : restClosed ci lines) :
    decodeObjMapLoop (f0 + 1) et acc ci lines = .ok (acc, lines) := by
  simp only [decodeObjMapLoop]
  rcases h with h1 | ⟨li, r, h2, h3⟩
  · rw [h1]
  · rw [h2]
    dsimp only
    rw [if_pos h3]

theorem sliceLoop_stop (f0 : Nat) (et : RTy) (acc : List RVal)
    (ci : Int) (lines : List Str) (h : restClosed ci lines) :
    decodeSliceLoop (f0 + 1) et acc ci lines = .ok (acc, lines) := by
  simp only [decodeSliceLoop]
  rcases h with h1 | ⟨li, r, h2, h3⟩
  · rw [h1]
  · rw [h2]
    dsimp only
    rw [if_pos h3]

theorem decodeValue_stop (f0 : Nat) (v : RVal) (ci : Int) (lines : List Str)
    (h : restClosed ci lines) :
    decodeValue (f0 + 1) v ci lines = .ok (v, lines) := by
  simp only [decodeValue]
  rcases h with h1 | ⟨li, r, h2, h3⟩
  · rw [h1]
  · rw [h2]
    dsimp only
    rw [if_pos h3]

/-- The first line of a nonempty field block is a key line at the field
indent. -/
theorem fieldsLines_head_info (n t : Str) (a : Bool) (gv : RVal)
    (gs' : List (Str × Str × Bool × RVal)) (k : Int) (rest : List Str)
    (hk : -1 ≤ k)
    (hkeyp : plainKeyB (if t = [] then toLowerGo n else t) = true)
    (hwf : wfVal gv = true) :
    ∃ li tail,
      skipToContent (fieldsLines ((n, t, a, gv) :: gs') k ++ rest) =
        .ok (some (li, tail)) ∧
      li.indent = 2 * (k + 1).toNat ∧
      (li.lineType = .keyValue ∨ li.lineType = .keyOnly) := by
  obtain ⟨li, tail, hskip, h2, h3⟩ := entry_head_info
    (if t = [] then toLowerGo n else t) gv (k + 1)
    (fieldsLines gs' k ++ rest) (by omega) hkeyp hwf
  refine ⟨li, tail, ?_, h2, h3⟩
  rw [show fieldsLines ((n, t, a, gv) :: gs') k ++ rest =
      entryLines
        (indentStr (k + 1) ++
          '(' :: (if t = [] then toLowerGo n else t) ++ [')']) gv (k + 1) ++
        (fieldsLines gs' k ++ rest) by
    show (entryLines _ gv (k + 1) ++ fieldsLines gs' k) ++ rest = _
    simp [List.append_assoc]]
  exact hskip

/-- The first line of a nonempty map block is a key line at the entry
indent. -/
theorem mapLines_head_info (mk : Str) (mv : RVal)
    (m' : List (Str × RVal)) (k : Int) (rest : List Str) (hk : -1 ≤ k)
    (hkeyp : plainKeyB mk = true) (hwf : wfVal mv = true) :
    ∃ li tail,
      skipToContent (mapLines ((mk, mv) :: m') k ++ rest) =
        .ok (some (li, tail)) ∧
      li.indent = 2 * (k + 1).toNat ∧
      (li.lineType = .keyValue ∨ li.lineType = .keyOnly) := by
  obtain ⟨li, tail, hskip, h2, h3⟩ := entry_head_info mk mv (k + 1)
    (mapLines m' k ++ rest) (by omega) hkeyp hwf
  refine ⟨li, tail, ?_, h2, h3⟩
  rw [show mapLines ((mk, mv) :: m') k ++ rest =
      entryLines (indentStr (k + 1) ++ '(' :: mk ++ [')']) mv (k + 1) ++
        (mapLines m' k ++ rest) by
    show (entryLines _ mv (k + 1) ++ mapLines m' k) ++ rest = _
    simp [List.append_assoc]]
  exact hskip

/-- The first lines of a nonempty record-item block. -/
theorem sliceRecLines_head_info (gs : List (Str × Str × Bool × RVal))
    (es' : List RVal) (m : Int) (rest : List Str) (hm : 0 ≤ m) :
    skipToContent (sliceRecLines (.rrec gs :: es') m ++ rest) =
      .ok (some (⟨2 * m.toNat, [], [], .arrayObject⟩,
        fieldsLines gs (m + 1) ++ (sliceRecLines es' m ++ rest))) := by
  rw [show sliceRecLines (.rrec gs :: es') m ++ rest =
      (indentStr m ++ strL "> (item)") ::
        (fieldsLines gs (m + 1) ++ (sliceRecLines es' m ++ rest)) by
    show ((indentStr m ++ strL "> (item)") :: fieldsLines gs (m + 1) ++
      sliceRecLines es' m) ++ rest = _
    simp [List.append_assoc]]
  exact skipToContent_cons_content _ _ _ (itemline_header m hm)

/-- The first line of a nonempty scalar-item block. -/
theorem slicePrimLines_head_info (e : RVal) (es' : List RVal) (m : Int)
    (rest : List Str) (hm : 0 ≤ m) (htr : trimS (scalarText e) = scalarText e)
    (hth : '#' ∉ scalarText e) (hpar : ¬ ['('].isPrefixOf (scalarText e)) :
    skipToContent (slicePrimLines (e :: es') (indentStr m) ++ rest) =
      .ok (some (⟨2 * m.toNat, [], scalarText e, .arrayItem⟩,
        slicePrimLines es' (indentStr m) ++ rest)) := by
  rw [show slicePrimLines (e :: es') (indentStr m) ++ rest =
      (indentStr m ++ strL "> " ++ scalarText e) ::
        (slicePrimLines es' (indentStr m) ++ rest) from rfl]
  exact skipToContent_cons_content _ _ _ (itemline_prim m hm _ htr hth hpar)

/-- The heart of C1's decoder half: on the line lists the encoder
mirror produces for well-formed values, every decoding loop rebuilds the
original value exactly and stops at the first line of the outer context.
Proved for the whole mutual decoder at once by strong induction on
fuel. -/
theorem decode_wf_pack : ∀ (f : Nat),
    (∀ (fs pre : List (Str × Str × Bool × RVal)) (k ci : Int)
      (rest : List Str),
      headersOKB (pre ++ fs) = true → wfFieldVals fs = true →
      -1 ≤ k → ci < 2 * (k + 1) → restClosed ci rest → costFields fs ≤ f →
      decodeObjStructLoop f (pre ++ zeroFields (typeOfFields fs)) ci
        (fieldsLines fs k ++ rest) = .ok (pre ++ fs, rest)) ∧
    (∀ (v : RVal) (fi ci : Int) (rest : List Str),
      wfVal v = true → blockOk v = true → 0 ≤ fi → ci < 2 * (fi + 1) →
      restClosed ci rest → costV v ≤ f →
      decodeValue f (zeroVal (typeOf v)) ci (entryBody v fi ++ rest) =
        .ok (v, rest)) ∧
    (∀ (tfs : List (Str × Str × Bool × RTy)) (es acc : List RVal)
      (m ci : Int) (rest : List Str),
      wfElems (.trec tfs) es = true → 0 < m → ci < 2 * m →
      restClosed ci rest → costElems es ≤ f →
      decodeSliceLoop f (.trec tfs) acc ci (sliceRecLines es m ++ rest) =
        .ok (acc ++ es, rest)) ∧
    (∀ (et : RTy) (es acc : List RVal) (m ci : Int) (rest : List Str),
      scalarTyB et = true → wfElems et es = true → 0 < m → ci < 2 * m →
      restClosed ci rest → costElems es ≤ f →
      decodeSliceLoop f et acc ci
        (slicePrimLines es (indentStr m) ++ rest) = .ok (acc ++ es, rest)) ∧
    (∀ (et : RTy) (m2 acc : List (Str × RVal)) (k ci : Int)
      (rest : List Str),
      scalarTyB et = true → (m2.map Prod.fst).all plainKeyB = true →
      wfEntries et m2 = true →
      ((acc.map Prod.fst) ++ (m2.map Prod.fst)).Nodup →
      -1 ≤ k → ci < 2 * (k + 1) → restClosed ci rest → costEntries m2 ≤ f →
      decodeObjMapLoop f et acc ci (mapLines m2 k ++ rest) =
        .ok (acc ++ m2, rest)) := by
  intro f
  induction f using Nat.strong_induction_on with
  | _ f ih =>
    refine ⟨?_, ?_, ?_, ?_, ?_⟩
    -- the struct loop
    · intro fs pre k ci rest hhead hvals hk hci hrest hcost
      cases f with
      | zero => have := costFields_pos fs; omega
      | succ f0 =>
      cases fs with
      | nil =>
        rw [show zeroFields (typeOfFields ([] : List (Str × Str × Bool × RVal)))
            = [] from rfl,
          show fieldsLines [] k = ([] : List Str) from rfl,
          List.append_nil, List.nil_append,
          structLoop_stop f0 pre ci rest hrest]
      | cons fld fs' =>
        obtain ⟨n, t, a, fv⟩ := fld
        obtain ⟨hallH, hnodup⟩ := headersOKB_split _ hhead
        have hmemhead : fieldHeaderB (n, t, a, fv) = true :=
          List.all_eq_true.1 hallH (n, t, a, fv) (by simp)
        have hanon : a = false := fieldHeaderB_anon _ hmemhead
        subst hanon
        have hkeyp : plainKeyB (if t = [] then toLowerGo n else t) = true := by
          rw [fieldHeaderB] at hmemhead
          simp only [Bool.and_eq_true] at hmemhead
          exact hmemhead.2
        rw [wfFieldVals, Bool.and_eq_true] at hvals
        obtain ⟨hfv, hvals'⟩ := hvals
        have hallfs' : fs'.all fieldHeaderB = true := by
          rw [List.all_append, List.all_cons] at hallH
          simp only [Bool.and_eq_true] at hallH
          exact hallH.2.2
        have hget : (pre ++ (n, t, false, zeroVal (typeOf fv)) ::
            zeroFields (typeOfFields fs'))[pre.length]? =
            some (n, t, false, zeroVal (typeOf fv)) := get?_append_len _ _ _
        have hanonall : ∀ x ∈ pre ++ (n, t, false, zeroVal (typeOf fv)) ::
            zeroFields (typeOfFields fs'), x.2.2.1 = false := by
          intro x hx
          rcases List.mem_append.1 hx with hx1 | hx2
          · exact fieldHeaderB_anon x
              (List.all_eq_true.1 hallH x (List.mem_append.2 (Or.inl hx1)))
          · rcases List.mem_cons.1 hx2 with he | hx3
            · rw [he]
            · rw [zeroFields_typeOfFields] at hx3
              obtain ⟨y, hy, rfl⟩ := List.mem_map.1 hx3
              exact fieldHeaderB_anon y (List.all_eq_true.1 hallH y
                (List.mem_append.2 (Or.inr (List.mem_cons_of_mem _ hy))))
        have htakekeys : ∀ x ∈ (pre ++ (n, t, false, zeroVal (typeOf fv)) ::
            zeroFields (typeOfFields fs')).take pre.length,
            keyOfF x ≠ (if t = [] then toLowerGo n else t) := by
          intro x hx hkeq
          rw [List.take_left] at hx
          have hnodup2 := hnodup
          rw [List.map_append] at hnodup2
          have hdisj := (List.nodup_append.1 hnodup2).2.2
          exact hdisj (List.mem_map_of_mem _ hx)
            (by
              rw [List.map_cons]
              exact List.mem_cons.2 (Or.inl (hkeq.trans rfl)))
        have hfind : findStructField (pre ++ (n, t, false, zeroVal (typeOf fv))
            :: zeroFields (typeOfFields fs'))
            (if t = [] then toLowerGo n else t) = some [pre.length] := by
          rw [findStructField]
          exact findStructFieldAux_keys _ _ pre.length _ hget rfl
            (plainKey_props _ hkeyp).1 hanonall htakekeys
        have hind : ¬ (((2 * (k + 1).toNat : Nat) : Int) ≤ ci) := by omega
        have hstate : zeroFields (typeOfFields ((n, t, false, fv) :: fs')) =
            (n, t, false, zeroVal (typeOf fv)) ::
              zeroFields (typeOfFields fs') := rfl
        have hcosteq : costFields ((n, t, false, fv) :: fs') =
            1 + costV fv + costFields fs' := rfl
        have hhead2 :
            headersOKB ((pre ++ [(n, t, false, fv)]) ++ fs') = true := by
          rw [show (pre ++ [(n, t, false, fv)]) ++ fs' =
            pre ++ (n, t, false, fv) :: fs' by simp]
          exact hhead
        by_cases hB : blockOk fv = true
        · -- key line with block
          obtain ⟨pad, hE⟩ := entry_keyOnly_case fv
            (indentStr (k + 1) ++
              '(' :: (if t = [] then toLowerGo n else t) ++ [')'])
            (k + 1) hfv hB
          have hlines : fieldsLines ((n, t, false, fv) :: fs') k ++ rest =
              ((indentStr (k + 1) ++
                '(' :: (if t = [] then toLowerGo n else t) ++ [')']) ++
                  spaces pad) ::
                (entryBody fv (k + 1) ++ (fieldsLines fs' k ++ rest)) := by
            show (entryLines _ fv (k + 1) ++ fieldsLines fs' k) ++ rest = _
            rw [hE]
            simp [List.append_assoc]
          have hclass := keyline_keyOnly (k + 1) (by omega)
            (if t = [] then toLowerGo n else t) hkeyp pad
          have hclosed2 : restClosed ((2 * (k + 1).toNat : Nat) : Int)
              (fieldsLines fs' k ++ rest) :=
            fieldsLines_closed fs' k rest _ hk (by omega) hallfs' hvals'
              (restClosed_mono ci _ rest (by omega) hrest)
          have hP2 := (ih f0 (by omega)).2.1 fv (k + 1)
            ((2 * (k + 1).toNat : Nat) : Int) (fieldsLines fs' k ++ rest)
            hfv hB (by omega) (by omega) hclosed2 (by omega)
          have hP1 := (ih f0 (by omega)).1 fs' (pre ++ [(n, t, false, fv)])
            k ci rest hhead2 hvals' hk hci hrest (by omega)
          simp only [decodeObjStructLoop]
          rw [hstate, hlines, skipToContent_cons_content _ _ _ hclass]
          dsimp only
          rw [if_neg hind, if_neg (by simp), hfind]
          dsimp only
          rw [getFieldPath_single _ _ _ _ _ _ hget]
          dsimp only
          rw [if_neg (by simp), hP2]
          dsimp only
          rw [setFieldPath_single _ _ _ _ _ _ _ hget]
          dsimp only
          rw [set_append_len,
            show pre ++ (n, t, false, fv) :: zeroFields (typeOfFields fs') =
              (pre ++ [(n, t, false, fv)]) ++ zeroFields (typeOfFields fs')
              by simp,
            hP1]
          simp
        · -- one-line entry
          rw [Bool.not_eq_true] at hB
          obtain ⟨text, hE, htne, htr, hth, hset⟩ := entry_keyValue_case fv
            (indentStr (k + 1) ++
              '(' :: (if t = [] then toLowerGo n else t) ++ [')'])
            (k + 1) hfv (wf_not_block fv hfv hB)
          have hlines : fieldsLines ((n, t, false, fv) :: fs') k ++ rest =
              ((indentStr (k + 1) ++
                '(' :: (if t = [] then toLowerGo n else t) ++ [')']) ++
                  ' ' :: text) ::
                (fieldsLines fs' k ++ rest) := by
            show (entryLines _ fv (k + 1) ++ fieldsLines fs' k) ++ rest = _
            rw [hE]
            simp [List.append_assoc]
          have hclass := keyline_keyValue (k + 1) (by omega)
            (if t = [] then toLowerGo n else t) text hkeyp htne htr hth
          have hP1 := (ih f0 (by omega)).1 fs' (pre ++ [(n, t, false, fv)])
            k ci rest hhead2 hvals' hk hci hrest (by omega)
          simp only [decodeObjStructLoop]
          rw [hstate, hlines, skipToContent_cons_content _ _ _ hclass]
          dsimp only
          rw [if_neg hind, if_neg (by simp), hfind]
          dsimp only
          rw [getFieldPath_single _ _ _ _ _ _ hget]
          dsimp only
          rw [if_pos rfl, hset]
          dsimp only
          rw [setFieldPath_single _ _ _ _ _ _ _ hget]
          dsimp only
          rw [set_append_len,
            show pre ++ (n, t, false, fv) :: zeroFields (typeOfFields fs') =
              (pre ++ [(n, t, false, fv)]) ++ zeroFields (typeOfFields fs')
              by simp,
            hP1]
          simp
    -- decodeValue on a block-style entry body
    · intro v fi ci rest hwf hB hfi hci hrest hcost
      cases f with
      | zero => have := costV_pos v; omega
      | succ f0 =>
      cases v with
      | rbool b => exact Bool.noConfusion hB
      | rint w n => exact Bool.noConfusion hB
      | ruint w n => exact Bool.noConfusion hB
      | rptr t op => exact Bool.noConfusion hB
      | rstr s =>
        cases s with
        | cons c r => exact Bool.noConfusion hB
        | nil =>
          rw [show entryBody (.rstr []) fi = ([] : List Str) from rfl,
            List.nil_append]
          exact decodeValue_stop f0 _ ci rest hrest
      | rrec gs =>
        have hwfeq : wfVal (.rrec gs) = (headersOKB gs && wfFieldVals gs) := rfl
        rw [hwfeq, Bool.and_eq_true] at hwf
        cases gs with
        | nil =>
          rw [show entryBody (.rrec []) fi = ([] : List Str) from rfl,
            List.nil_append]
          exact decodeValue_stop f0 _ ci rest hrest
        | cons g gs' =>
          obtain ⟨n, t, a, gv⟩ := g
          have hcv : costV (.rrec ((n, t, a, gv) :: gs')) =
              2 + costFields ((n, t, a, gv) :: gs') := rfl
          have hcf := costFields_pos ((n, t, a, gv) :: gs')
          cases f0 with
          | zero => omega
          | succ f1 =>
          have hmemhead : fieldHeaderB (n, t, a, gv) = true :=
            List.all_eq_true.1 (headersOKB_split _ hwf.1).1 (n, t, a, gv)
              (by simp)
          have hkeyp : plainKeyB (if t = [] then toLowerGo n else t) = true := by
            rw [fieldHeaderB] at hmemhead
            simp only [Bool.and_eq_true] at hmemhead
            exact hmemhead.2
          have hwfg : wfVal gv = true := by
            have := hwf.2
            rw [wfFieldVals, Bool.and_eq_true] at this
            exact this.1
          obtain ⟨li, tail, hskip, h2, h3⟩ := fieldsLines_head_info n t a gv
            gs' fi rest (by omega) hkeyp hwfg
          have hbody : entryBody (.rrec ((n, t, a, gv) :: gs')) fi =
              fieldsLines ((n, t, a, gv) :: gs') fi := rfl
          have hP1 := (ih f1 (by omega)).1 ((n, t, a, gv) :: gs') []
            fi ci rest (by simpa using hwf.1) hwf.2 (by omega) hci hrest
            (by omega)
          simp only [List.nil_append] at hP1
          have hfin : decodeObject (f1 + 1)
              (zeroVal (typeOf (RVal.rrec ((n, t, a, gv) :: gs')))) ci
              (fieldsLines ((n, t, a, gv) :: gs') fi ++ rest) =
              .ok (.rrec ((n, t, a, gv) :: gs'), rest) := by
            simp only [decodeObject]
            rw [show indirectForce
                (zeroVal (typeOf (RVal.rrec ((n, t, a, gv) :: gs')))) =
                RVal.rrec (zeroFields (typeOfFields ((n, t, a, gv) :: gs')))
                from rfl]
            dsimp only
            rw [hP1]
            rfl
          rw [hbody]
          simp only [decodeValue]
          rw [hskip]
          dsimp only
          rw [h2]
          rw [if_neg (by omega : ¬ (((2 * (fi + 1).toNat : Nat) : Int) ≤ ci))]
          rcases h3 with hkv | hko
          · rw [hkv]
            dsimp only
            rw [hfin]
          · rw [hko]
            dsimp only
            rw [hfin]
      | rlist et oes =>
        cases oes with
        | none => exact Bool.noConfusion hB
        | some es =>
          have hwfeq : wfVal (.rlist et (some es)) =
              (!es.isEmpty && (scalarTyB et || isRecTy et) &&
                wfElems et es) := rfl
          rw [hwfeq] at hwf
          simp only [Bool.and_eq_true] at hwf
          obtain ⟨⟨hne, hguard⟩, helems⟩ := hwf
          cases es with
          | nil => simp at hne
          | cons e es' =>
            have hcv : costV (.rlist et (some (e :: es'))) =
                2 + costElems (e :: es') := rfl
            have hce := costElems_pos (e :: es')
            cases f0 with
            | zero => omega
            | succ f1 =>
            rw [Bool.or_eq_true] at hguard
            by_cases hrec : isRecTy et = true
            · obtain ⟨tfs, rfl⟩ : ∃ tfs, et = .trec tfs := by
                cases et <;> first
                  | exact ⟨_, rfl⟩
                  | exact Bool.noConfusion hrec
              have hbody : entryBody (.rlist (.trec tfs) (some (e :: es'))) fi
                  = sliceRecLines (e :: es') (fi + 1) := rfl
              obtain ⟨gs, rfl, htfs⟩ := rec_of_typeOf e tfs
                (tyBeq_sound _ _ (by
                  rw [wfElems] at helems
                  simp only [Bool.and_eq_true] at helems
                  exact helems.1.1))
              have hP3 := (ih f1 (by omega)).2.2.1 tfs
                (.rrec gs :: es') [] (fi + 1) ci rest helems (by omega)
                (by omega) hrest (by omega)
              simp only [List.nil_append] at hP3
              rw [hbody]
              simp only [decodeValue]
              rw [sliceRecLines_head_info gs es' (fi + 1) rest (by omega)]
              dsimp only
              rw [if_neg (by omega :
                ¬ (((2 * (fi + 1).toNat : Nat) : Int) ≤ ci))]
              simp only [decodeSlice]
              rw [show indirectNoAlloc
                  (zeroVal (typeOf (RVal.rlist (.trec tfs)
                    (some (RVal.rrec gs :: es'))))) =
                  RVal.rlist (.trec tfs) none from rfl]
              dsimp only
              rw [hP3]
              rfl
            · have hsc : scalarTyB et = true := by
                rcases hguard with hx | hx
                · exact hx
                · exact absurd hx hrec
              have hbody : entryBody (.rlist et (some (e :: es'))) fi =
                  slicePrimLines (e :: es') (indentStr (fi + 1)) := by
                cases et with
                | tstr => rfl
                | tbool => rfl
                | tint w => rfl
                | tuint w => rfl
                | trec fs => exact Bool.noConfusion hsc
                | tlist u => exact Bool.noConfusion hsc
                | tmap u => exact Bool.noConfusion hsc
                | tptr u => exact Bool.noConfusion hsc
              have htyeq : typeOf e = et := by
                rw [wfElems] at helems
                simp only [Bool.and_eq_true] at helems
                exact tyBeq_sound _ _ helems.1.1
              have hws : wfScalarB e = true := by
                rw [wfElems] at helems
                simp only [Bool.and_eq_true] at helems
                rw [← (scalar_of_typeOf e (by rw [htyeq]; exact hsc)).1]
                exact helems.1.2
              obtain ⟨-, hnh, htr, -, hpar⟩ :=
                plainStr_props _ (scalarText_plain e hws)
              have hP3 := (ih f1 (by omega)).2.2.2.1 et (e :: es') []
                (fi + 1) ci rest hsc helems (by omega) (by omega) hrest
                (by omega)
              simp only [List.nil_append] at hP3
              rw [hbody]
              simp only [decodeValue]
              rw [slicePrimLines_head_info e es' (fi + 1) rest (by omega)
                htr hnh hpar]
              dsimp only
              rw [if_neg (by omega :
                ¬ (((2 * (fi + 1).toNat : Nat) : Int) ≤ ci))]
              simp only [decodeSlice]
              rw [show indirectNoAlloc
                  (zeroVal (typeOf (RVal.rlist et (some (e :: es'))))) =
                  RVal.rlist et none from rfl]
              dsimp only
              rw [hP3]
              rfl
      | rmap et om =>
        cases om with
        | none => exact Bool.noConfusion hB
        | some m2 =>
          have hwfeq : wfVal (.rmap et (some m2)) =
              (!m2.isEmpty && scalarTyB et &&
                (m2.map Prod.fst).all plainKeyB &&
                nodupB (m2.map Prod.fst) && wfEntries et m2) := rfl
          rw [hwfeq] at hwf
          simp only [Bool.and_eq_true] at hwf
          obtain ⟨⟨⟨⟨hne, hsc⟩, hkeys⟩, hnd⟩, hentries⟩ := hwf
          cases m2 with
          | nil => simp at hne
          | cons p m' =>
            obtain ⟨mk, mv⟩ := p
            have hcv : costV (.rmap et (some ((mk, mv) :: m'))) =
                2 + costEntries ((mk, mv) :: m') := rfl
            have hce := costEntries_pos ((mk, mv) :: m')
            cases f0 with
            | zero => omega
            | succ f1 =>
            have hkeyp : plainKeyB mk = true := by
              simp only [List.map_cons, List.all_cons, Bool.and_eq_true]
                at hkeys
              exact hkeys.1
            have hwfmv : wfVal mv = true := by
              rw [wfEntries] at hentries
              simp only [Bool.and_eq_true] at hentries
              exact hentries.1.2
            obtain ⟨li, tail, hskip, h2, h3⟩ := mapLines_head_info mk mv m'
              fi rest (by omega) hkeyp hwfmv
            have hbody : entryBody (.rmap et (some ((mk, mv) :: m'))) fi =
                mapLines ((mk, mv) :: m') fi := rfl
            have hP4 := (ih f1 (by omega)).2.2.2.2 et ((mk, mv) :: m')
              [] fi ci rest hsc hkeys hentries
              (by
                simp only [List.map_nil, List.nil_append]
                exact (nodupB_iff _).1 hnd)
              (by omega) hci hrest (by omega)
            simp only [List.nil_append] at hP4
            have hfin : decodeObject (f1 + 1)
                (zeroVal (typeOf (RVal.rmap et (some ((mk, mv) :: m'))))) ci
                (mapLines ((mk, mv) :: m') fi ++ rest) =
                .ok (.rmap et (some ((mk, mv) :: m')), rest) := by
              simp only [decodeObject]
              rw [show indirectForce
                  (zeroVal (typeOf (RVal.rmap et (some ((mk, mv) :: m'))))) =
                  RVal.rmap et none from rfl]
              dsimp only
              rw [show (none : Option (List (Str × RVal))).getD [] =
                ([] : List (Str × RVal)) from rfl]
              rw [hP4]
              rfl
            rw [hbody]
            simp only [decodeValue]
            rw [hskip]
            dsimp only
            rw [h2]
            rw [if_neg (by omega :
              ¬ (((2 * (fi + 1).toNat : Nat) : Int) ≤ ci))]
            rcases h3 with hkv | hko
            · rw [hkv]
              dsimp only
              rw [hfin]
            · rw [hko]
              dsimp only
              rw [hfin]
    -- the record-item loop
    · intro tfs es acc m ci rest hwf hm hci hrest hcost
      cases f with
      | zero => have := costElems_pos es; omega
      | succ f0 =>
      cases es with
      | nil =>
        rw [show sliceRecLines [] m = ([] : List Str) from rfl,
          List.nil_append, sliceLoop_stop f0 _ acc ci rest hrest]
        simp
      | cons e es' =>
        rw [wfElems] at hwf
        simp only [Bool.and_eq_true] at hwf
        obtain ⟨⟨hty, hv⟩, htl⟩ := hwf
        obtain ⟨gs, rfl, htfs⟩ := rec_of_typeOf e tfs (tyBeq_sound _ _ hty)
        have hcosteq : costElems (RVal.rrec gs :: es') =
            1 + costV (.rrec gs) + costElems es' := rfl
        have hclosed2 : restClosed ((2 * m.toNat : Nat) : Int)
            (sliceRecLines es' m ++ rest) :=
          sliceRecLines_closed es' m rest _ (by omega) (by omega)
            (restClosed_mono ci _ rest (by omega) hrest)
        have hP2 := (ih f0 (by omega)).2.1 (.rrec gs) (m + 1)
          ((2 * m.toNat : Nat) : Int) (sliceRecLines es' m ++ rest) hv rfl
          (by omega) (by omega) hclosed2 (by omega)
        have hP3 := (ih f0 (by omega)).2.2.1 tfs es' (acc ++ [RVal.rrec gs])
          m ci rest htl hm hci hrest (by omega)
        simp only [decodeSliceLoop]
        rw [sliceRecLines_head_info gs es' m rest (by omega)]
        dsimp only
        rw [if_neg (by omega : ¬ (((2 * m.toNat : Nat) : Int) ≤ ci))]
        rw [if_pos rfl]
        have hzero : zeroVal (typeOf (RVal.rrec gs)) = zeroVal (.trec tfs) := by
          rw [show typeOf (RVal.rrec gs) = .trec (typeOfFields gs) from rfl,
            htfs]
        rw [← hzero]
        rw [show entryBody (.rrec gs) (m + 1) = fieldsLines gs (m + 1) from
          rfl] at hP2
        rw [hP2]
        dsimp only
        rw [hP3]
        simp
    -- the scalar-item loop
    · intro et es acc m ci rest hsc hwf hm hci hrest hcost
      cases f with
      | zero => have := costElems_pos es; omega
      | succ f0 =>
      cases es with
      | nil =>
        rw [show slicePrimLines [] (indentStr m) = ([] : List Str) from rfl,
          List.nil_append, sliceLoop_stop f0 _ acc ci rest hrest]
        simp
      | cons e es' =>
        rw [wfElems] at hwf
        simp only [Bool.and_eq_true] at hwf
        obtain ⟨⟨hty, hv⟩, htl⟩ := hwf
        have htyeq : typeOf e = et := tyBeq_sound _ _ hty
        have hws : wfScalarB e = true := by
          rw [← (scalar_of_typeOf e (by rw [htyeq]; exact hsc)).1]
          exact hv
        obtain ⟨-, hnh, htr, -, hpar⟩ :=
          plainStr_props _ (scalarText_plain e hws)
        have hcosteq : costElems (e :: es') =
            1 + costV e + costElems es' := rfl
        have hset : setPrimitive (zeroVal et) (scalarText e) = .ok e := by
          rw [← htyeq]
          exact setPrim_scalar e hws
        have hP3 := (ih f0 (by omega)).2.2.2.1 et es' (acc ++ [e]) m ci rest
          hsc htl hm hci hrest (by omega)
        simp only [decodeSliceLoop]
        rw [slicePrimLines_head_info e es' m rest (by omega) htr hnh hpar]
        dsimp only
        rw [if_neg (by omega : ¬ (((2 * m.toNat : Nat) : Int) ≤ ci))]
        rw [if_neg (by decide), if_pos rfl, hset]
        dsimp only
        rw [hP3]
        simp
    -- the map loop
    · intro et m2 acc k ci rest hsc hkeys hentries hnodup hk hci hrest hcost
      cases f with
      | zero => have := costEntries_pos m2; omega
      | succ f0 =>
      cases m2 with
      | nil =>
        rw [show mapLines [] k = ([] : List Str) from rfl,
          List.nil_append, mapLoop_stop f0 et acc ci rest hrest]
        simp
      | cons p m' =>
        obtain ⟨mk, mv⟩ := p
        simp only [List.map_cons, List.all_cons, Bool.and_eq_true] at hkeys
        obtain ⟨hkeyp, hkeys'⟩ := hkeys
        rw [wfEntries] at hentries
        simp only [Bool.and_eq_true] at hentries
        obtain ⟨⟨hty, hv⟩, htl⟩ := hentries
        have htyeq : typeOf mv = et := tyBeq_sound _ _ hty
        have hcosteq : costEntries ((mk, mv) :: m') =
            1 + costV mv + costEntries m' := rfl
        have hfresh : ∀ q ∈ acc, q.1 ≠ mk := by
          intro q hq he
          rw [List.map_cons] at hnodup
          exact (List.nodup_append.1 hnodup).2.2
            (List.mem_map_of_mem _ hq)
            (by rw [he]; exact List.mem_cons_self _ _)
        have hins : mapSet acc mk mv = acc ++ [(mk, mv)] :=
          mapSet_append_fresh acc mk mv hfresh
        have hnodup2 : (((acc ++ [(mk, mv)]).map Prod.fst) ++
            (m'.map Prod.fst)).Nodup := by
          rw [show ((acc ++ [(mk, mv)]).map Prod.fst) ++ (m'.map Prod.fst) =
            (acc.map Prod.fst) ++ (((mk, mv) :: m').map Prod.fst) by simp]
          exact hnodup
        have hind2 : ¬ (((2 * (k + 1).toNat : Nat) : Int) ≤ ci) := by omega
        have hP4 := (ih f0 (by omega)).2.2.2.2 et m' (acc ++ [(mk, mv)]) k
          ci rest hsc hkeys' htl hnodup2 hk hci hrest (by omega)
        by_cases hB : blockOk mv = true
        · -- the empty-string entry
          have hmveq : mv = .rstr [] := by
            cases mv with
            | rstr s =>
              cases s with
              | nil => rfl
              | cons c r => exact Bool.noConfusion hB
            | rbool b => exact Bool.noConfusion hB
            | rint w n => exact Bool.noConfusion hB
            | ruint w n => exact Bool.noConfusion hB
            | rrec fs => rw [← htyeq] at hsc; exact Bool.noConfusion hsc
            | rlist t l => rw [← htyeq] at hsc; exact Bool.noConfusion hsc
            | rmap t mm => rw [← htyeq] at hsc; exact Bool.noConfusion hsc
            | rptr t op => rw [← htyeq] at hsc; exact Bool.noConfusion hsc
          subst hmveq
          have hetstr : RTy.tstr = et := htyeq
          subst hetstr
          obtain ⟨pad, hE⟩ := entry_keyOnly_case (.rstr [])
            (indentStr (k + 1) ++ '(' :: mk ++ [')']) (k + 1) hv hB
          have hlines : mapLines ((mk, RVal.rstr []) :: m') k ++ rest =
              ((indentStr (k + 1) ++ '(' :: mk ++ [')']) ++ spaces pad) ::
                (entryBody (.rstr []) (k + 1) ++ (mapLines m' k ++ rest)) := by
            show (entryLines _ (.rstr []) (k + 1) ++ mapLines m' k) ++ rest = _
            rw [hE]
            simp [List.append_assoc]
          have hclass := keyline_keyOnly (k + 1) (by omega) mk hkeyp pad
          have hclosed2 : restClosed ((2 * (k + 1).toNat : Nat) : Int)
              (mapLines m' k ++ rest) :=
            mapLines_closed .tstr m' k rest _ hk (by omega) hkeys' htl
              (restClosed_mono ci _ rest (by omega) hrest)
          have hP2 := (ih f0 (by omega)).2.1 (.rstr []) (k + 1)
            ((2 * (k + 1).toNat : Nat) : Int) (mapLines m' k ++ rest) hv rfl
            (by omega) (by omega) hclosed2 (by omega)
          rw [show typeOf (RVal.rstr []) = RTy.tstr from rfl] at hP2
          simp only [decodeObjMapLoop]
          rw [hlines, skipToContent_cons_content _ _ _ hclass]
          dsimp only
          rw [if_neg hind2, if_neg (by simp), if_neg (by simp), hP2]
          dsimp only
          rw [hins, hP4]
          simp
        · -- the scalar one-line entry
          rw [Bool.not_eq_true] at hB
          obtain ⟨text, hE, htne, htr, hth, hset⟩ := entry_keyValue_case mv
            (indentStr (k + 1) ++ '(' :: mk ++ [')']) (k + 1) hv
            (wf_not_block mv hv hB)
          rw [htyeq] at hset
          have hlines : mapLines ((mk, mv) :: m') k ++ rest =
              ((indentStr (k + 1) ++ '(' :: mk ++ [')']) ++ ' ' :: text) ::
                (mapLines m' k ++ rest) := by
            show (entryLines _ mv (k + 1) ++ mapLines m' k) ++ rest = _
            rw [hE]
            simp [List.append_assoc]
          have hclass := keyline_keyValue (k + 1) (by omega) mk text hkeyp
            htne htr hth
          simp only [decodeObjMapLoop]
          rw [hlines, skipToContent_cons_content _ _ _ hclass]
          dsimp only
          rw [if_neg hind2, if_neg (by simp), if_pos rfl, hset]
          dsimp only
          rw [hins, hP4]
          simp

-- Any successful decode leaves a suffix of the input lines as the rest.
theorem decode_rest_suffix : ∀ (fuel : Nat),
    (∀ v ci lines r rest, decodeValue fuel v ci lines = .ok (r, rest) → rest <:+ lines) ∧
    (∀ v ci lines r rest, decodeObject fuel v ci lines = .ok (r, rest) → rest <:+ lines) ∧
    (∀ fs ci lines r rest, decodeObjStructLoop fuel fs ci lines = .ok (r, rest) → rest <:+ lines) ∧
    (∀ et m ci lines r rest, decodeObjMapLoop fuel et m ci lines = .ok (r, rest) → rest <:+ lines) ∧
    (∀ v ci lines r rest, decodeSlice fuel v ci lines = .ok (r, rest) → rest <:+ lines) ∧
    (∀ et acc ci lines r rest, decodeSliceLoop fuel et acc ci lines = .ok (r, rest) → rest <:+ lines) ∧
    (∀ v ci lines r rest, decodeSet fuel v ci lines = .ok (r, rest) → rest <:+ lines) ∧
    (∀ m sv ci lines r rest, decodeSetLoop fuel m sv ci lines = .ok (r, rest) → rest <:+ lines) ∧
    (∀ v ci lines r rest, decodeMultiLineString fuel v ci lines = .ok (r, rest) → rest <:+ lines) ∧
    (∀ b acc ci lines r rest, decodeMLLoop fuel b acc ci lines = .ok (r, rest) → rest <:+ lines) := by
  intro fuel
  induction fuel with
  | zero =>
    refine ⟨?_, ?_, ?_, ?_, ?_, ?_, ?_, ?_, ?_, ?_⟩ <;>
      · intros
        simp_all [decodeValue, decodeObject, decodeObjStructLoop,
          decodeObjMapLoop, decodeSlice, decodeSliceLoop, decodeSet,
          decodeSetLoop, decodeMultiLineString, decodeMLLoop]
  | succ f ih =>
    obtain ⟨ihV, ihO, ihSL, ihML, ihS, ihSlL, ihSet, ihSetL, ihMLS, ihMLL⟩ := ih
    refine ⟨?_, ?_, ?_, ?_, ?_, ?_, ?_, ?_, ?_, ?_⟩
    -- decodeValue
    · intro v ci lines r rest h
      simp only [decodeValue] at h
      cases hsk : skipToContent lines with
      | error e => rw [hsk] at h; simp at h
      | ok o =>
        rw [hsk] at h
        cases o with
        | none =>
          simp only [Except.ok.injEq, Prod.mk.injEq] at h
          obtain ⟨-, h2⟩ := h
          subst h2
          exact List.suffix_refl _
        | some pair =>
          obtain ⟨⟨ind, key, val, lt⟩, rest0⟩ := pair
          dsimp only at h
          by_cases hi : (ind : Int) ≤ ci
          · rw [if_pos hi] at h
            simp only [Except.ok.injEq, Prod.mk.injEq] at h
            obtain ⟨-, h2⟩ := h
            subst h2
            exact List.suffix_refl _
          · rw [if_neg hi] at h
            cases lt with
            | blank => simp at h
            | keyValue => exact ihO _ _ _ _ _ h
            | keyOnly => exact ihO _ _ _ _ _ h
            | arrayItem => exact ihS _ _ _ _ _ h
            | arrayObject => exact ihS _ _ _ _ _ h
            | setItem => exact ihSet _ _ _ _ _ h
            | multiLine => exact ihMLS _ _ _ _ _ h
    -- decodeObject
    · intro v ci lines r rest h
      simp only [decodeObject] at h
      cases hind : indirectForce v with
      | rrec fs =>
        rw [hind] at h
        dsimp only at h
        cases hloop : decodeObjStructLoop f fs ci lines with
        | error e => rw [hloop] at h; simp at h
        | ok pr =>
          obtain ⟨fs2, rest2⟩ := pr
          rw [hloop] at h
          simp only [Except.ok.injEq, Prod.mk.injEq] at h
          obtain ⟨-, h2⟩ := h
          subst h2
          exact ihSL _ _ _ _ _ hloop
      | rmap et m =>
        rw [hind] at h
        dsimp only at h
        cases hloop : decodeObjMapLoop f et (m.getD []) ci lines with
        | error e => rw [hloop] at h; simp at h
        | ok pr =>
          obtain ⟨m2, rest2⟩ := pr
          rw [hloop] at h
          simp only [Except.ok.injEq, Prod.mk.injEq] at h
          obtain ⟨-, h2⟩ := h
          subst h2
          exact ihML _ _ _ _ _ _ hloop
      | rstr s => rw [hind] at h; simp at h
      | rbool b => rw [hind] at h; simp at h
      | rint w n => rw [hind] at h; simp at h
      | ruint w n => rw [hind] at h; simp at h
      | rlist t es => rw [hind] at h; simp at h
      | rptr t p => rw [hind] at h; simp at h
    -- decodeObjStructLoop
    · intro fs ci lines r rest h
      simp only [decodeObjStructLoop] at h
      cases hsk : skipToContent lines with
      | error e => rw [hsk] at h; simp at h
      | ok o =>
        rw [hsk] at h
        cases o with
        | none =>
          simp only [Except.ok.injEq, Prod.mk.injEq] at h
          obtain ⟨-, h2⟩ := h
          subst h2
          exact List.suffix_refl _
        | some pair =>
          obtain ⟨⟨ind, key, val, lt⟩, rest0⟩ := pair
          dsimp only at h
          have hsuf0 : rest0 <:+ lines :=
            skipToContent_suffix _ ⟨ind, key, val, lt⟩ _ hsk
          by_cases hi : (ind : Int) ≤ ci
          · rw [if_pos hi] at h
            simp only [Except.ok.injEq, Prod.mk.injEq] at h
            obtain ⟨-, h2⟩ := h
            subst h2
            exact List.suffix_refl _
          · rw [if_neg hi] at h
            by_cases hbad : lt ≠ LineKind.keyValue ∧ lt ≠ LineKind.keyOnly
            · rw [if_pos hbad] at h; simp at h
            · rw [if_neg hbad] at h
              cases hff : findStructField fs key with
              | none =>
                rw [hff] at h
                dsimp only at h
                refine (ihSL _ _ _ _ _ h).trans ?_
                by_cases hko : lt = LineKind.keyOnly
                · rw [if_pos hko]
                  exact (consumeChildren_suffix _ _).trans hsuf0
                · rw [if_neg hko]; exact hsuf0
              | some path =>
                rw [hff] at h
                dsimp only at h
                cases hgf : getFieldPath (.rrec fs) path with
                | none => rw [hgf] at h; simp at h
                | some fv =>
                  rw [hgf] at h
                  dsimp only at h
                  by_cases hkv : lt = LineKind.keyValue
                  · rw [if_pos hkv] at h
                    cases hsp : setPrimitive fv val with
                    | error e => rw [hsp] at h; simp at h
                    | ok fv2 =>
                      rw [hsp] at h
                      dsimp only at h
                      cases hsf : setFieldPath (.rrec fs) path fv2 with
                      | none => rw [hsf] at h; simp at h
                      | some w =>
                        rw [hsf] at h
                        cases w with
                        | rrec fs2 => exact (ihSL _ _ _ _ _ h).trans hsuf0
                        | rstr s => simp at h
                        | rbool b => simp at h
                        | rint a b => simp at h
                        | ruint a b => simp at h
                        | rlist a b => simp at h
                        | rmap a b => simp at h
                        | rptr a b => simp at h
                  · rw [if_neg hkv] at h
                    cases hdv : decodeValue f fv ind rest0 with
                    | error e => rw [hdv] at h; simp at h
                    | ok pr2 =>
                      obtain ⟨fv2, rest2⟩ := pr2
                      rw [hdv] at h
                      dsimp only at h
                      cases hsf : setFieldPath (.rrec fs) path fv2 with
                      | none => rw [hsf] at h; simp at h
                      | some w =>
                        rw [hsf] at h
                        cases w with
                        | rrec fs2 =>
                          exact (ihSL _ _ _ _ _ h).trans
                            ((ihV _ _ _ _ _ hdv).trans hsuf0)
                        | rstr s => simp at h
                        | rbool b => simp at h
                        | rint a b => simp at h
                        | ruint a b => simp at h
                        | rlist a b => simp at h
                        | rmap a b => simp at h
                        | rptr a b => simp at h
    -- decodeObjMapLoop
    · intro et m ci lines r rest h
      simp only [decodeObjMapLoop] at h
      cases hsk : skipToContent lines with
      | error e => rw [hsk] at h; simp at h
      | ok o =>
        rw [hsk] at h
        cases o with
        | none =>
          simp only [Except.ok.injEq, Prod.mk.injEq] at h
          obtain ⟨-, h2⟩ := h
          subst h2
          exact List.suffix_refl _
        | some pair =>
          obtain ⟨⟨ind, key, val, lt⟩, rest0⟩ := pair
          dsimp only at h
          have hsuf0 : rest0 <:+ lines :=
            skipToContent_suffix _ ⟨ind, key, val, lt⟩ _ hsk
          by_cases hi : (ind : Int) ≤ ci
          · rw [if_pos hi] at h
            simp only [Except.ok.injEq, Prod.mk.injEq] at h
            obtain ⟨-, h2⟩ := h
            subst h2
            exact List.suffix_refl _
          · rw [if_neg hi] at h
            by_cases hbad : lt ≠ LineKind.keyValue ∧ lt ≠ LineKind.keyOnly
            · rw [if_pos hbad] at h; simp at h
            · rw [if_neg hbad] at h
              by_cases hkv : lt = LineKind.keyValue
              · rw [if_pos hkv] at h
                cases hsp : setPrimitive (zeroVal et) val with
                | error e => rw [hsp] at h; simp at h
                | ok mv =>
                  rw [hsp] at h
                  exact (ihML _ _ _ _ _ _ h).trans hsuf0
              · rw [if_neg hkv] at h
                cases hdv : decodeValue f (zeroVal et) ind rest0 with
                | error e => rw [hdv] at h; simp at h
                | ok pr2 =>
                  obtain ⟨mv, rest2⟩ := pr2
                  rw [hdv] at h
                  dsimp only at h
                  exact (ihML _ _ _ _ _ _ h).trans
                    ((ihV _ _ _ _ _ hdv).trans hsuf0)
    -- decodeSlice
    · intro v ci lines r rest h
      simp only [decodeSlice] at h
      cases hind : indirectNoAlloc v with
      | rlist et es =>
        rw [hind] at h
        dsimp only at h
        cases hloop : decodeSliceLoop f et [] ci lines with
        | error e => rw [hloop] at h; simp at h
        | ok pr =>
          obtain ⟨es2, rest2⟩ := pr
          rw [hloop] at h
          simp only [Except.ok.injEq, Prod.mk.injEq] at h
          obtain ⟨-, h2⟩ := h
          subst h2
          exact ihSlL _ _ _ _ _ _ hloop
      | rstr s => rw [hind] at h; simp at h
      | rbool b => rw [hind] at h; simp at h
      | rint a b => rw [hind] at h; simp at h
      | ruint a b => rw [hind] at h; simp at h
      | rrec fs => rw [hind] at h; simp at h
      | rmap a b => rw [hind] at h; simp at h
      | rptr a b => rw [hind] at h; simp at h
    -- decodeSliceLoop
    · intro et acc ci lines r rest h
      simp only [decodeSliceLoop] at h
      cases hsk : skipToContent lines with
      | error e => rw [hsk] at h; simp at h
      | ok o =>
        rw [hsk] at h
        cases o with
        | none =>
          simp only [Except.ok.injEq, Prod.mk.injEq] at h
          obtain ⟨-, h2⟩ := h
          subst h2
          exact List.suffix_refl _
        | some pair =>
          obtain ⟨⟨ind, key, val, lt⟩, rest0⟩ := pair
          dsimp only at h
          have hsuf0 : rest0 <:+ lines :=
            skipToContent_suffix _ ⟨ind, key, val, lt⟩ _ hsk
          by_cases hi : (ind : Int) ≤ ci
          · rw [if_pos hi] at h
            simp only [Except.ok.injEq, Prod.mk.injEq] at h
            obtain ⟨-, h2⟩ := h
            subst h2
            exact List.suffix_refl _
          · rw [if_neg hi] at h
            by_cases hao : lt = LineKind.arrayObject
            · rw [if_pos hao] at h
              cases hdv : decodeValue f (zeroVal et) ind rest0 with
              | error e => rw [hdv] at h; simp at h
              | ok pr2 =>
                obtain ⟨ev, rest2⟩ := pr2
                rw [hdv] at h
                dsimp only at h
                exact (ihSlL _ _ _ _ _ _ h).trans
                  ((ihV _ _ _ _ _ hdv).trans hsuf0)
            · rw [if_neg hao] at h
              by_cases hai : lt = LineKind.arrayItem
              · rw [if_pos hai] at h
                cases hsp : setPrimitive (zeroVal et) val with
                | error e => rw [hsp] at h; simp at h
                | ok ev =>
                  rw [hsp] at h
                  exact (ihSlL _ _ _ _ _ _ h).trans hsuf0
              · rw [if_neg hai] at h
                simp only [Except.ok.injEq, Prod.mk.injEq] at h
                obtain ⟨-, h2⟩ := h
                subst h2
                exact List.suffix_refl _
    -- decodeSet
    · intro v ci lines r rest h
      simp only [decodeSet] at h
      cases hind : indirectNoAlloc v with
      | rmap et m =>
        rw [hind] at h
        dsimp only at h
        cases hsv : (match et with
          | RTy.trec [] => some (RVal.rrec [])
          | RTy.tbool => some (RVal.rbool true)
          | _ => none) with
        | none => rw [hsv] at h; simp at h
        | some sv =>
          rw [hsv] at h
          dsimp only at h
          cases hloop : decodeSetLoop f (m.getD []) sv ci lines with
          | error e => rw [hloop] at h; simp at h
          | ok pr =>
            obtain ⟨m2, rest2⟩ := pr
            rw [hloop] at h
            simp only [Except.ok.injEq, Prod.mk.injEq] at h
            obtain ⟨-, h2⟩ := h
            subst h2
            exact ihSetL _ _ _ _ _ _ hloop
      | rstr s => rw [hind] at h; simp at h
      | rbool b => rw [hind] at h; simp at h
      | rint a b => rw [hind] at h; simp at h
      | ruint a b => rw [hind] at h; simp at h
      | rrec fs => rw [hind] at h; simp at h
      | rlist a b => rw [hind] at h; simp at h
      | rptr a b => rw [hind] at h; simp at h
    -- decodeSetLoop
    · intro m sv ci lines r rest h
      simp only [decodeSetLoop] at h
      cases hsk : skipToContent lines with
      | error e => rw [hsk] at h; simp at h
      | ok o =>
        rw [hsk] at h
        cases o with
        | none =>
          simp only [Except.ok.injEq, Prod.mk.injEq] at h
          obtain ⟨-, h2⟩ := h
          subst h2
          exact List.suffix_refl _
        | some pair =>
          obtain ⟨⟨ind, key, val, lt⟩, rest0⟩ := pair
          dsimp only at h
          have hsuf0 : rest0 <:+ lines :=
            skipToContent_suffix _ ⟨ind, key, val, lt⟩ _ hsk
          by_cases hi : (ind : Int) ≤ ci
          · rw [if_pos hi] at h
            simp only [Except.ok.injEq, Prod.mk.injEq] at h
            obtain ⟨-, h2⟩ := h
            subst h2
            exact List.suffix_refl _
          · rw [if_neg hi] at h
            by_cases hsi : lt ≠ LineKind.setItem
            · rw [if_pos hsi] at h
              simp only [Except.ok.injEq, Prod.mk.injEq] at h
              obtain ⟨-, h2⟩ := h
              subst h2
              exact List.suffix_refl _
            · rw [if_neg hsi] at h
              exact (ihSetL _ _ _ _ _ _ h).trans hsuf0
    -- decodeMultiLineString
    · intro v ci lines r rest h
      simp only [decodeMultiLineString] at h
      cases hind : indirectForce v with
      | rstr s =>
        rw [hind] at h
        dsimp only at h
        cases hloop : decodeMLLoop f none [] ci lines with
        | error e => rw [hloop] at h; simp at h
        | ok pr =>
          obtain ⟨content, rest2⟩ := pr
          rw [hloop] at h
          simp only [Except.ok.injEq, Prod.mk.injEq] at h
          obtain ⟨-, h2⟩ := h
          subst h2
          exact ihMLL _ _ _ _ _ _ hloop
      | rbool b => rw [hind] at h; simp at h
      | rint a b => rw [hind] at h; simp at h
      | ruint a b => rw [hind] at h; simp at h
      | rrec fs => rw [hind] at h; simp at h
      | rlist a b => rw [hind] at h; simp at h
      | rmap a b => rw [hind] at h; simp at h
      | rptr a b => rw [hind] at h; simp at h
    -- decodeMLLoop
    · intro b acc ci lines r rest h
      simp only [decodeMLLoop] at h
      cases hsk : skipToContent lines with
      | error e => rw [hsk] at h; simp at h
      | ok o =>
        rw [hsk] at h
        cases o with
        | none =>
          simp only [Except.ok.injEq, Prod.mk.injEq] at h
          obtain ⟨-, h2⟩ := h
          subst h2
          exact List.suffix_refl _
        | some pair =>
          obtain ⟨⟨ind, key, val, lt⟩, rest0⟩ := pair
          dsimp only at h
          have hsuf0 : rest0 <:+ lines :=
            skipToContent_suffix _ ⟨ind, key, val, lt⟩ _ hsk
          by_cases hi : (ind : Int) ≤ ci
          · rw [if_pos hi] at h
            simp only [Except.ok.injEq, Prod.mk.injEq] at h
            obtain ⟨-, h2⟩ := h
            subst h2
            exact List.suffix_refl _
          · rw [if_neg hi] at h
            by_cases hml : lt ≠ LineKind.multiLine
            · rw [if_pos hml] at h
              simp only [Except.ok.injEq, Prod.mk.injEq] at h
              obtain ⟨-, h2⟩ := h
              subst h2
              exact List.suffix_refl _
            · rw [if_neg hml] at h
              cases b with
              | none =>
                dsimp only at h
                exact (ihMLL _ _ _ _ _ _ h).trans hsuf0
              | some base =>
                dsimp only at h
                exact (ihMLL _ _ _ _ _ _ h).trans hsuf0

/-- The map half of the object loop never disturbs entries whose key no
line of the document carries. -/
theorem decodeObjMapLoop_preserves : ∀ (fuel : Nat) (et : RTy)
    (m : List (Str × RVal)) (ci : Int) (lines : List Str)
    (m2 : List (Str × RVal)) (rest : List Str) (k : Str),
    decodeObjMapLoop fuel et m ci lines = .ok (m2, rest) →
    (∀ l ∈ lines, ∀ li, classifyLine l = .ok (some li) → li.key ≠ k) →
    mapGet m2 k = mapGet m k := by
  intro fuel
  induction fuel with
  | zero => intro et m ci lines m2 rest k h _; simp [decodeObjMapLoop] at h
  | succ f ih =>
    intro et m ci lines m2 rest k h hk
    simp only [decodeObjMapLoop] at h
    cases hsk : skipToContent lines with
    | error e => rw [hsk] at h; simp at h
    | ok o =>
      rw [hsk] at h
      cases o with
      | none =>
        simp only [Except.ok.injEq, Prod.mk.injEq] at h
        rw [← h.1]
      | some pair =>
        obtain ⟨⟨ind, key, val, lt⟩, rest0⟩ := pair
        dsimp only at h
        have hkey : key ≠ k := by
          obtain ⟨l, hl, hcl⟩ := skipToContent_mem _ ⟨ind, key, val, lt⟩ _ hsk
          exact hk l hl _ hcl
        have hsuf0 : rest0 <:+ lines :=
          skipToContent_suffix _ ⟨ind, key, val, lt⟩ _ hsk
        have hk0 : ∀ l ∈ rest0, ∀ li, classifyLine l = .ok (some li) →
            li.key ≠ k := fun l hl => hk l (hsuf0.subset hl)
        by_cases hi : (ind : Int) ≤ ci
        · rw [if_pos hi] at h
          simp only [Except.ok.injEq, Prod.mk.injEq] at h
          rw [← h.1]
        · rw [if_neg hi] at h
          by_cases hbad : lt ≠ LineKind.keyValue ∧ lt ≠ LineKind.keyOnly
          · rw [if_pos hbad] at h; simp at h
          · rw [if_neg hbad] at h
            by_cases hkv : lt = LineKind.keyValue
            · rw [if_pos hkv] at h
              cases hsp : setPrimitive (zeroVal et) val with
              | error e => rw [hsp] at h; simp at h
              | ok mv =>
                rw [hsp] at h
                have := ih et (mapSet m key mv) ci rest0 m2 rest k h hk0
                rw [this, mapSet_get_other _ _ _ _ hkey]
            · rw [if_neg hkv] at h
              cases hdv : decodeValue f (zeroVal et) ind rest0 with
              | error e => rw [hdv] at h; simp at h
              | ok pr2 =>
                obtain ⟨mv, rest2⟩ := pr2
                rw [hdv] at h
                dsimp only at h
                have hsuf2 : rest2 <:+ rest0 :=
                  (decode_rest_suffix f).1 _ _ _ _ _ hdv
                have hk2 : ∀ l ∈ rest2, ∀ li, classifyLine l = .ok (some li) →
                    li.key ≠ k := fun l hl => hk0 l (hsuf2.subset hl)
                have := ih et (mapSet m key mv) ci rest2 m2 rest k h hk2
                rw [this, mapSet_get_other _ _ _ _ hkey]

/-- The set loop never disturbs entries whose key no `>|` item of the
document carries. -/
theorem decodeSetLoop_preserves : ∀ (fuel : Nat) (m : List (Str × RVal))
    (sv : RVal) (ci : Int) (lines : List Str) (m2 : List (Str × RVal))
    (rest : List Str) (k : Str),
    decodeSetLoop fuel m sv ci lines = .ok (m2, rest) →
    (∀ l ∈ lines, ∀ li, classifyLine l = .ok (some li) → li.value ≠ k) →
    mapGet m2 k = mapGet m k := by
  intro fuel
  induction fuel with
  | zero => intro m sv ci lines m2 rest k h _; simp [decodeSetLoop] at h
  | succ f ih =>
    intro m sv ci lines m2 rest k h hk
    simp only [decodeSetLoop] at h
    cases hsk : skipToContent lines with
    | error e => rw [hsk] at h; simp at h
    | ok o =>
      rw [hsk] at h
      cases o with
      | none =>
        simp only [Except.ok.injEq, Prod.mk.injEq] at h
        rw [← h.1]
      | some pair =>
        obtain ⟨⟨ind, key, val, lt⟩, rest0⟩ := pair
        dsimp only at h
        have hval : val ≠ k := by
          obtain ⟨l, hl, hcl⟩ := skipToContent_mem _ ⟨ind, key, val, lt⟩ _ hsk
          exact hk l hl _ hcl
        have hsuf0 : rest0 <:+ lines :=
          skipToContent_suffix _ ⟨ind, key, val, lt⟩ _ hsk
        have hk0 : ∀ l ∈ rest0, ∀ li, classifyLine l = .ok (some li) →
            li.value ≠ k := fun l hl => hk l (hsuf0.subset hl)
        by_cases hi : (ind : Int) ≤ ci
        · rw [if_pos hi] at h
          simp only [Except.ok.injEq, Prod.mk.injEq] at h
          rw [← h.1]
        · rw [if_neg hi] at h
          by_cases hsi : lt ≠ LineKind.setItem
          · rw [if_pos hsi] at h
            simp only [Except.ok.injEq, Prod.mk.injEq] at h
            rw [← h.1]
          · rw [if_neg hsi] at h
            have := ih (mapSet m val sv) sv ci rest0 m2 rest k h hk0
            rw [this, mapSet_get_other _ _ _ _ hval]

/-- `consumeChildren` drops exactly a block of classifiable lines that
are all indented deeper than `i`, stopping at the first content line at
indent at most `i`. -/
theorem consumeChildren_drop_block (i : Int) (B rest : List Str)
    (hB : ∀ b ∈ B, ∃ o, classifyLine b = .ok o ∧
      ∀ lj, o = some lj → (lj.indent : Int) > i)
    (hrest : headContentLE i rest) :
    consumeChildren i (B ++ rest) = rest := by
  induction B with
  | nil =>
    rcases hrest with h0 | ⟨l, r, li, hr, hcl, hle⟩
    · subst h0; rfl
    · subst hr
      simp only [List.nil_append, consumeChildren, hcl]
      rw [if_neg (by omega)]
  | cons b B ih =>
    obtain ⟨o, hco, ho⟩ := hB b (List.mem_cons_self _ _)
    simp only [List.cons_append, consumeChildren, hco]
    cases o with
    | none => exact ih (fun x hx => hB x (List.mem_cons_of_mem _ hx))
    | some lj =>
      dsimp only
      rw [if_pos (ho lj rfl)]
      exact ih (fun x hx => hB x (List.mem_cons_of_mem _ hx))

/-! # Claim theorems -/

/-- **C2** (code bug).  The claim (and the repository's own test
`TestMultineStringCorrectly`) requires blank physical lines between two
multi-line-content lines to survive as empty joined segments (`\n\n`).
The code's `peek` skips every blank line unconditionally (`unmarshal.go`
lines 74-78), also inside multi-line blocks, so decoding the fixture
yields `"This is a multi-line\ndescription for the site.\nas well"` with
a single separator where the claim requires
`"This is a multi-line\ndescription for the site.\n\nas well"`. -/
theorem C2_blank_line_dropped :
    UnmarshalModel 40 mlDoc (.rptr mlTy (some (zeroVal mlTy))) =
      .ok (.rptr mlTy (some (.rrec [(strL "Description", strL "description", false,
        .rstr (strL "This is a multi-line\ndescription for the site.\nas well"))]))) ∧
    strL "This is a multi-line\ndescription for the site.\nas well" ≠
      strL "This is a multi-line\ndescription for the site.\n\nas well" :=
  ⟨rfl, by decide⟩

/-- **C5** (code bug).  The claim (and the repository's own test
`TestComments`) requires a line starting with `\#` inside a multi-line
block to be unescaped to a literal leading `#`.  The code's `peek`
truncates at the first `#` unconditionally — even an escaped one — so the
line `  \# this line should start with a hash` is truncated to the single
character `\`, and the decoded string contains `\` where the claim
requires `# this line should start with a hash`. -/
theorem C5_escaped_hash_not_unescaped :
    UnmarshalModel 40 escDoc (.rptr escTy (some (zeroVal escTy))) =
      .ok (.rptr escTy (some (.rrec [
        (strL "SomeKey", strL "some key", false, .rstr (strL "XXXX")),
        (strL "Description", strL "description", false,
          .rstr (strL "This is a multi-line\ndescription for the site.\n\\\nas well"))]))) ∧
    strL "This is a multi-line\ndescription for the site.\n\\\nas well" ≠
      strL "This is a multi-line\ndescription for the site.\n# this line should start with a hash\nas well" :=
  ⟨rfl, by decide⟩

/-- **C3 counterexample**.  Encoding the parent of an embedded sub-record
does not inline the embedded field's key into the parent's key list: the
output nests `(timeout) 30` under a `(basesettings)` key, and no line of
the output is the parent-level `(timeout) 30` the claim requires. -/
theorem C3_encode_not_inlined :
    MarshalModel appVal =
      .ok (strL "(basesettings)\n  (timeout) 30\n(app_name) My-App\n") ∧
    strL "(timeout) 30" ∉
      splitLines (strL "(basesettings)\n  (timeout) 30\n(app_name) My-App\n") :=
  ⟨rfl, by decide⟩

/-- **C3 amended**.  Decoding `(timeout) 30` at the parent's indent level
does populate the embedded field (the decode half of the claim holds);
encoding, however, emits the embedded sub-record as a nested block under
the embedded field's own key (its lowercased field name), not inlined at
the parent's indent. -/
theorem C3_embedded_promotion_amended :
    UnmarshalModel 40 embDoc (.rptr appTy (some (zeroVal appTy))) =
      .ok (.rptr appTy (some appVal)) ∧
    MarshalModel appVal =
      .ok (strL "(basesettings)\n  (timeout) 30\n(app_name) My-App\n") :=
  ⟨rfl, rfl⟩

/-- **C4 counterexample**.  With an untagged field `A` (lowercased name
`a`) declared before a field `B` whose explicit tag is exactly `a`,
resolution of the key `a` binds to `A` (index path `[0]`), not to the
explicitly tagged `B` (index path `[1]`): an explicit tag does *not* take
precedence over an earlier field's name match, because `findStructField`
tests tag and name per field in declaration order. -/
theorem C4_counterexample :
    findStructField c4Fields (strL "a") = some [0] ∧
    ([0] : List Nat) ≠ [1] := ⟨rfl, by decide⟩

/-- **C4 amended**.  Resolution scans fields in declaration order and the
first field that matches — by explicit tag, by lowercased name when
untagged, or through embedded recursion — wins.  In particular a field's
explicit tag binds the key whenever no *earlier* field matches; it does
not override an earlier field's name match. -/
theorem C4_declaration_order_resolution
    (fs : List (Str × Str × Bool × RVal)) (key : Str) (j : Nat)
    (name tag : Str) (anon : Bool) (v : RVal)
    (hj : fs[j]? = some (name, tag, anon, v)) (htag : tag = key)
    (hearlier : ∀ g ∈ fs.take j, fieldMatches g key = false) :
    findStructField fs key = some [j] := by
  induction fs generalizing j with
  | nil => simp at hj
  | cons f fs ih =>
    obtain ⟨fname, ftag, fanon, fv⟩ := f
    cases j with
    | zero =>
      simp only [List.getElem?_cons_zero, Option.some.injEq, Prod.mk.injEq] at hj
      obtain ⟨h1, h2, h3, h4⟩ := hj
      subst h2; subst htag
      simp [findStructField, findStructFieldAux]
    | succ j =>
      have hf : fieldMatches (fname, ftag, fanon, fv) key = false := by
        apply hearlier
        simp [List.take_succ_cons]
      simp only [fieldMatches, Bool.or_eq_false_iff, Bool.and_eq_false_iff,
        beq_iff_eq, beq_eq_false_iff_ne, ne_eq] at hf
      obtain ⟨⟨hf1, hf2⟩, hf3⟩ := hf
      simp only [List.getElem?_cons_succ] at hj
      have htail : ∀ g ∈ fs.take j, fieldMatches g key = false := by
        intro g hg
        exact hearlier g (by simp [List.take_succ_cons, hg])
      have := ih j hj htail
      simp only [findStructField] at this ⊢
      rw [findStructFieldAux]
      simp only [if_neg hf1]
      have hanon : (if fanon then findStructFieldAnon fv key else none) = none := by
        cases fanon with
        | false => rfl
        | true =>
          cases hfa : findStructFieldAnon fv key with
          | none => simp [hfa]
          | some p =>
            rcases hf3 with h | h
            · simp at h
            · rw [hfa] at h; simp at h
      have hname : ¬ (ftag = [] ∧ toLowerGo fname = key) := by
        rintro ⟨ha, hb⟩
        rcases hf2 with h | h
        · exact h ha
        · exact h hb
      rw [if_neg hname, hanon]
      rw [findStructFieldAux_shift fs key 1, this]
      rfl

/-- **C4 witness**: a concrete record where the explicitly tagged field
is resolved because no earlier field matches. -/
theorem C4_declaration_order_resolution_witness :
    findStructField [(strL "X", strL "x", false, .rstr []),
      (strL "B", strL "a", false, .rstr (strL "q"))] (strL "a") = some [1] :=
  C4_declaration_order_resolution _ (strL "a") 1 (strL "B") (strL "a")
    false (.rstr (strL "q")) rfl rfl (by decide)

/-- **C10** (confirmed).  The value of every `(key) value` line is
produced by `strings.TrimSpace`, hence trimmed of leading and trailing
whitespace; consequently a decoded single-line string never retains the
spaces surrounding it in the document. -/
theorem C10_keyvalue_trimmed :
    (∀ (l : Str) (li : LineInfo), classifyLine l = .ok (some li) →
      li.lineType = .keyValue → trimS li.value = li.value) ∧
    UnmarshalModel 10 (strL "(site_name)   PIML Demo   \n")
      (.rptr spacedTy (some (zeroVal spacedTy))) =
      .ok (.rptr spacedTy (some (.rrec [(strL "SiteName", strL "site_name", false,
        .rstr (strL "PIML Demo"))]))) := by
  constructor
  · intro l li h hk
    simp only [classifyLine] at h
    repeat' split at h
    any_goals
      (injection h with h1
       injection h1 with h2
       subst h2
       first
       | exact trimS_idem _
       | simp at hk)
    all_goals simp at h
  · rfl

/-- **C10 witness** for the first conjunct: the classification of a
concrete key-value line with surrounding spaces. -/
theorem C10_keyvalue_trimmed_witness :
    trimS (strL "PIML Demo") = strL "PIML Demo" := by
  have h := C10_keyvalue_trimmed.1 (strL "(site_name)   PIML Demo   ")
    ⟨0, strL "site_name", strL "PIML Demo", .keyValue⟩ rfl rfl
  exact h

/-- **C7** (confirmed).  `setPrimitive` fails on a primitive destination
exactly when the text fails to parse as the destination's kind, the
parsed number overflows the destination's bit width, or the literal `nil`
is assigned to a non-nilable destination; `nil` on a nilable (pointer)
destination succeeds.  The error aborts the object loop and is wrapped
with the offending key, so the whole decode call fails with that key. -/
theorem C7_type_mismatch_iff :
    (∀ (w : Nat) (n0 : Int) (s : Str),
      (∃ e, setPrimitive (.rint w n0) s = .error e) ↔
        (s = strL "nil" ∨ parseIntGo s = none ∨
          ∃ i, parseIntGo s = some i ∧ overflowInt w i = true)) ∧
    (∀ (w : Nat) (n0 : Nat) (s : Str),
      (∃ e, setPrimitive (.ruint w n0) s = .error e) ↔
        (s = strL "nil" ∨ parseUintGo s = none ∨
          ∃ n, parseUintGo s = some n ∧ overflowUint w n = true)) ∧
    (∀ (b0 : Bool) (s : Str),
      (∃ e, setPrimitive (.rbool b0) s = .error e) ↔
        (s = strL "nil" ∨ parseBoolGo s = none)) ∧
    (∀ (s0 s : Str),
      (∃ e, setPrimitive (.rstr s0) s = .error e) ↔ s = strL "nil") ∧
    (∀ (t : RTy) (p : Option RVal),
      setPrimitive (.rptr t p) (strL "nil") = .ok (.rptr t none)) ∧
    (∀ (fuel : Nat) (fs : List (Str × Str × Bool × RVal)) (ci : Int)
      (l : Str) (rest : List Str) (li : LineInfo) (path : List Nat)
      (fv : RVal) (e : PErr),
      classifyLine l = .ok (some li) → li.lineType = .keyValue →
      (li.indent : Int) > ci →
      findStructField fs li.key = some path →
      getFieldPath (.rrec fs) path = some fv →
      setPrimitive fv li.value = .error e →
      decodeObjStructLoop (fuel + 1) fs ci (l :: rest) =
        .error (.fieldErr li.key e)) ∧
    UnmarshalModel 10 (strL "(port) nil")
      (.rptr (.trec [(strL "Port", strL "port", false, .tint 64)])
        (some (zeroVal (.trec [(strL "Port", strL "port", false, .tint 64)])))) =
      .error (.fieldErr (strL "port") .nilToNonNilable) := by
  refine ⟨?_, ?_, ?_, ?_, fun t p => rfl, ?_, rfl⟩
  · intro w n0 s
    by_cases hs : s = strL "nil"
    · simp [setPrimitive, hs]
    · cases hp : parseIntGo s with
      | none => simp [setPrimitive, hs, indirectForce, setPrimCore, rewrapPtrs, Bind.bind, Except.bind, hp]
      | some i =>
        cases ho : overflowInt w i with
        | true => simp [setPrimitive, hs, indirectForce, setPrimCore, rewrapPtrs, Bind.bind, Except.bind, hp, ho]
        | false => simp [setPrimitive, hs, indirectForce, setPrimCore, rewrapPtrs, Bind.bind, Except.bind, hp, ho]
  · intro w n0 s
    by_cases hs : s = strL "nil"
    · simp [setPrimitive, hs]
    · cases hp : parseUintGo s with
      | none => simp [setPrimitive, hs, indirectForce, setPrimCore, rewrapPtrs, Bind.bind, Except.bind, hp]
      | some n =>
        cases ho : overflowUint w n with
        | true => simp [setPrimitive, hs, indirectForce, setPrimCore, rewrapPtrs, Bind.bind, Except.bind, hp, ho]
        | false => simp [setPrimitive, hs, indirectForce, setPrimCore, rewrapPtrs, Bind.bind, Except.bind, hp, ho]
  · intro b0 s
    by_cases hs : s = strL "nil"
    · simp [setPrimitive, hs]
    · cases hp : parseBoolGo s with
      | none => simp [setPrimitive, hs, indirectForce, setPrimCore, rewrapPtrs, Bind.bind, Except.bind, hp]
      | some b => simp [setPrimitive, hs, indirectForce, setPrimCore, rewrapPtrs, Bind.bind, Except.bind, hp]
  · intro s0 s
    by_cases hs : s = strL "nil"
    · simp [setPrimitive, hs]
    · simp [setPrimitive, hs, indirectForce, setPrimCore, rewrapPtrs, Bind.bind, Except.bind]
  · intro fuel fs ci l rest li path fv e hcl hkv hind hfind hget hset
    simp only [decodeObjStructLoop, skipToContent, hcl]
    rw [if_neg (by omega)]
    rw [if_neg (by simp [hkv])]
    simp only [hfind, hget, hkv, if_pos, hset]

/-- **C7 witness**: decoding `(port) thirty` into an `int64` field fails
with a parse error wrapped with the key `port`. -/
theorem C7_type_mismatch_iff_witness :
    decodeObjStructLoop 5 [(strL "Port", strL "port", false, .rint 64 0)] (-1)
      [strL "(port) thirty"] = .error (.fieldErr (strL "port") .parseFail) :=
  C7_type_mismatch_iff.2.2.2.2.2.1 4 _ (-1) _ []
    ⟨0, strL "port", strL "thirty", .keyValue⟩ [0] (.rint 64 0) .parseFail
    rfl rfl (by decide) rfl rfl rfl

/-- **C8** (confirmed).  A key that resolves to no field is skipped
without any effect: one iteration of the object loop on an unmatched
key-only header followed by its block (classifiable lines indented deeper
than the header) lands in exactly the state the loop would be in without
the header and its block — same fields, same remaining lines — and
likewise for an unmatched key-value line.  In particular decoding
succeeds iff the rest does, every destination field is untouched by the
unmatched block, and sibling keys decode unaffected; the concrete
conjunct decodes a document whose unknown key carries a two-level nested
block between two known siblings. -/
theorem C8_unknown_key_skipped :
    (∀ (fuel : Nat) (fs : List (Str × Str × Bool × RVal)) (ci : Int)
      (l : Str) (li : LineInfo) (B rest : List Str),
      classifyLine l = .ok (some li) → li.lineType = .keyOnly →
      (li.indent : Int) > ci → findStructField fs li.key = none →
      (∀ b ∈ B, ∃ o, classifyLine b = .ok o ∧
        ∀ lj, o = some lj → (lj.indent : Int) > li.indent) →
      headContentLE li.indent rest →
      decodeObjStructLoop (fuel + 1) fs ci (l :: (B ++ rest)) =
        decodeObjStructLoop fuel fs ci rest) ∧
    (∀ (fuel : Nat) (fs : List (Str × Str × Bool × RVal)) (ci : Int)
      (l : Str) (li : LineInfo) (rest : List Str),
      classifyLine l = .ok (some li) → li.lineType = .keyValue →
      (li.indent : Int) > ci → findStructField fs li.key = none →
      decodeObjStructLoop (fuel + 1) fs ci (l :: rest) =
        decodeObjStructLoop fuel fs ci rest) ∧
    UnmarshalModel 40 c8Doc (.rptr c8Ty (some (zeroVal c8Ty))) =
      .ok (.rptr c8Ty (some (.rrec [
        (strL "SiteName", strL "site_name", false, .rstr (strL "A")),
        (strL "Port", strL "port", false, .rint 64 9)]))) := by
  refine ⟨?_, ?_, ?_⟩
  · intro fuel fs ci l li B rest hcl hko hgt hff hB hrest
    obtain ⟨ind, key, val, lt⟩ := li
    simp only [LineInfo.lineType] at hko
    subst hko
    simp only [LineInfo.indent] at hgt
    simp only [LineInfo.key] at hff
    simp only [decodeObjStructLoop, skipToContent, hcl]
    rw [if_neg (by omega)]
    rw [if_neg (by simp)]
    rw [hff]
    dsimp only
    simp only [if_true]
    rw [consumeChildren_drop_block _ _ _ hB hrest]
  · intro fuel fs ci l li rest hcl hkv hgt hff
    obtain ⟨ind, key, val, lt⟩ := li
    simp only [LineInfo.lineType] at hkv
    subst hkv
    simp only [LineInfo.indent] at hgt
    simp only [LineInfo.key] at hff
    simp only [decodeObjStructLoop, skipToContent, hcl]
    rw [if_neg (by omega)]
    rw [if_neg (by simp)]
    rw [hff]
    dsimp only
    rw [if_neg (by simp)]
  · rfl

/-- **C8 witness**: the loop on `(unknown)` with one deeper child line
equals the loop without them. -/
theorem C8_unknown_key_skipped_witness :
    decodeObjStructLoop 6
      [(strL "SiteName", strL "site_name", false, .rstr []),
       (strL "Port", strL "port", false, .rint 64 0)] (-1)
      [strL "(unknown)", strL "  (x) 1", strL "(port) 9"] =
    decodeObjStructLoop 5
      [(strL "SiteName", strL "site_name", false, .rstr []),
       (strL "Port", strL "port", false, .rint 64 0)] (-1)
      [strL "(port) 9"] := by
  have h := C8_unknown_key_skipped.1 5
    [(strL "SiteName", strL "site_name", false, .rstr []),
     (strL "Port", strL "port", false, .rint 64 0)] (-1)
    (strL "(unknown)") ⟨0, strL "unknown", [], .keyOnly⟩
    [strL "  (x) 1"] [strL "(port) 9"] rfl rfl (by decide) rfl ?_ ?_
  · exact h
  · intro b hb
    simp only [List.mem_singleton] at hb
    subst hb
    refine ⟨some ⟨2, strL "x", strL "1", .keyValue⟩, rfl, ?_⟩
    intro lj hlj
    injection hlj with h2
    subst h2
    decide
  · exact Or.inr ⟨strL "(port) 9", [], ⟨0, strL "port", strL "9", .keyValue⟩,
      rfl, rfl, by decide⟩

/-- **C9** (confirmed).  `decodeSlice` resets the destination to a fresh
empty slice, so its result is independent of the pre-existing elements
(they are discarded even when the document's list is shorter), while
`decodeObject` on a non-nil map and `decodeSet` insert into the existing
entries, preserving every entry whose key (for sets: item text) the
document does not mention.  The concrete conjunct decodes a one-element
list and a one-entry map block into a destination holding three list
elements and an unrelated map entry. -/
theorem C9_slice_replaced_map_preserved :
    (∀ (fuel : Nat) (t : RTy) (es es2 : Option (List RVal)) (ci : Int)
      (lines : List Str),
      decodeSlice fuel (.rlist t es) ci lines =
        decodeSlice fuel (.rlist t es2) ci lines) ∧
    UnmarshalModel 30 (strL "(names)\n  > x\n(m)\n  (new) 1\n")
      (.rptr preTy (some preVal)) = .ok (.rptr preTy (some postVal)) ∧
    (∀ (fuel : Nat) (et : RTy) (m : List (Str × RVal)) (ci : Int)
      (lines : List Str) (m2 : List (Str × RVal)) (rest : List Str) (k : Str),
      decodeObjMapLoop fuel et m ci lines = .ok (m2, rest) →
      (∀ l ∈ lines, ∀ li, classifyLine l = .ok (some li) → li.key ≠ k) →
      mapGet m2 k = mapGet m k) ∧
    (∀ (fuel : Nat) (m : List (Str × RVal)) (sv : RVal) (ci : Int)
      (lines : List Str) (m2 : List (Str × RVal)) (rest : List Str) (k : Str),
      decodeSetLoop fuel m sv ci lines = .ok (m2, rest) →
      (∀ l ∈ lines, ∀ li, classifyLine l = .ok (some li) → li.value ≠ k) →
      mapGet m2 k = mapGet m k) := by
  refine ⟨?_, rfl, decodeObjMapLoop_preserves, decodeSetLoop_preserves⟩
  intro fuel t es es2 ci lines
  cases fuel <;> rfl

/-- **C9 witness**: decoding `(new) 1` into a map holding `old ↦ 7`
leaves the `old` entry intact. -/
theorem C9_slice_replaced_map_preserved_witness :
    mapGet [(strL "old", .rint 64 7), (strL "new", .rint 64 1)] (strL "old") =
      mapGet [(strL "old", .rint 64 7)] (strL "old") := by
  have hrun : decodeObjMapLoop 3 (RTy.tint 64) [(strL "old", RVal.rint 64 7)]
      (-1) [strL "(new) 1"] =
      Except.ok ([(strL "old", RVal.rint 64 7), (strL "new", RVal.rint 64 1)], []) := rfl
  refine C9_slice_replaced_map_preserved.2.2.1 3 (.tint 64)
    [(strL "old", .rint 64 7)] (-1) [strL "(new) 1"]
    [(strL "old", .rint 64 7), (strL "new", .rint 64 1)] [] (strL "old")
    hrun ?_
  intro l hl li hcl
  simp only [List.mem_singleton] at hl
  subst hl
  have h2 : classifyLine (strL "(new) 1") =
      .ok (some ⟨0, strL "new", strL "1", .keyValue⟩) := rfl
  rw [h2] at hcl
  injection hcl with a
  injection a with b
  subst b
  decide

/-- **C6** (confirmed).  A nil pointer, a nil list and an empty non-nil
list all encode (outside arrays) to the identical ` nil\n` fragment
appended to the already-written key; and `setPrimitive` maps the literal
`nil` on a list or map slot to the nil collection, regardless of the
slot's current contents — never to a present-but-empty one. -/
theorem C6_nil_empty_collapse :
    (∀ (t : RTy) (i : Int), encodeValue (.rptr t none) i false = .ok (strL " nil\n")) ∧
    (∀ (t : RTy) (i : Int), encodeValue (.rlist t none) i false = .ok (strL " nil\n")) ∧
    (∀ (t : RTy) (i : Int), encodeValue (.rlist t (some [])) i false = .ok (strL " nil\n")) ∧
    (∀ (t : RTy) (es : Option (List RVal)),
      setPrimitive (.rlist t es) (strL "nil") = .ok (.rlist t none)) ∧
    (∀ (t : RTy) (m : Option (List (Str × RVal))),
      setPrimitive (.rmap t m) (strL "nil") = .ok (.rmap t none)) :=
  ⟨fun _ _ => rfl, fun _ _ => rfl, fun _ _ => rfl, fun _ _ => rfl, fun _ _ => rfl⟩

/-- **C1** (counterexample to the unrestricted claim).  The record
`struct { S string `piml:"s"` }{S: " x"}` — scalars only, so inside the
claimed universe — marshals to `(s)  x\n`, but unmarshalling that
document into a fresh destination of the same type trims the value to
`"x"`: `Decode(Encode(v))` is the record with field `"x"`, which differs
from `v` (field `" x"`). -/
theorem C1_roundtrip_counterexample :
    MarshalModel c1BadVal = .ok (strL "(s)  x\n") ∧
    UnmarshalModel 9 (strL "(s)  x\n")
      (.rptr (typeOf c1BadVal) (some (zeroVal (typeOf c1BadVal)))) =
      .ok (.rptr (typeOf c1BadVal)
        (some (.rrec [(strL "S", strL "s", false, .rstr (strL "x"))]))) ∧
    (RVal.rrec [(strL "S", strL "s", false, .rstr (strL "x"))]) ≠ c1BadVal := by
  refine ⟨rfl, rfl, ?_⟩
  intro h
  rw [c1BadVal] at h
  injection h with h1
  injection h1 with h2 h3
  have h5 : RVal.rstr (strL "x") = RVal.rstr (strL " x") :=
    congrArg (fun p => p.2.2.2) h2
  injection h5 with h6
  exact absurd h6 (by decide)

/-- **C1** (amended).  On the well-formed universe `wfVal` — records of
non-embedded fields with plain, pairwise-distinct emitted keys whose
values are plain trimmed scalars, nested records, nonempty lists of
uniformly-typed scalars or records, nonempty string-keyed scalar maps,
or nil pointers / nil lists / nil maps — the round trip is exact: for
any such record `v` and any fuel covering the document, marshalling
succeeds and unmarshalling the output into a fresh pointer to a zero
value of `v`'s type yields exactly `v`. -/
theorem C1_roundtrip_amended (fs : List (Str × Str × Bool × RVal)) (f : Nat)
    (hwf : wfVal (.rrec fs) = true) (hf : 2 + costFields fs ≤ f) :
    ∃ out, MarshalModel (.rrec fs) = .ok out ∧
      UnmarshalModel f out
        (.rptr (typeOf (.rrec fs)) (some (zeroVal (typeOf (.rrec fs))))) =
        .ok (.rptr (typeOf (.rrec fs)) (some (.rrec fs))) := by
  have hwf2 : (headersOKB fs && wfFieldVals fs) = true := hwf
  rw [Bool.and_eq_true] at hwf2
  obtain ⟨hh, hv⟩ := hwf2
  obtain ⟨hS, hOK⟩ := (encode_lines_pack (sizeOf fs)).2.1 fs (-1) (le_refl _)
    (headersOKB_split fs hh).1 hv (by omega)
  have hM : MarshalModel (.rrec fs) = .ok (unlines (fieldsLines fs (-1))) := by
    show (match encodeStruct fs (-1) with
      | Except.error e => Except.error e
      | Except.ok body =>
        Except.ok ((if (-1 : Int) > -1 then ['\n'] else ([] : Str)) ++ body)) =
      Except.ok (unlines (fieldsLines fs (-1)))
    rw [hS]
    rfl
  refine ⟨unlines (fieldsLines fs (-1)), hM, ?_⟩
  cases f with
  | zero => omega
  | succ f1 =>
  cases f1 with
  | zero => omega
  | succ f2 =>
  show (match decodeValue (f2 + 1 + 1)
      (.rptr (typeOf (.rrec fs)) (some (zeroVal (typeOf (.rrec fs))))) (-1)
      (splitLines (unlines (fieldsLines fs (-1)))) with
    | Except.error e => Except.error e
    | Except.ok (v', _) => Except.ok v') =
    Except.ok (.rptr (typeOf (.rrec fs)) (some (.rrec fs)))
  rw [splitLines_unlines _ hOK]
  cases fs with
  | nil =>
    rw [show fieldsLines ([] : List (Str × Str × Bool × RVal)) (-1) =
        ([] : List Str) from rfl]
    rw [decodeValue_stop (f2 + 1) _ (-1) [] (Or.inl rfl)]
    rfl
  | cons fld fs' =>
    obtain ⟨n, t, a, fv⟩ := fld
    have hmemhead : fieldHeaderB (n, t, a, fv) = true :=
      List.all_eq_true.1 (headersOKB_split _ hh).1 (n, t, a, fv) (by simp)
    have hkeyp : plainKeyB (if t = [] then toLowerGo n else t) = true := by
      rw [fieldHeaderB] at hmemhead
      simp only [Bool.and_eq_true] at hmemhead
      exact hmemhead.2
    have hwfg : wfVal fv = true := by
      have hv' := hv
      rw [wfFieldVals, Bool.and_eq_true] at hv'
      exact hv'.1
    obtain ⟨li, tail, hskip, h2, h3⟩ := fieldsLines_head_info n t a fv fs'
      (-1) [] (by omega) hkeyp hwfg
    rw [List.append_nil] at hskip
    have hP1 := (decode_wf_pack f2).1 ((n, t, a, fv) :: fs') [] (-1) (-1) []
      hh hv (by omega) (by omega) (Or.inl rfl) (by omega)
    simp only [List.nil_append, List.append_nil] at hP1
    simp only [decodeValue]
    rw [hskip]
    dsimp only
    rw [h2]
    rw [if_neg (by omega :
      ¬ (((2 * ((-1 : Int) + 1).toNat : Nat) : Int) ≤ (-1 : Int)))]
    have hfin : decodeObject (f2 + 1)
        (.rptr (typeOf (.rrec ((n, t, a, fv) :: fs')))
          (some (zeroVal (typeOf (.rrec ((n, t, a, fv) :: fs')))))) (-1)
        (fieldsLines ((n, t, a, fv) :: fs') (-1)) =
        .ok (.rptr (typeOf (.rrec ((n, t, a, fv) :: fs')))
          (some (.rrec ((n, t, a, fv) :: fs'))), []) := by
      simp only [decodeObject]
      rw [show indirectForce
          (.rptr (typeOf (.rrec ((n, t, a, fv) :: fs')))
            (some (zeroVal (typeOf (.rrec ((n, t, a, fv) :: fs')))))) =
          RVal.rrec (zeroFields (typeOfFields ((n, t, a, fv) :: fs')))
          from rfl]
      dsimp only
      rw [hP1]
      rfl
    rcases h3 with hkv | hko
    · rw [hkv]
      dsimp only
      rw [hfin]
    · rw [hko]
      dsimp only
      rw [hfin]

/-- Witness for **C1** (amended): the record `c1Val`, exercising every
shape of the universe (strings, ints, uints, bool, a nested record, a
scalar list, a record list, a scalar map, a nil pointer, a nil list),
round-trips exactly at fuel 60. -/
theorem C1_roundtrip_amended_witness :
    wfVal c1Val = true ∧
    (∃ out, MarshalModel c1Val = .ok out ∧
      UnmarshalModel 60 out
        (.rptr (typeOf c1Val) (some (zeroVal (typeOf c1Val)))) =
        .ok (.rptr (typeOf c1Val) (some c1Val))) :=
  ⟨rfl, C1_roundtrip_amended _ 60 rfl (by decide)⟩

end Piml

